import Mathlib

/-!
# CSP-Scheduling: a shallow embedding of `scheduler.h` / `scheduler.cpp`

The program solves a 7-day duty roster by backtracking search with MRV ordering,
forward checking and constraint propagation.  This file embeds its data model and
every function of the search core as executable Lean definitions and proves
properties of them.

Representation choices (all taken from the source):

* `int off[7]`, `int on[7]` are lists of `Int` (length 7 in every state the program
  builds); `arr[i]` is `List.getD arr i 0` and `arr[i] = v` is `List.set arr i v`.
  The field `on` is spelled `on_` because `on` is reserved in Lean.
* `std::unordered_set<std::string>` is a list of strings: `count(x) > 0` is
  membership, `insert` is `List.insert`, `erase` removes every occurrence.
  Its iteration order is the list order.
* `std::unordered_map<std::string, Worker>` is an association list; its iteration
  order is the list order.  `workers[k]` default-inserts a value-initialised
  `Worker` when `k` is missing (`Schedule.touch`), exactly as `operator[]` does; the
  new entry is placed at the end of the iteration order.
* `conflicts[k]` is read through `Schedule.conflictsOf`.  `operator[]` would insert
  an empty set for a missing key; the program reads `conflicts` only through
  `operator[]`, so an empty entry and a missing entry are the same relation and
  the embedding keeps the map unchanged.
* A function taking `Schedule&` returns the schedule it leaves behind together
  with its result, also on the paths that return `false`.
* `Worker::id` is never assigned after a worker is built, so a read of `w.id`
  through a reference is the value read when the reference was taken.
* `scheduler` recurses on a fuel argument; `none` means the fuel ran out.
-/

namespace CSP

/-- The seven day indices `0..6`, in the order of every `for (int i = 0; i < 7; i++)`. -/
def days : List Nat := [0, 1, 2, 3, 4, 5, 6]

/-- `struct Domain`: `off[i] == 1` / `on[i] == 1` means the option is still available. -/
structure Domain where
  off : List Int
  on_ : List Int
deriving DecidableEq, Repr

/-- The default member initialisers of `Domain`: every option available. -/
def Domain.fresh : Domain := ⟨[1, 1, 1, 1, 1, 1, 1], [1, 1, 1, 1, 1, 1, 1]⟩

/-- `Domain::count`: `std::count(arr, arr + 7, 1)`. -/
def Domain.count (arr : List Int) : Int := ((arr.count 1 : Nat) : Int)

/-- `struct Worker`. -/
structure Worker where
  id : String
  level : String
  domain : Domain
deriving DecidableEq, Repr

/-- A value-initialised `Worker`, as `operator[]` creates for a missing key. -/
def Worker.fresh : Worker := ⟨"", "", Domain.fresh⟩

/-- `struct Schedule`. -/
structure Schedule where
  off : List (List String)
  on_ : List (List String)
  workers : List (String × Worker)
  conflicts : List (String × List String)
  min_days_off : Int
  max_consec_days_off : Int
  min_daily_staff : Int
  min_daily_seniors : Int
deriving DecidableEq, Repr

/-- `set.erase(x)` on a set kept as a list. -/
def setErase (l : List String) (x : String) : List String := l.filter (fun y => y != x)

/-- `set.insert(x)` on a set kept as a list. -/
def setInsert (l : List String) (x : String) : List String := List.insert x l

/-- Lookup of a key in the worker table, `none` when the key is missing. -/
def findWorker (ws : List (String × Worker)) (k : String) : Option Worker :=
  match ws with
  | [] => none
  | p :: rest => if p.1 = k then some p.2 else findWorker rest k

/-- Apply `f` to the worker stored under key `k` (a write through `workers[k]`). -/
def modWorker (ws : List (String × Worker)) (k : String) (f : Worker → Worker) :
    List (String × Worker) :=
  match ws with
  | [] => []
  | p :: rest => if p.1 = k then (p.1, f p.2) :: rest else p :: modWorker rest k f

namespace Schedule

/-- The insertion `workers[k]` performs when `k` is not yet a key. -/
def touch (s : Schedule) (k : String) : Schedule :=
  match findWorker s.workers k with
  | some _ => s
  | none => { s with workers := s.workers ++ [(k, Worker.fresh)] }

/-- The worker currently stored under key `k` (read through a reference to `workers[k]`). -/
def worker (s : Schedule) (k : String) : Worker :=
  (findWorker s.workers k).getD Worker.fresh

/-- The set `conflicts[k]`. -/
def conflictsOf (s : Schedule) (k : String) : List String :=
  match s.conflicts.find? (fun p => p.1 == k) with
  | some p => p.2
  | none => []

/-- `workers[k].domain.on[i] = v`. -/
def setOn (s : Schedule) (k : String) (i : Nat) (v : Int) : Schedule :=
  { s with workers := (modWorker s.workers k
      (fun w => { w with domain := { w.domain with on_ := w.domain.on_.set i v } })) }

/-- `workers[k].domain.off[i] = v`. -/
def setOff (s : Schedule) (k : String) (i : Nat) (v : Int) : Schedule :=
  { s with workers := (modWorker s.workers k
      (fun w => { w with domain := { w.domain with off := w.domain.off.set i v } })) }

/-- `schedule.on[i].insert(x)`. -/
def insOn (s : Schedule) (i : Nat) (x : String) : Schedule :=
  { s with on_ := s.on_.set i (setInsert (s.on_.getD i []) x) }

/-- `schedule.on[i].erase(x)`. -/
def ersOn (s : Schedule) (i : Nat) (x : String) : Schedule :=
  { s with on_ := s.on_.set i (setErase (s.on_.getD i []) x) }

/-- `schedule.off[i].insert(x)`. -/
def insOff (s : Schedule) (i : Nat) (x : String) : Schedule :=
  { s with off := s.off.set i (setInsert (s.off.getD i []) x) }

/-- `schedule.off[i].erase(x)`. -/
def ersOff (s : Schedule) (i : Nat) (x : String) : Schedule :=
  { s with off := s.off.set i (setErase (s.off.getD i []) x) }

/-- `schedule.on[i].count(x) > 0`. -/
def isOn (s : Schedule) (i : Nat) (x : String) : Bool := decide (x ∈ s.on_.getD i [])

/-- `schedule.off[i].count(x) > 0`. -/
def isOff (s : Schedule) (i : Nat) (x : String) : Bool := decide (x ∈ s.off.getD i [])

/-- `Schedule::count`: the number of days whose set contains `id`. -/
def count (arr : List (List String)) (id : String) : Int :=
  ((days.countP (fun i => decide (id ∈ arr.getD i [])) : Nat) : Int)

end Schedule

/-- The loop of `mrv`; `all` is the whole table, read by `workers[mrv_id]`. -/
def mrvLoop (all : List (String × Worker)) (rest : List (String × Worker))
    (mrv_id : String) : String :=
  match rest with
  | [] => mrv_id
  | p :: tl =>
    if mrv_id = "" then mrvLoop all tl p.1
    else
      let rv_count := Domain.count p.2.domain.on_ + Domain.count p.2.domain.off
      let m := (findWorker all mrv_id).getD Worker.fresh
      let mrv_count := Domain.count m.domain.on_ + Domain.count m.domain.off
      if mrv_count = 0 ∨ (rv_count ≠ 0 ∧ rv_count < mrv_count) then mrvLoop all tl p.1
      else mrvLoop all tl mrv_id

/-- `mrv`: the key of a worker with the least non-zero number of available options. -/
def mrv (workers : List (String × Worker)) : String := mrvLoop workers workers ""

namespace Constraint

/-- `Constraint::check_min_days_off`. -/
def check_min_days_off (s : Schedule) (worker_id : String) : Bool × Schedule :=
  let s := s.touch worker_id
  (decide (Domain.count (s.worker worker_id).domain.off + Schedule.count s.off worker_id
      ≥ s.min_days_off), s)

/-- The loop of `Constraint::check_max_consec_days_off`, `count` being the running counter. -/
def check_max_consec_loop (s : Schedule) (worker_id : String) (rest : List Nat)
    (count : Int) : Bool :=
  match rest with
  | [] => true
  | i :: tl =>
    let count := if s.isOff i worker_id then count + 1 else 0
    if count ≥ s.max_consec_days_off then false
    else check_max_consec_loop s worker_id tl count

/-- `Constraint::check_max_consec_days_off`. -/
def check_max_consec_days_off (s : Schedule) (worker_id : String) : Bool :=
  check_max_consec_loop s worker_id days 0

/-- The test of the counting loop shared by `check_min_daily_staff` and
`propagate_min_daily_staff`: `w.domain.on[day] || schedule.on[day].count(w.id) > 0`. -/
def reachable (s : Schedule) (day : Nat) (w : Worker) : Bool :=
  decide (w.domain.on_.getD day 0 ≠ 0) || s.isOn day w.id

/-- The counter `workers_count` after the counting loop. -/
def workers_count (s : Schedule) (day : Nat) : Int :=
  ((s.workers.countP (fun p => reachable s day p.2) : Nat) : Int)

/-- The counter `seniors_count` after the counting loop. -/
def seniors_count (s : Schedule) (day : Nat) : Int :=
  ((s.workers.countP (fun p => reachable s day p.2 && decide (p.2.level = "senior")) : Nat) : Int)

/-- `Constraint::check_min_daily_staff` (the worker argument is unused, as in the source). -/
def check_min_daily_staff (s : Schedule) (_worker_id : String) (day : Nat) : Bool :=
  decide (workers_count s day ≥ s.min_daily_staff) &&
    decide (seniors_count s day ≥ s.min_daily_seniors)

/-- `Constraint::check_conflicts`. -/
def check_conflicts (s : Schedule) (worker_id : String) (day : Nat) : Bool :=
  if s.isOn day worker_id then
    (s.conflictsOf worker_id).all (fun id => !s.isOn day id)
  else true

/-- `Constraint::check`: the short-circuit conjunction of the four predicates. -/
def check (s : Schedule) (worker_id : String) (day : Nat) : Bool × Schedule :=
  let r := check_min_days_off s worker_id
  if r.1 = false then (false, r.2)
  else if check_max_consec_days_off r.2 worker_id = false then (false, r.2)
  else if check_min_daily_staff r.2 worker_id day = false then (false, r.2)
  else (check_conflicts r.2 worker_id day, r.2)

/-- The loop of `Constraint::propagate_min_days_off` over the remaining days. -/
def propagate_min_days_off_loop (worker_id : String) (rest : List Nat) (s : Schedule) :
    Bool × Schedule :=
  match rest with
  | [] => (true, s)
  | i :: tl =>
    let w := s.worker worker_id
    if w.domain.off.getD i 0 = 1 ∧ w.domain.on_.getD i 0 = 1 then
      let s1 := ((s.setOn worker_id i 0).setOff worker_id i 0).insOff i w.id
      let r := check s1 w.id i
      if r.1 = false then (false, r.2)
      else
        let s2 := (r.2.setOff worker_id i 1).ersOff i w.id
        propagate_min_days_off_loop worker_id tl s2
    else propagate_min_days_off_loop worker_id tl s

/-- `Constraint::propagate_min_days_off`. -/
def propagate_min_days_off (s : Schedule) (worker_id : String) : Bool × Schedule :=
  let s := s.touch worker_id
  let w := s.worker worker_id
  let count := Domain.count w.domain.off + Schedule.count s.off worker_id
  if count = s.min_days_off then propagate_min_days_off_loop worker_id days s
  else (true, s)

/-- The status array `arr` of `propagate_max_consec_days_off`:
0 unknown, 1 committed off, 2 off still available. -/
def statusArr (s : Schedule) (worker_id : String) : List Int :=
  days.map (fun i =>
    if (s.worker worker_id).domain.off.getD i 0 = 1 then 2
    else if s.isOff i worker_id then 1 else 0)

/-- The loop `while (i >= 0 && arr[i] == 1) i--` started at `i = n - 1`; the result is `i`. -/
def scanLeft (arr : List Int) : Nat → Int
  | 0 => -1
  | n + 1 => if arr.getD n 0 = 1 then scanLeft arr n else (n : Int)

/-- The loop `while (j < 7 && arr[j] == 1) j++` started at `j`; the result is `j`. -/
def scanRight (arr : List Int) : Nat → Nat → Nat
  | 0, j => j
  | fuel + 1, j => if j < 7 ∧ arr.getD j 0 = 1 then scanRight arr fuel (j + 1) else j

/-- The block of `propagate_max_consec_days_off` that removes the off option of day `i`
and probes the forced on-duty commit. -/
def forceOn (worker_id : String) (i : Nat) (s : Schedule) : Bool × Schedule :=
  let w := s.worker worker_id
  if w.domain.off.getD i 0 = 1 then
    let savedOn := w.domain.on_.getD i 0
    let s1 := ((s.setOff worker_id i 0).setOn worker_id i 0).insOn i w.id
    let r := check s1 w.id i
    if r.1 = false then (false, r.2)
    else (true, (r.2.setOn worker_id i savedOn).ersOn i w.id)
  else (true, s)

/-- The loop over `k` of `Constraint::propagate_max_consec_days_off`. -/
def propagate_max_consec_loop (worker_id : String) (arr : List Int) (rest : List Nat)
    (s : Schedule) : Bool × Schedule :=
  match rest with
  | [] => (true, s)
  | k :: tl =>
    if arr.getD k 0 = 2 then
      let i := scanLeft arr k
      let j := scanRight arr 7 (k + 1)
      let count : Int := (j : Int) - i - 1
      if count + 1 ≥ s.max_consec_days_off then
        let r1 := if i ≥ 0 then forceOn worker_id i.toNat s else (true, s)
        if r1.1 = false then (false, r1.2)
        else
          let r2 := if j < 7 then forceOn worker_id j r1.2 else (true, r1.2)
          if r2.1 = false then (false, r2.2)
          else propagate_max_consec_loop worker_id arr tl r2.2
      else propagate_max_consec_loop worker_id arr tl s
    else propagate_max_consec_loop worker_id arr tl s

/-- `Constraint::propagate_max_consec_days_off`. -/
def propagate_max_consec_days_off (s : Schedule) (worker_id : String) : Bool × Schedule :=
  let s := s.touch worker_id
  propagate_max_consec_loop worker_id (statusArr s worker_id) days s

/-- The two forcing loops of `propagate_min_daily_staff` over the table keys; with
`seniorsOnly` the loop of the `else if` branch. -/
def force_staff_loop (seniorsOnly : Bool) (day : Nat) (keys : List String) (s : Schedule) :
    Bool × Schedule :=
  match keys with
  | [] => (true, s)
  | k :: tl =>
    let w := s.worker k
    if (seniorsOnly = false ∨ w.level = "senior") ∧ w.domain.on_.getD day 0 = 1
        ∧ w.domain.off.getD day 0 = 1 then
      let s1 := ((s.setOff k day 0).setOn k day 0).insOn day k
      let r := check s1 k day
      if r.1 = false then (false, r.2)
      else force_staff_loop seniorsOnly day tl ((r.2.setOn k day 1).ersOn day k)
    else force_staff_loop seniorsOnly day tl s

/-- `Constraint::propagate_min_daily_staff` (the worker argument is unused, as in the source). -/
def propagate_min_daily_staff (s : Schedule) (_worker_id : String) (day : Nat) :
    Bool × Schedule :=
  if workers_count s day = s.min_daily_staff then
    force_staff_loop false day (s.workers.map Prod.fst) s
  else if seniors_count s day = s.min_daily_seniors then
    force_staff_loop true day (s.workers.map Prod.fst) s
  else (true, s)

/-- The first inner loop of `propagate_conflicts`: on every day `worker_id` is on duty,
the partner `w` stored under key `id` (`wid` is `w.id`) is tentatively set off duty. -/
def probeOff (worker_id id wid : String) (rest : List Nat) (s : Schedule) : Schedule :=
  match rest with
  | [] => s
  | i :: tl =>
    if s.isOn i worker_id then
      probeOff worker_id id wid tl (((s.setOn id i 0).setOff id i 0).insOff i wid)
    else probeOff worker_id id wid tl s

/-- The second inner loop of `propagate_conflicts`: the roll back, `on`/`off` being the
saved arrays. -/
def rollbackOff (worker_id id wid : String) (savedOn savedOff : List Int) (rest : List Nat)
    (s : Schedule) : Schedule :=
  match rest with
  | [] => s
  | i :: tl =>
    if s.isOn i worker_id then
      rollbackOff worker_id id wid savedOn savedOff tl
        (((s.setOn id i (savedOn.getD i 0)).setOff id i (savedOff.getD i 0)).ersOff i wid)
    else rollbackOff worker_id id wid savedOn savedOff tl s

/-- The loop of `propagate_conflicts` over the ids of `conflicts[worker_id]`. -/
def propagate_conflicts_loop (worker_id : String) (day : Nat) (ids : List String)
    (s : Schedule) : Bool × Schedule :=
  match ids with
  | [] => (true, s)
  | id :: tl =>
    let s := s.touch id
    let w := s.worker id
    if w.domain.on_.getD day 0 = 1 then
      let s1 := s.setOn id day 0
      let savedOn := (s1.worker id).domain.on_
      let savedOff := (s1.worker id).domain.off
      let s2 := probeOff worker_id id w.id days s1
      let r := check s2 w.id day
      if r.1 = false then (false, r.2)
      else propagate_conflicts_loop worker_id day tl
        (rollbackOff worker_id id w.id savedOn savedOff days r.2)
    else propagate_conflicts_loop worker_id day tl s

/-- `Constraint::propagate_conflicts`. -/
def propagate_conflicts (s : Schedule) (worker_id : String) (day : Nat) : Bool × Schedule :=
  if s.isOn day worker_id then
    propagate_conflicts_loop worker_id day (s.conflictsOf worker_id) s
  else (true, s)

/-- `Constraint::propagate`: the short-circuit conjunction of the four passes. -/
def propagate (s : Schedule) (worker_id : String) (day : Nat) : Bool × Schedule :=
  let r1 := propagate_min_days_off s worker_id
  if r1.1 = false then (false, r1.2)
  else
    let r2 := propagate_max_consec_days_off r1.2 worker_id
    if r2.1 = false then (false, r2.2)
    else
      let r3 := propagate_min_daily_staff r2.2 worker_id day
      if r3.1 = false then (false, r3.2)
      else propagate_conflicts r3.2 worker_id day

end Constraint

/-- One tentative move of `scheduler`: after the commit `s1`, run `check`, copy the
schedule, run `propagate` on the copy and recurse (`rec`).  The result is `some (some t)`
when the recursion succeeded with schedule `t`, `some none` when the move failed (the
second component then is the caller's schedule after `check`), `none` without fuel. -/
def tryMove (rec : Schedule → Option (Bool × Schedule)) (s1 : Schedule) (worker_id : String)
    (i : Nat) : Option (Option Schedule × Schedule) :=
  let c := Constraint.check s1 worker_id i
  if c.1 = false then some (none, c.2)
  else
    let p := Constraint.propagate c.2 worker_id i
    if p.1 = false then some (none, c.2)
    else
      match rec p.2 with
      | none => none
      | some (true, t) => some (some t, c.2)
      | some (false, _) => some (none, c.2)

/-- The first half of the loop body of `scheduler`: the on-duty trial of day `i`.
The result is that of `tryMove`; after a failed move the second component is the
schedule rolled back. -/
def trialOn (rec : Schedule → Option (Bool × Schedule)) (worker_id : String) (i : Nat)
    (s : Schedule) : Option (Option Schedule × Schedule) :=
  let w := s.worker worker_id
  if w.domain.on_.getD i 0 = 1 then
    let savedOff := w.domain.off.getD i 0
    let s1 := ((s.insOn i worker_id).setOn worker_id i 0).setOff worker_id i 0
    match tryMove rec s1 worker_id i with
    | none => none
    | some (some t, c) => some (some t, c)
    | some (none, c) =>
      some (none, ((c.ersOn i worker_id).setOn worker_id i 1).setOff worker_id i savedOff)
  else some (none, s)

/-- The second half of the loop body of `scheduler`: the off-duty trial of day `i`. -/
def trialOff (rec : Schedule → Option (Bool × Schedule)) (worker_id : String) (i : Nat)
    (s : Schedule) : Option (Option Schedule × Schedule) :=
  let w := s.worker worker_id
  if w.domain.off.getD i 0 = 1 then
    let savedOn := w.domain.on_.getD i 0
    let s1 := ((s.insOff i worker_id).setOn worker_id i 0).setOff worker_id i 0
    match tryMove rec s1 worker_id i with
    | none => none
    | some (some t, c) => some (some t, c)
    | some (none, c) =>
      some (none, ((c.ersOff i worker_id).setOn worker_id i savedOn).setOff worker_id i 1)
  else some (none, s)

/-- The loop `for (int i = 0; i < 7; i++)` of `scheduler`. -/
def schedulerLoop (rec : Schedule → Option (Bool × Schedule)) (worker_id : String)
    (rest : List Nat) (s : Schedule) : Option (Bool × Schedule) :=
  match rest with
  | [] => some (false, s)
  | i :: tl =>
    match trialOn rec worker_id i s with
    | none => none
    | some (some t, _) => some (true, t)
    | some (none, sa) =>
      match trialOff rec worker_id i sa with
      | none => none
      | some (some t, _) => some (true, t)
      | some (none, sb) => schedulerLoop rec worker_id tl sb

/-- `scheduler` with a bound on the recursion depth; `none` when the bound is hit. -/
def schedulerFuel : Nat → Schedule → Option (Bool × Schedule)
  | 0, _ => none
  | fuel + 1, s =>
    if s.workers = [] then some (true, s)
    else
      let worker_id := mrv s.workers
      let s := s.touch worker_id
      let w := s.worker worker_id
      let on_count := Domain.count w.domain.on_
      let off_count := Domain.count w.domain.off
      if on_count = 0 ∧ off_count = 0 then some (true, s)
      else schedulerLoop (schedulerFuel fuel) worker_id days s

/-- The total number of available options of the table, which bounds the recursion depth. -/
def liveTotal (ws : List (String × Worker)) : Nat :=
  (ws.map (fun p => p.2.domain.on_.count 1 + p.2.domain.off.count 1)).sum

/-- `scheduler`: the search started with fuel for every option of the table. -/
def scheduler (s : Schedule) : Option (Bool × Schedule) :=
  schedulerFuel (liveTotal s.workers + 1) s

namespace Schedule

/-- The keys of the worker table, in iteration order. -/
def keys (s : Schedule) : List String := s.workers.map Prod.fst

/-- The entry `workers[k].domain.on[i]`. -/
def bOn (s : Schedule) (k : String) (i : Nat) : Int := (s.worker k).domain.on_.getD i 0

/-- The entry `workers[k].domain.off[i]`. -/
def bOff (s : Schedule) (k : String) (i : Nat) : Int := (s.worker k).domain.off.getD i 0

end Schedule

/-- A `Worker` as `load_file` builds it for a line `id level`: the default domain. -/
def newWorker (id level : String) : Worker := ⟨id, level, Domain.fresh⟩

/-- The schedule `load_file` returns for the worker lines `ws` (in table iteration order),
the conflict map `cf` and the four thresholds: nothing committed, every option available. -/
def initial (ws : List (String × String)) (cf : List (String × List String))
    (min_days_off max_consec_days_off min_daily_staff min_daily_seniors : Int) : Schedule :=
  { off := [[], [], [], [], [], [], []]
    on_ := [[], [], [], [], [], [], []]
    workers := ws.map (fun p => (p.1, newWorker p.1 p.2))
    conflicts := cf
    min_days_off := min_days_off
    max_consec_days_off := max_consec_days_off
    min_daily_staff := min_daily_staff
    min_daily_seniors := min_daily_seniors }

/-- The number of available options of a worker: `Domain::count` of both arrays. -/
def liveCount (w : Worker) : Int := Domain.count w.domain.on_ + Domain.count w.domain.off

/-! ### Vocabulary of the properties -/

/-- An initial state of the search: every option of every worker available, nothing
committed, table keys equal to worker ids and distinct, a symmetric and irreflexive
conflict relation over declared workers, non-negative thresholds. -/
structure IsInitial (s : Schedule) : Prop where
  on_empty : s.on_ = [[], [], [], [], [], [], []]
  off_empty : s.off = [[], [], [], [], [], [], []]
  fresh : ∀ p ∈ s.workers, p.2.domain = Domain.fresh
  ids : ∀ p ∈ s.workers, p.2.id = p.1
  keys_nodup : s.keys.Nodup
  declared : ∀ a b, b ∈ s.conflictsOf a → a ∈ s.keys ∧ b ∈ s.keys
  symm : ∀ a b, b ∈ s.conflictsOf a → a ∈ s.conflictsOf b
  irrefl : ∀ a, a ∉ s.conflictsOf a
  nonneg : 0 ≤ s.min_days_off ∧ 0 ≤ s.max_consec_days_off ∧ 0 ≤ s.min_daily_staff ∧
    0 ≤ s.min_daily_seniors

/-- The days `start, …, start + len - 1` lie within `0..6` and worker `w` is committed
off duty on each of them (a block of `len` consecutive days, without wraparound). -/
def OffBlock (s : Schedule) (w : String) (start len : Nat) : Prop :=
  start + len ≤ 7 ∧ ∀ d, start ≤ d → d < start + len → s.isOff d w = true

/-- No block of consecutive committed-off days of worker `w` has length
`max_consec_days_off` or more. -/
def NoLongRun (s : Schedule) (w : String) : Prop :=
  ¬ ∃ start len : Nat, s.max_consec_days_off ≤ (len : Int) ∧ OffBlock s w start len

/-- The number of workers of the table committed on duty on day `d`. -/
def onCount (s : Schedule) (d : Nat) : Int :=
  ((s.workers.countP (fun p => s.isOn d p.1) : Nat) : Int)

/-- The number of workers of level `"senior"` committed on duty on day `d`. -/
def seniorOnCount (s : Schedule) (d : Nat) : Int :=
  ((s.workers.countP (fun p => s.isOn d p.1 && decide (p.2.level = "senior")) : Nat) : Int)

/-- The cell of worker `w` and day `d` is decided: `w` is in exactly one of the two
committed sets of the day. -/
def Decided (s : Schedule) (w : String) (d : Nat) : Prop :=
  (s.isOn d w = true ∧ s.isOff d w = false) ∨ (s.isOn d w = false ∧ s.isOff d w = true)

instance (s : Schedule) (w : String) (d : Nat) : Decidable (Decided s w d) := by
  unfold Decided; infer_instance

/-- A complete on/off assignment, `a w d = true` meaning worker `w` is on duty on day `d`. -/
abbrev Assignment := String → Nat → Bool

/-- The assignment `a` satisfies the four constraint families under the thresholds, the
worker table and the conflict relation of `s`. -/
structure Feasible (s : Schedule) (a : Assignment) : Prop where
  min_days_off : ∀ w ∈ s.keys,
    s.min_days_off ≤ ((days.countP (fun d => !a w d) : Nat) : Int)
  max_consec : ∀ w ∈ s.keys, ¬ ∃ start len : Nat, s.max_consec_days_off ≤ (len : Int) ∧
    start + len ≤ 7 ∧ ∀ d, start ≤ d → d < start + len → a w d = false
  staff : ∀ d ∈ days, s.min_daily_staff ≤ ((s.workers.countP (fun p => a p.1 d) : Nat) : Int)
  seniors : ∀ d ∈ days, s.min_daily_seniors ≤
    ((s.workers.countP (fun p => a p.1 d && decide (p.2.level = "senior")) : Nat) : Int)
  conflicts : ∀ d ∈ days, ∀ x y, y ∈ s.conflictsOf x → ¬ (a x d = true ∧ a y d = true)

/-- The data-model invariants of a schedule: distinct table keys equal to the worker ids,
seven entries 0/1 in every array, seven committed sets of each kind, no worker in both
committed sets of a day, both options of a committed day removed, a symmetric and
irreflexive conflict relation over declared workers, non-negative thresholds. -/
structure DataInv (s : Schedule) : Prop where
  keys_nodup : s.keys.Nodup
  ids : ∀ p ∈ s.workers, p.2.id = p.1
  len_sets : s.on_.length = 7 ∧ s.off.length = 7
  len_arrs : ∀ p ∈ s.workers, p.2.domain.on_.length = 7 ∧ p.2.domain.off.length = 7
  bits : ∀ p ∈ s.workers, (∀ x ∈ p.2.domain.on_, x = 0 ∨ x = 1) ∧
    (∀ x ∈ p.2.domain.off, x = 0 ∨ x = 1)
  exclusive : ∀ k ∈ s.keys, ∀ d ∈ days, ¬ (s.isOn d k = true ∧ s.isOff d k = true)
  committed_dead : ∀ k ∈ s.keys, ∀ d ∈ days,
    (s.isOn d k = true ∨ s.isOff d k = true) → s.bOn k d = 0 ∧ s.bOff k d = 0
  declared : ∀ a b, b ∈ s.conflictsOf a → a ∈ s.keys ∧ b ∈ s.keys
  symm : ∀ a b, b ∈ s.conflictsOf a → a ∈ s.conflictsOf b
  irrefl : ∀ a, a ∉ s.conflictsOf a
  nonneg : 0 ≤ s.min_days_off ∧ 0 ≤ s.max_consec_days_off ∧ 0 ≤ s.min_daily_staff ∧
    0 ≤ s.min_daily_seniors

/-- The domain invariant: every (worker, day) is either committed (in exactly one
committed set, both options removed) or uncommitted with at least one option available. -/
def DomainInv (s : Schedule) : Prop :=
  ∀ k ∈ s.keys, ∀ d ∈ days,
    (Decided s k d ∧ s.bOn k d = 0 ∧ s.bOff k d = 0) ∨
    (s.isOn d k = false ∧ s.isOff d k = false ∧ (s.bOn k d = 1 ∨ s.bOff k d = 1))

instance (s : Schedule) : Decidable (DomainInv s) := by
  unfold DomainInv; infer_instance

/-! ### Concrete schedules used as inputs -/

/-- A table in which `""` has every option available and `B` has none. -/
def tableEmptyId : List (String × Worker) :=
  [("", newWorker "" "regular"),
   ("B", ⟨"B", "regular", ⟨[0, 0, 0, 0, 0, 0, 0], [0, 0, 0, 0, 0, 0, 0]⟩⟩)]

/-- One worker who needs two rest days, runs of two rest days being forbidden. -/
def rosterSingle : Schedule := initial [("A", "regular")] [] 2 2 0 0

/-- A state in which `X` is committed on duty on days 0 and 1 and its conflict partner
`W` is committed off duty on day 0 and undecided on day 1. -/
def stateConflictProbe : Schedule :=
  { off := [["W"], [], [], [], [], [], []]
    on_ := [["X"], ["X"], [], [], [], [], []]
    workers :=
      [("X", ⟨"X", "regular", ⟨[0, 0, 1, 1, 1, 1, 1], [0, 0, 1, 1, 1, 1, 1]⟩⟩),
       ("W", ⟨"W", "regular", ⟨[0, 1, 1, 1, 1, 1, 1], [0, 1, 1, 1, 1, 1, 1]⟩⟩)]
    conflicts := [("X", ["W"]), ("W", ["X"])]
    min_days_off := 0
    max_consec_days_off := 8
    min_daily_staff := 0
    min_daily_seniors := 0 }

/-- A state in which `A` is committed off duty on day 0 and, on day 2, has lost the
on-duty option while the off-duty option is still available. -/
def stateForcedOff : Schedule :=
  { off := [["A"], [], [], [], [], [], []]
    on_ := [[], [], [], [], [], [], []]
    workers := [("A", ⟨"A", "regular", ⟨[0, 1, 1, 1, 1, 1, 1], [0, 1, 0, 1, 1, 1, 1]⟩⟩)]
    conflicts := []
    min_days_off := 0
    max_consec_days_off := 2
    min_daily_staff := 0
    min_daily_seniors := 0 }

/-- Two schedules that differ at most in the level strings of their workers. -/
def SameUpToLevels (s s' : Schedule) : Prop :=
  s'.off = s.off ∧ s'.on_ = s.on_ ∧ s'.conflicts = s.conflicts ∧
  s'.min_days_off = s.min_days_off ∧ s'.max_consec_days_off = s.max_consec_days_off ∧
  s'.min_daily_staff = s.min_daily_staff ∧ s'.min_daily_seniors = s.min_daily_seniors ∧
  List.Forall₂ (fun p p' => p'.1 = p.1 ∧ p'.2.id = p.2.id ∧ p'.2.domain = p.2.domain)
    s.workers s'.workers

/-- The number of workers of the table that are committed on duty on day `d` or still
have the on-duty option of that day (a non-zero entry, the source's truth test). -/
def reachCount (s : Schedule) (d : Nat) : Int :=
  ((s.workers.countP (fun p => decide (p.2.domain.on_.getD d 0 ≠ 0) ||
    decide (p.2.id ∈ s.on_.getD d [])) : Nat) : Int)

/-- A complete schedule of the seniors `X` and `W`, who conflict: `X` is on duty on days
0, 1, 3, 5 and `W` on days 2, 4, 6; every option is removed. -/
def stateComplete : Schedule :=
  { off := [["W"], ["W"], ["X"], ["W"], ["X"], ["W"], ["X"]]
    on_ := [["X"], ["X"], ["W"], ["X"], ["W"], ["X"], ["W"]]
    workers :=
      [("X", ⟨"X", "senior", ⟨[0, 0, 0, 0, 0, 0, 0], [0, 0, 0, 0, 0, 0, 0]⟩⟩),
       ("W", ⟨"W", "senior", ⟨[0, 0, 0, 0, 0, 0, 0], [0, 0, 0, 0, 0, 0, 0]⟩⟩)]
    conflicts := [("X", ["W"]), ("W", ["X"])]
    min_days_off := 2
    max_consec_days_off := 3
    min_daily_staff := 1
    min_daily_seniors := 1 }

/-! ### Registration of a conflict group (`load_file` and `main`, the `-conflict` branch) -/

/-- A write of the set `v` through `conflicts[k]`: the entry of `k` is replaced, or a new
entry is inserted when `k` is not yet a key. -/
def setConflicts (cf : List (String × List String)) (k : String) (v : List String) :
    List (String × List String) :=
  match cf with
  | [] => [(k, v)]
  | p :: rest => if p.1 = k then (p.1, v) :: rest else p :: setConflicts rest k v

/-- `set.insert(ids.begin(), ids.end())`. -/
def setInsertAll (l : List String) (ids : List String) : List String :=
  ids.foldl setInsert l

namespace Schedule

/-- The body of the loop `for (auto& id : ids)`:
`conflicts[id].insert(ids.begin(), ids.end()); conflicts[id].erase(id);`. -/
def linkGroup (ids : List String) (s : Schedule) (id : String) : Schedule :=
  { s with conflicts := (setConflicts s.conflicts id
      (setErase (setInsertAll (s.conflictsOf id) ids) id)) }

/-- The `-conflict` branch applied to the ids of one group. -/
def registerConflict (s : Schedule) (ids : List String) : Schedule :=
  ids.foldl (linkGroup ids) s

end Schedule

/-- The committed sets, the conflict relation and the thresholds of a schedule. -/
structure Board where
  off : List (List String)
  on_ : List (List String)
  conflicts : List (String × List String)
  min_days_off : Int
  max_consec_days_off : Int
  min_daily_staff : Int
  min_daily_seniors : Int

/-- The board of a schedule. -/
def Schedule.board (s : Schedule) : Board :=
  ⟨s.off, s.on_, s.conflicts, s.min_days_off, s.max_consec_days_off, s.min_daily_staff,
    s.min_daily_seniors⟩

namespace Board

/-- `on[i].insert(x)` on a board. -/
def insOn (b : Board) (i : Nat) (x : String) : Board :=
  { b with on_ := b.on_.set i (setInsert (b.on_.getD i []) x) }

/-- `on[i].erase(x)` on a board. -/
def ersOn (b : Board) (i : Nat) (x : String) : Board :=
  { b with on_ := b.on_.set i (setErase (b.on_.getD i []) x) }

/-- `off[i].insert(x)` on a board. -/
def insOff (b : Board) (i : Nat) (x : String) : Board :=
  { b with off := b.off.set i (setInsert (b.off.getD i []) x) }

/-- `off[i].erase(x)` on a board. -/
def ersOff (b : Board) (i : Nat) (x : String) : Board :=
  { b with off := b.off.set i (setErase (b.off.getD i []) x) }

/-- Board `b'` keeps the conflict relation and thresholds of `b`, and its committed sets
are contained in those of `b`. -/
structure Shrink (b b' : Board) : Prop where
  on_sub : ∀ i x, x ∈ b'.on_.getD i [] → x ∈ b.on_.getD i []
  off_sub : ∀ i x, x ∈ b'.off.getD i [] → x ∈ b.off.getD i []
  conflicts : b'.conflicts = b.conflicts
  mdo : b'.min_days_off = b.min_days_off
  mc : b'.max_consec_days_off = b.max_consec_days_off
  ms : b'.min_daily_staff = b.min_daily_staff
  msr : b'.min_daily_seniors = b.min_daily_seniors

end Board

/-- The on-duty commit of `scheduler`: `on[i].insert(k)`, both options of day `i` removed. -/
def commitOn (s : Schedule) (k : String) (i : Nat) : Schedule :=
  ((s.insOn i k).setOn k i 0).setOff k i 0

/-- The off-duty commit of `scheduler`: `off[i].insert(k)`, both options of day `i` removed. -/
def commitOff (s : Schedule) (k : String) (i : Nat) : Schedule :=
  ((s.insOff i k).setOn k i 0).setOff k i 0

/-- A state in which `A` is committed on duty on days 0–4 and undecided on days 5 and 6,
with `min_days_off = 2`: the two remaining off-duty options are exactly the quota. -/
def stateTightRest : Schedule :=
  { off := [[], [], [], [], [], [], []]
    on_ := [["A"], ["A"], ["A"], ["A"], ["A"], [], []]
    workers := [("A", ⟨"A", "regular", ⟨[0, 0, 0, 0, 0, 1, 1], [0, 0, 0, 0, 0, 1, 1]⟩⟩)]
    conflicts := []
    min_days_off := 2
    max_consec_days_off := 3
    min_daily_staff := 0
    min_daily_seniors := 0 }

/-- Worker `k` is in neither committed set of a day on which it still has an option. -/
def LiveUncommitted (s : Schedule) (k : String) : Prop :=
  ∀ i, (s.bOn k i = 1 ∨ s.bOff k i = 1) → k ∉ s.on_.getD i [] ∧ k ∉ s.off.getD i []

/-- No two workers related by the conflict relation are committed on duty on the same day,
and the conflict relation is symmetric. -/
def NoClash (s : Schedule) : Prop :=
  (∀ a b, b ∈ s.conflictsOf a → a ∈ s.conflictsOf b) ∧
  ∀ d x y, y ∈ s.conflictsOf x → ¬ (x ∈ s.on_.getD d [] ∧ y ∈ s.on_.getD d [])

/-- Workers `A` and `B` (senior) who conflict with each other. -/
def rosterRivals : Schedule :=
  initial [("A", "regular"), ("B", "senior")] [("A", ["B"]), ("B", ["A"])] 2 3 1 0

/-- One worker and a staffing threshold of two. -/
def rosterShort : Schedule := initial [("A", "regular")] [] 0 8 2 0

/-- The empty worker table with a staffing threshold of one. -/
def rosterNobody : Schedule := initial [] [] 2 3 1 1

namespace Constraint

/-- The value `count` of `propagate_max_consec_days_off` for day `k`: the length of the
block made of `k` and the runs of status-1 (committed off) days adjacent to it. -/
def blockLength (arr : List Int) (k : Nat) : Int :=
  (scanRight arr 7 (k + 1) : Int) - scanLeft arr k - 1

end Constraint

/-- A state in which `A` is committed off duty on day 0 and undecided on the other days,
with `max_consec_days_off = 3`. -/
def stateRunOfTwo : Schedule :=
  { off := [["A"], [], [], [], [], [], []]
    on_ := [[], [], [], [], [], [], []]
    workers := [("A", ⟨"A", "regular", ⟨[0, 1, 1, 1, 1, 1, 1], [0, 1, 1, 1, 1, 1, 1]⟩⟩)]
    conflicts := []
    min_days_off := 0
    max_consec_days_off := 3
    min_daily_staff := 0
    min_daily_seniors := 0 }

/-- What a successful run of the first two passes of `propagate` may change: nothing but
options of worker `w`, which are removed. -/
structure Narrowed (w : String) (s s' : Schedule) : Prop where
  on_eq : s'.on_ = s.on_
  off_eq : s'.off = s.off
  conflicts_eq : s'.conflicts = s.conflicts
  thresholds_eq : s'.min_days_off = s.min_days_off ∧
    s'.max_consec_days_off = s.max_consec_days_off ∧
    s'.min_daily_staff = s.min_daily_staff ∧ s'.min_daily_seniors = s.min_daily_seniors
  keys_eq : s'.keys = s.keys
  others : ∀ k, k ≠ w → s'.worker k = s.worker k
  id_eq : (s'.worker w).id = (s.worker w).id
  level_eq : (s'.worker w).level = (s.worker w).level
  ons_le : ∀ j, s'.bOn w j = s.bOn w j ∨ s'.bOn w j = 0
  offs_le : ∀ j, s'.bOff w j = s.bOff w j ∨ s'.bOff w j = 0

/-- The probe of `propagate_min_days_off` for worker `k` and day `i`: both options
removed and `k` tentatively committed off duty. -/
def probeOffDuty (s : Schedule) (k : String) (i : Nat) : Schedule :=
  ((s.setOn k i 0).setOff k i 0).insOff i k

/-- The probe of a forced on-duty commit (`propagate_max_consec_days_off` and
`propagate_min_daily_staff`): both options removed and `k` tentatively committed on duty. -/
def probeOnDuty (s : Schedule) (k : String) (i : Nat) : Schedule :=
  ((s.setOff k i 0).setOn k i 0).insOn i k

/-- The worker lines of the roster of three: `A` and `C` regular, `B` senior. -/
def trio : List (String × String) := [("A", "regular"), ("B", "senior"), ("C", "regular")]

/-- The initial state of the roster of three with the table in iteration order `ws`:
no conflicts, `min_days_off = 2`, `max_consec_days_off = 3`, `min_daily_staff = 2`,
`min_daily_seniors = 1`. -/
def rosterTrio (ws : List (String × String)) : Schedule := initial ws [] 2 3 2 1

/-- A search state of a roster without conflicts whose only senior is `b`, with a senior
required every day and a rest day required of everybody: `b` is still on duty or able to
be on every day, still has room for its rest days, and is in at most one committed set
of a day. -/
structure SoleSenior (b : String) (s : Schedule) : Prop where
  nodup : s.keys.Nodup
  noEmpty : "" ∉ s.keys
  mem : b ∈ s.keys
  ids : ∀ k ∈ s.keys, (s.worker k).id = k
  only : ∀ k ∈ s.keys, (s.worker k).level = "senior" → k = b
  live : ∀ k ∈ s.keys, LiveUncommitted s k
  noconf : s.conflicts = []
  lenOn : s.on_.length = 7
  seniors : 1 ≤ s.min_daily_seniors
  restPos : 1 ≤ s.min_days_off
  bits : ∀ d, s.bOn b d = 0 ∨ s.bOn b d = 1
  reach : ∀ d ∈ days, s.bOn b d = 1 ∨ b ∈ s.on_.getD d []
  rest : s.min_days_off ≤ Domain.count (s.worker b).domain.off + Schedule.count s.off b
  disj : ∀ d, b ∈ s.on_.getD d [] → b ∉ s.off.getD d []

/-- Workers `A` (regular) and `B` (senior), nothing committed, every option available,
and a staffing threshold of exactly two. -/
def rosterPair : Schedule := initial [("A", "regular"), ("B", "senior")] [] 0 8 2 0

/-- A search state in which every day can still be staffed: the table keys are distinct,
non-empty and equal to the worker ids, conflicts relate declared workers, a worker with
an available option on a day is in neither committed set of it, and on every day the
workers on duty or still able to be on duty meet both staffing thresholds. -/
structure Staffed (s : Schedule) : Prop where
  nodup : s.keys.Nodup
  noEmpty : "" ∉ s.keys
  ids : ∀ k ∈ s.keys, (s.worker k).id = k
  live : ∀ k ∈ s.keys, LiveUncommitted s k
  declared : ∀ a b, b ∈ s.conflictsOf a → b ∈ s.keys
  bits : ∀ k ∈ s.keys, ∀ d, s.bOn k d = 0 ∨ s.bOn k d = 1
  staff : ∀ d ∈ days, s.min_daily_staff ≤ Constraint.workers_count s d ∧
    s.min_daily_seniors ≤ Constraint.seniors_count s d

/-! ## Properties of the embedded program -/

/-! ## Arrays and sets -/

theorem getD_set_zero (l : List Int) (i j : Nat) :
    (l.set i 0).getD j 0 = if j = i then 0 else l.getD j 0 := by
  induction l generalizing i j with
  | nil => simp
  | cons a t ih =>
    cases i with
    | zero => cases j <;> simp
    | succ i => cases j with
      | zero => simp
      | succ j => simpa using ih i j

theorem getD_set_ne {α : Type} (l : List α) (i j : Nat) (v d : α) (h : j ≠ i) :
    (l.set i v).getD j d = l.getD j d := by
  induction l generalizing i j with
  | nil => simp
  | cons a t ih =>
    cases i with
    | zero => cases j with
      | zero => exact absurd rfl h
      | succ j => simp
    | succ i => cases j with
      | zero => simp
      | succ j => simpa using ih i j (by omega)

theorem getD_set_self_of_ne {α : Type} (l : List α) (i : Nat) (v d : α) (h : l.getD i d ≠ d) :
    (l.set i v).getD i d = v := by
  induction l generalizing i with
  | nil => simp at h
  | cons a t ih =>
    cases i with
    | zero => simp
    | succ i => simpa using ih i (by simpa using h)

theorem set_getD_self {α : Type} (l : List α) (i : Nat) (d : α) : l.set i (l.getD i d) = l := by
  induction l generalizing i with
  | nil => simp
  | cons a t ih =>
    cases i with
    | zero => simp
    | succ i => simpa using ih i

theorem set_set_getD {α : Type} (l : List α) (i : Nat) (v d : α) :
    (l.set i v).set i (l.getD i d) = l := by
  rw [List.set_set, set_getD_self]

theorem mem_setInsert (l : List String) (x y : String) :
    y ∈ setInsert l x ↔ y = x ∨ y ∈ l := by
  simp [setInsert, List.mem_insert_iff]

theorem mem_setErase (l : List String) (x y : String) :
    y ∈ setErase l x ↔ y ∈ l ∧ y ≠ x := by
  simp [setErase, List.mem_filter]

theorem setErase_setInsert (l : List String) (x : String) (h : x ∉ l) :
    setErase (setInsert l x) x = l := by
  unfold setInsert setErase
  rw [List.insert_of_not_mem h]
  simp only [List.filter_cons, bne_self_eq_false, Bool.false_eq_true, ↓reduceIte]
  rw [List.filter_eq_self]
  intro a ha
  simp only [bne_iff_ne, ne_eq]
  rintro rfl
  exact h ha

/-! ## The worker table -/

theorem findWorker_modWorker (ws : List (String × Worker)) (k k' : String) (f : Worker → Worker) :
    findWorker (modWorker ws k f) k' =
      if k' = k then (findWorker ws k).map f else findWorker ws k' := by
  induction ws with
  | nil => simp [findWorker, modWorker]
  | cons p t ih =>
    by_cases hp : p.1 = k
    · by_cases hk : k' = k
      · subst hk; simp [findWorker, modWorker, hp]
      · have : ¬ k = k' := fun h => hk h.symm
        simp [findWorker, modWorker, hp, hk, this]
    · by_cases hk : k' = k
      · subst hk; simp [findWorker, modWorker, hp, ih]
      · by_cases hp' : p.1 = k'
        · simp [findWorker, modWorker, hp, hk, hp']
        · simp [findWorker, modWorker, hp, hk, hp', ih]

theorem map_fst_modWorker (ws : List (String × Worker)) (k : String) (f : Worker → Worker) :
    (modWorker ws k f).map Prod.fst = ws.map Prod.fst := by
  induction ws with
  | nil => simp [modWorker]
  | cons p t ih =>
    by_cases hp : p.1 = k <;> simp [modWorker, hp, ih]

theorem length_modWorker (ws : List (String × Worker)) (k : String) (f : Worker → Worker) :
    (modWorker ws k f).length = ws.length := by
  have := congrArg List.length (map_fst_modWorker ws k f)
  simpa using this

theorem findWorker_isSome (ws : List (String × Worker)) (k : String) :
    (findWorker ws k).isSome = true ↔ k ∈ ws.map Prod.fst := by
  induction ws with
  | nil => simp [findWorker]
  | cons p t ih =>
    by_cases hp : p.1 = k
    · simp [findWorker, hp]
    · have : ¬ k = p.1 := fun h => hp h.symm
      simp [findWorker, hp, ih, this]

theorem findWorker_mem (ws : List (String × Worker)) (k : String) (w : Worker)
    (h : findWorker ws k = some w) : (k, w) ∈ ws := by
  induction ws with
  | nil => simp [findWorker] at h
  | cons p t ih =>
    by_cases hp : p.1 = k
    · simp only [findWorker, hp, ↓reduceIte, Option.some.injEq] at h
      subst h; subst hp; simp
    · simp only [findWorker, hp, ↓reduceIte] at h
      exact List.mem_cons_of_mem _ (ih h)

theorem findWorker_of_mem (ws : List (String × Worker)) (k : String)
    (h : k ∈ ws.map Prod.fst) : ∃ w, findWorker ws k = some w := by
  have := (findWorker_isSome ws k).2 h
  exact Option.isSome_iff_exists.1 this

theorem modWorker_modWorker (ws : List (String × Worker)) (k : String) (f g : Worker → Worker) :
    modWorker (modWorker ws k f) k g = modWorker ws k (fun w => g (f w)) := by
  induction ws with
  | nil => simp [modWorker]
  | cons p t ih =>
    by_cases hp : p.1 = k <;> simp [modWorker, hp, ih]

theorem modWorker_congr (ws : List (String × Worker)) (k : String) (f g : Worker → Worker)
    (h : ∀ w, findWorker ws k = some w → f w = g w) : modWorker ws k f = modWorker ws k g := by
  induction ws with
  | nil => simp [modWorker]
  | cons p t ih =>
    by_cases hp : p.1 = k
    · have := h p.2 (by simp [findWorker, hp])
      simp [modWorker, hp, this]
    · have h' : ∀ w, findWorker t k = some w → f w = g w := by
        intro w hw; exact h w (by simpa [findWorker, hp] using hw)
      simp [modWorker, hp, ih h']

theorem modWorker_id (ws : List (String × Worker)) (k : String) (f : Worker → Worker)
    (h : ∀ w, findWorker ws k = some w → f w = w) : modWorker ws k f = ws := by
  induction ws with
  | nil => simp [modWorker]
  | cons p t ih =>
    by_cases hp : p.1 = k
    · have := h p.2 (by simp [findWorker, hp])
      obtain ⟨a, b⟩ := p
      simp only at hp this
      subst hp
      simp [modWorker, this]
    · have h' : ∀ w, findWorker t k = some w → f w = w := by
        intro w hw; exact h w (by simpa [findWorker, hp] using hw)
      simp [modWorker, hp, ih h']

theorem mem_modWorker (ws : List (String × Worker)) (k : String) (f : Worker → Worker)
    (p : String × Worker) (h : p ∈ modWorker ws k f) :
    p ∈ ws ∨ ∃ w, (k, w) ∈ ws ∧ p = (k, f w) := by
  induction ws with
  | nil => simp [modWorker] at h
  | cons q t ih =>
    by_cases hq : q.1 = k
    · simp only [modWorker, hq, ↓reduceIte, List.mem_cons] at h
      rcases h with h | h
      · right; exact ⟨q.2, by rw [← hq]; simp, h⟩
      · left; exact List.mem_cons_of_mem _ h
    · simp only [modWorker, hq, ↓reduceIte, List.mem_cons] at h
      rcases h with h | h
      · left; simp [h]
      · rcases ih h with h | ⟨w, hw, hp⟩
        · left; exact List.mem_cons_of_mem _ h
        · right; exact ⟨w, List.mem_cons_of_mem _ hw, hp⟩

namespace Schedule

theorem touch_of_mem (s : Schedule) (k : String) (h : k ∈ s.keys) : s.touch k = s := by
  obtain ⟨w, hw⟩ := findWorker_of_mem s.workers k h
  simp [touch, hw]

theorem keys_touch_mem (s : Schedule) (k : String) : k ∈ (s.touch k).keys := by
  unfold touch
  cases h : findWorker s.workers k with
  | some w => 
    simp only
    exact (findWorker_isSome s.workers k).1 (by simp [h])
  | none => simp [keys]

end Schedule

/-! ## Evaluation of the program on concrete schedules -/

theorem exists_true_of_eval (s : Schedule) (p : Schedule → Bool)
    (h : (match scheduler s with
      | some (true, t) => p t
      | _ => false) = true) : ∃ t, scheduler s = some (true, t) ∧ p t = true := by
  cases hs : scheduler s with
  | none => simp [hs] at h
  | some r =>
    obtain ⟨b, t⟩ := r
    cases b with
    | false => simp [hs] at h
    | true => exact ⟨t, rfl, by simpa [hs] using h⟩

theorem conflictsOf_nil (s : Schedule) (h : s.conflicts = []) (a : String) :
    s.conflictsOf a = [] := by
  simp [Schedule.conflictsOf, h]

theorem isInitial_initial (ws : List (String × String)) (a b c d : Int)
    (hk : (ws.map Prod.fst).Nodup) (ha : 0 ≤ a) (hb : 0 ≤ b) (hc : 0 ≤ c) (hd : 0 ≤ d) :
    IsInitial (initial ws [] a b c d) where
  on_empty := rfl
  off_empty := rfl
  fresh := by
    intro p hp
    simp only [initial, List.mem_map] at hp
    obtain ⟨q, _, rfl⟩ := hp
    rfl
  ids := by
    intro p hp
    simp only [initial, List.mem_map] at hp
    obtain ⟨q, _, rfl⟩ := hp
    rfl
  keys_nodup := by
    simpa [Schedule.keys, initial, Function.comp_def] using hk
  declared := by
    intro x y h
    rw [conflictsOf_nil (initial ws [] a b c d) rfl x] at h
    simp at h
  symm := by
    intro x y h
    rw [conflictsOf_nil (initial ws [] a b c d) rfl x] at h
    simp at h
  irrefl := by
    intro x
    rw [conflictsOf_nil (initial ws [] a b c d) rfl x]
    simp
  nonneg := ⟨ha, hb, hc, hd⟩

/-- C6 (the program departs from the claim): on the initial state with the single worker
`A`, `min_days_off = 2` and `max_consec_days_off = 2`, `scheduler` returns `false`
although the assignment "off on days 0 and 2, on duty otherwise" satisfies all four
constraint families. -/
theorem c6_false_despite_feasible :
    IsInitial rosterSingle ∧ scheduler rosterSingle = some (false, rosterSingle) ∧
    ∃ a, Feasible rosterSingle a := by
  refine ⟨isInitial_initial _ _ _ _ _ (by decide) (by decide) (by decide) (by decide)
    (by decide), by decide, fun _ d => decide (d ≠ 0 ∧ d ≠ 2), ?_⟩
  have hk : ∀ w, w ∈ rosterSingle.keys → w = "A" := by
    intro w hw
    simpa [rosterSingle, initial, Schedule.keys] using hw
  constructor
  · intro w _
    decide
  · intro w _
    rintro ⟨start, len, hlen, hle, hall⟩
    have hlen' : (2 : Int) ≤ len := hlen
    have h0 := hall start (le_refl _) (by omega)
    have h1 := hall (start + 1) (by omega) (by omega)
    simp only [ne_eq, decide_eq_false_iff_not, not_and, not_not] at h0 h1
    omega
  · intro d hd
    show (0 : Int) ≤ _
    exact Int.natCast_nonneg _
  · intro d hd
    show (0 : Int) ≤ _
    exact Int.natCast_nonneg _
  · intro d _ x y hy
    rw [conflictsOf_nil rosterSingle rfl x] at hy
    simp at hy

/-- C14 (the program departs from the claim): on the table with the keys `""` (14
available options) and `B` (none), `""` first in iteration order, `mrv` returns `B`,
a worker without options, although `""` has a non-zero count. -/
theorem c14_mrv_empty_id :
    mrv tableEmptyId = "B" ∧
    (findWorker tableEmptyId "B").map liveCount = some 0 ∧
    (findWorker tableEmptyId "").map liveCount = some 14 := by
  decide

theorem conflictsOf_stateConflictProbe (a : String) :
    stateConflictProbe.conflictsOf a =
      if a = "X" then ["W"] else if a = "W" then ["X"] else [] := by
  by_cases h1 : a = "X"
  · subst h1; decide
  · by_cases h2 : a = "W"
    · subst h2; decide
    · have e1 : ("X" == a) = false := by
        simpa using fun h : "X" = a => h1 h.symm
      have e2 : ("W" == a) = false := by
        simpa using fun h : "W" = a => h2 h.symm
      simp [Schedule.conflictsOf, stateConflictProbe, List.find?, h1, h2, e1, e2]

theorem dataInv_stateConflictProbe : DataInv stateConflictProbe where
  keys_nodup := by decide
  ids := by decide
  len_sets := by decide
  len_arrs := by decide
  bits := by decide
  exclusive := by decide
  committed_dead := by decide
  declared := by
    intro a b h
    rw [conflictsOf_stateConflictProbe] at h
    split_ifs at h with h1 h2
    · subst h1; simp at h; subst h; decide
    · subst h2; simp at h; subst h; decide
    · simp at h
  symm := by
    intro a b h
    rw [conflictsOf_stateConflictProbe] at h
    split_ifs at h with h1 h2
    · subst h1; simp at h; subst h; decide
    · subst h2; simp at h; subst h; decide
    · simp at h
  irrefl := by
    intro a
    rw [conflictsOf_stateConflictProbe]
    split_ifs with h1 h2
    · subst h1; decide
    · subst h2; decide
    · simp
  nonneg := by decide

/-- C17 (the program departs from the claim): in a state satisfying the data-model
invariants where `X` is committed on duty on days 0 and 1 and its conflict partner `W` is
committed off duty on day 0, `Constraint::propagate` for `X` and day 1 returns `true` and
leaves `W` out of the committed-off set of day 0: the roll back of the probe erases a
commitment that was there before the call. -/
theorem c17_probe_erases_commit :
    DataInv stateConflictProbe ∧
    ∃ t, Constraint.propagate stateConflictProbe "X" 1 = (true, t) ∧
      stateConflictProbe.isOff 0 "W" = true ∧ t.isOff 0 "W" = false :=
  ⟨dataInv_stateConflictProbe, _, rfl, by decide, by decide⟩

/-- C18 (the program departs from the claim): in a state satisfying the domain invariant
where `A` is committed off duty on day 0 and has only the off-duty option left on day 2,
`Constraint::propagate` for `A` and day 0 (with `max_consec_days_off = 2`) returns `true`
and leaves day 2 with both options removed and in neither committed set. -/
theorem c18_domain_invariant_lost :
    DomainInv stateForcedOff ∧
    ∃ t, Constraint.propagate stateForcedOff "A" 0 = (true, t) ∧
      t.isOn 2 "A" = false ∧ t.isOff 2 "A" = false ∧ t.bOn "A" 2 = 0 ∧ t.bOff "A" 2 = 0 ∧
      ¬ DomainInv t :=
  ⟨by decide, _, rfl, by decide, by decide, by decide, by decide, by decide⟩

/-! ## The evaluator -/

theorem workers_count_eq_reachCount (s : Schedule) (d : Nat) :
    Constraint.workers_count s d = reachCount s d := rfl

theorem countP_forall₂ {α : Type} (R : α → α → Prop) (f g : α → Bool) (l l' : List α)
    (h : List.Forall₂ R l l') (hR : ∀ a b, R a b → f a = g b) :
    l.countP f = l'.countP g := by
  induction h with
  | nil => rfl
  | cons hab _ ih => simp [List.countP_cons, ih, hR _ _ hab]

theorem reachCount_sameUpToLevels (s s' : Schedule) (h : SameUpToLevels s s') (d : Nat) :
    reachCount s' d = reachCount s d := by
  obtain ⟨_, hon, _, _, _, _, _, hw⟩ := h
  unfold reachCount
  congr 1
  symm
  apply countP_forall₂ _ _ _ _ _ hw
  rintro a b ⟨_, hid, hdom⟩
  rw [hon, hid, hdom]

/-- C12: when `min_daily_seniors = 0`, `Constraint::check_min_daily_staff` ignores the
level strings: on two schedules that differ only in the workers' levels it returns the
same result for every worker and day, namely whether the number of workers committed on
duty or still having the on-duty option of that day is at least `min_daily_staff`. -/
theorem c12_staff_check_ignores_levels (s s' : Schedule) (h : SameUpToLevels s s')
    (h0 : s.min_daily_seniors = 0) (w : String) (d : Nat) :
    Constraint.check_min_daily_staff s' w d = Constraint.check_min_daily_staff s w d ∧
    Constraint.check_min_daily_staff s w d = decide (s.min_daily_staff ≤ reachCount s d) := by
  have h0' : s'.min_daily_seniors = 0 := by rw [h.2.2.2.2.2.2.1, h0]
  have key : ∀ t : Schedule, t.min_daily_seniors = 0 →
      Constraint.check_min_daily_staff t w d = decide (t.min_daily_staff ≤ reachCount t d) := by
    intro t ht
    unfold Constraint.check_min_daily_staff
    have : Constraint.seniors_count t d ≥ t.min_daily_seniors := by
      rw [ht]; exact Int.natCast_nonneg _
    simp [this, workers_count_eq_reachCount]
  rw [key s h0, key s' h0', reachCount_sameUpToLevels s s' h, h.2.2.2.2.2.1]
  exact ⟨rfl, rfl⟩

theorem c12_staff_check_ignores_levels_witness :
    SameUpToLevels (initial [("A", "regular"), ("B", "senior")] [] 2 3 2 0)
      (initial [("A", "senior"), ("B", "junior")] [] 2 3 2 0) ∧
    (Constraint.check_min_daily_staff (initial [("A", "senior"), ("B", "junior")] [] 2 3 2 0)
        "A" 3 =
      Constraint.check_min_daily_staff (initial [("A", "regular"), ("B", "senior")] [] 2 3 2 0)
        "A" 3 ∧
     Constraint.check_min_daily_staff (initial [("A", "regular"), ("B", "senior")] [] 2 3 2 0)
        "A" 3 =
      decide ((initial [("A", "regular"), ("B", "senior")] [] 2 3 2 0).min_daily_staff ≤
        reachCount (initial [("A", "regular"), ("B", "senior")] [] 2 3 2 0) 3)) :=
  have hs : SameUpToLevels (initial [("A", "regular"), ("B", "senior")] [] 2 3 2 0)
      (initial [("A", "senior"), ("B", "junior")] [] 2 3 2 0) :=
    ⟨rfl, rfl, rfl, rfl, rfl, rfl, rfl, by
      simp [initial, newWorker]⟩
  ⟨hs, c12_staff_check_ignores_levels _ _ hs rfl "A" 3⟩

/-! ## The consecutive-days-off scan -/

theorem days_eq_range' : days = List.range' 0 7 := by decide

/-- The loop of `check_max_consec_days_off` over the days `a, …, a + n - 1`, entered with
the counter `c` after a run of `c` committed-off days ending at day `a - 1`, succeeds iff
every block of committed-off days that starts within that run or later and ends at one
of the days of the loop (the empty block included) is shorter than the limit. -/
theorem check_max_consec_loop_iff (s : Schedule) (w : String) (n : Nat) :
    ∀ (a c : Nat), c ≤ a → (∀ d, a - c ≤ d → d < a → s.isOff d w = true) →
    (Constraint.check_max_consec_loop s w (List.range' a n) (c : Int) = true ↔
      ∀ i, a ≤ i → i < a + n → ∀ start, a - c ≤ start → start ≤ i + 1 →
        (∀ d, start ≤ d → d ≤ i → s.isOff d w = true) →
        ((i + 1 - start : Nat) : Int) < s.max_consec_days_off) := by
  induction n with
  | zero =>
    intro a c _ _
    simp only [List.range'_zero, Constraint.check_max_consec_loop, true_iff]
    intro i h1 h2
    omega
  | succ n ih =>
    intro a c hca hrun
    rw [List.range'_succ]
    unfold Constraint.check_max_consec_loop
    by_cases hoff : s.isOff a w = true
    · simp only [hoff, ↓reduceIte]
      by_cases hlim : ((c : Int) + 1) ≥ s.max_consec_days_off
      · simp only [hlim, ↓reduceIte, Bool.false_eq_true, false_iff, not_forall]
        refine ⟨a, le_refl _, by omega, a - c, le_refl _, by omega, ?_, ?_⟩
        · intro d hd1 hd2
          by_cases hda : d = a
          · subst hda; exact hoff
          · exact hrun d hd1 (by omega)
        · have : ((a + 1 - (a - c) : Nat) : Int) = (c : Int) + 1 := by omega
          rw [this]; omega
      · simp only [hlim, ↓reduceIte]
        have hrun' : ∀ d, a + 1 - (c + 1) ≤ d → d < a + 1 → s.isOff d w = true := by
          intro d hd1 hd2
          by_cases hda : d = a
          · subst hda; exact hoff
          · exact hrun d (by omega) (by omega)
        have := ih (a + 1) (c + 1) (by omega) hrun'
        rw [show (((c + 1 : Nat) : Int)) = (c : Int) + 1 by push_cast; ring] at this
        rw [this]
        constructor
        · intro h i hi1 hi2 start hs1 hs2 hall
          by_cases hia : i = a
          · subst hia
            have : ((i + 1 - start : Nat) : Int) ≤ (c : Int) + 1 := by omega
            omega
          · exact h i (by omega) (by omega) start (by omega) hs2 hall
        · intro h i hi1 hi2 start hs1 hs2 hall
          exact h i (by omega) (by omega) start (by omega) hs2 hall
    · simp only [hoff, Bool.false_eq_true, ↓reduceIte]
      by_cases hlim : (0 : Int) ≥ s.max_consec_days_off
      · simp only [hlim, ↓reduceIte, Bool.false_eq_true, false_iff, not_forall]
        refine ⟨a, le_refl _, by omega, a + 1, by omega, le_refl _, ?_, ?_⟩
        · intro d hd1 hd2; omega
        · simp only [Nat.sub_self, Nat.cast_zero]; omega
      · simp only [hlim, ↓reduceIte]
        have := ih (a + 1) 0 (by omega) (by intro d hd1 hd2; omega)
        rw [show (((0 : Nat) : Int)) = 0 by rfl] at this
        rw [this]
        constructor
        · intro h i hi1 hi2 start hs1 hs2 hall
          by_cases hsa : start ≤ a
          · exact absurd (hall a hsa hi1) hoff
          · by_cases hia : i = a
            · subst hia
              have : i + 1 - start = 0 := by omega
              rw [this]; simp only [Nat.cast_zero]; omega
            · exact h i (by omega) (by omega) start (by omega) hs2 hall
        · intro h i hi1 hi2 start hs1 hs2 hall
          exact h i (by omega) (by omega) start (by omega) hs2 hall

theorem check_max_consec_days_off_iff (s : Schedule) (w : String) :
    Constraint.check_max_consec_days_off s w = true ↔ NoLongRun s w := by
  unfold Constraint.check_max_consec_days_off
  rw [days_eq_range']
  have := check_max_consec_loop_iff s w 7 0 0 (le_refl _) (by intro d h1 h2; omega)
  rw [show (((0 : Nat) : Int)) = 0 by rfl] at this
  rw [this]
  unfold NoLongRun OffBlock
  constructor
  · rintro h ⟨start, len, hlen, hle, hall⟩
    by_cases h0 : len = 0
    · subst h0
      have := h 0 (le_refl _) (by omega) 1 (by omega) (by omega) (by intro d h1 h2; omega)
      simp only [Nat.cast_zero] at hlen
      simp only [zero_add, Nat.sub_self, Nat.cast_zero] at this
      omega
    · have := h (start + len - 1) (by omega) (by omega) start (by omega) (by omega)
        (by intro d h1 h2; exact hall d h1 (by omega))
      have e : start + len - 1 + 1 - start = len := by omega
      rw [e] at this
      omega
  · intro h i _ hi start _ hs hall
    by_contra hcon
    exact h ⟨start, i + 1 - start, by omega, by omega,
      by intro d h1 h2; exact hall d h1 (by omega)⟩

/-- C16: `Constraint::check_max_consec_days_off` returns `true` iff no block of
consecutive days within `0..6` (no wraparound) of length at least
`max_consec_days_off` consists of days on which the worker is in the committed-off set;
only the committed-off sets are read (the length of a block is a natural number, the
empty block having length 0). -/
theorem c16_check_max_consec_iff_no_long_run (s : Schedule) (w : String) :
    Constraint.check_max_consec_days_off s w = true ↔ NoLongRun s w :=
  check_max_consec_days_off_iff s w

/-! ## `check` on a complete schedule -/

theorem touch_fields (s : Schedule) (k : String) :
    (s.touch k).off = s.off ∧ (s.touch k).on_ = s.on_ ∧ (s.touch k).conflicts = s.conflicts ∧
    (s.touch k).min_days_off = s.min_days_off ∧
    (s.touch k).max_consec_days_off = s.max_consec_days_off ∧
    (s.touch k).min_daily_staff = s.min_daily_staff ∧
    (s.touch k).min_daily_seniors = s.min_daily_seniors ∧
    ((s.touch k).workers = s.workers ∨ (s.touch k).workers = s.workers ++ [(k, Worker.fresh)]) := by
  unfold Schedule.touch
  cases findWorker s.workers k <;> simp

theorem isOff_touch (s : Schedule) (k : String) (d : Nat) (x : String) :
    (s.touch k).isOff d x = s.isOff d x := by
  simp [Schedule.isOff, (touch_fields s k).1]

theorem isOn_touch (s : Schedule) (k : String) (d : Nat) (x : String) :
    (s.touch k).isOn d x = s.isOn d x := by
  simp [Schedule.isOn, (touch_fields s k).2.1]

theorem conflictsOf_touch (s : Schedule) (k x : String) :
    (s.touch k).conflictsOf x = s.conflictsOf x := by
  simp [Schedule.conflictsOf, (touch_fields s k).2.2.1]

theorem noLongRun_touch (s : Schedule) (k w : String) :
    NoLongRun (s.touch k) w ↔ NoLongRun s w := by
  simp [NoLongRun, OffBlock, isOff_touch, (touch_fields s k).2.2.2.2.1]

theorem countP_le_countP_touch (s : Schedule) (k : String) (f : String × Worker → Bool) :
    s.workers.countP f ≤ (s.touch k).workers.countP f := by
  rcases (touch_fields s k).2.2.2.2.2.2.2 with h | h
  · rw [h]
  · rw [h, List.countP_append]; omega

theorem domain_count_nonneg (arr : List Int) : 0 ≤ Domain.count arr :=
  Int.natCast_nonneg _

theorem check_of_feasible (s : Schedule) (id : String) (d : Nat)
    (hrest : s.min_days_off ≤ Schedule.count s.off id)
    (hrun : NoLongRun s id)
    (hstaff : s.min_daily_staff ≤
      ((s.workers.countP (fun p => s.isOn d p.2.id) : Nat) : Int))
    (hsen : s.min_daily_seniors ≤
      ((s.workers.countP (fun p => s.isOn d p.2.id && decide (p.2.level = "senior")) : Nat) : Int))
    (hconf : ∀ y, y ∈ s.conflictsOf id → ¬ (s.isOn d id = true ∧ s.isOn d y = true)) :
    (Constraint.check s id d).1 = true := by
  have hf := touch_fields s id
  have h1 : (Constraint.check_min_days_off s id).1 = true := by
    simp only [Constraint.check_min_days_off, decide_eq_true_eq, hf.1, hf.2.2.2.1]
    have := domain_count_nonneg ((s.touch id).worker id).domain.off
    omega
  have h2 : Constraint.check_max_consec_days_off (s.touch id) id = true :=
    (check_max_consec_days_off_iff _ _).2 ((noLongRun_touch s id id).2 hrun)
  have h3 : Constraint.check_min_daily_staff (s.touch id) id d = true := by
    simp only [Constraint.check_min_daily_staff, Bool.and_eq_true, decide_eq_true_eq,
      hf.2.2.2.2.2.1, hf.2.2.2.2.2.2.1, Constraint.workers_count, Constraint.seniors_count]
    constructor
    · have a1 := countP_le_countP_touch s id (fun p => s.isOn d p.2.id)
      have a2 : (s.touch id).workers.countP (fun p => s.isOn d p.2.id) ≤
          (s.touch id).workers.countP (fun p => Constraint.reachable (s.touch id) d p.2) := by
        apply List.countP_mono_left
        intro p _ hp
        simp [Constraint.reachable, isOn_touch, hp]
      omega
    · have a1 := countP_le_countP_touch s id
        (fun p => s.isOn d p.2.id && decide (p.2.level = "senior"))
      have a2 : (s.touch id).workers.countP
            (fun p => s.isOn d p.2.id && decide (p.2.level = "senior")) ≤
          (s.touch id).workers.countP
            (fun p => Constraint.reachable (s.touch id) d p.2 && decide (p.2.level = "senior")) := by
        apply List.countP_mono_left
        intro p _ hp
        simp only [Bool.and_eq_true, decide_eq_true_eq] at hp
        simp [Constraint.reachable, isOn_touch, hp.1, hp.2]
      omega
  have h4 : Constraint.check_conflicts (s.touch id) id d = true := by
    unfold Constraint.check_conflicts
    split
    · rename_i hon
      rw [isOn_touch] at hon
      simp only [List.all_eq_true, Bool.not_eq_true', conflictsOf_touch, isOn_touch]
      intro y hy
      have := hconf y hy
      simp only [hon, true_and, Bool.not_eq_true] at this
      exact this
    · rfl
  have e : (Constraint.check_min_days_off s id).2 = s.touch id := rfl
  unfold Constraint.check
  simp [h1, e, h2, h3, h4]

/-- C13: on a schedule in which every worker is committed off duty on at least
`min_days_off` days, has no run of `max_consec_days_off` or more consecutive committed-off
days, every day has at least `min_daily_staff` workers and `min_daily_seniors` seniors
committed on duty and no conflicting pair is committed on duty the same day,
`Constraint::check` returns `true` for every worker and every day `0..6` (this holds for
complete schedules in particular; completeness and the state of the domains are not
needed). -/
theorem c13_check_accepts_feasible_schedule (s : Schedule)
    (hrest : ∀ p ∈ s.workers, s.min_days_off ≤ Schedule.count s.off p.2.id)
    (hrun : ∀ p ∈ s.workers, NoLongRun s p.2.id)
    (hstaff : ∀ d ∈ days, s.min_daily_staff ≤
      ((s.workers.countP (fun p => s.isOn d p.2.id) : Nat) : Int))
    (hsen : ∀ d ∈ days, s.min_daily_seniors ≤
      ((s.workers.countP (fun p => s.isOn d p.2.id && decide (p.2.level = "senior")) : Nat) : Int))
    (hconf : ∀ d ∈ days, ∀ x y, y ∈ s.conflictsOf x →
      ¬ (s.isOn d x = true ∧ s.isOn d y = true)) :
    ∀ p ∈ s.workers, ∀ d ∈ days, (Constraint.check s p.2.id d).1 = true := by
  intro p hp d hd
  exact check_of_feasible s p.2.id d (hrest p hp) (hrun p hp) (hstaff d hd) (hsen d hd)
    (fun y hy => hconf d hd p.2.id y hy)

theorem conflictsOf_pair (s : Schedule) (h : s.conflicts = [("X", ["W"]), ("W", ["X"])])
    (a : String) :
    s.conflictsOf a = if a = "X" then ["W"] else if a = "W" then ["X"] else [] := by
  by_cases h1 : a = "X"
  · subst h1; simp [Schedule.conflictsOf, h]
  · by_cases h2 : a = "W"
    · subst h2; simp [Schedule.conflictsOf, h, List.find?]
    · have e1 : ("X" == a) = false := by
        simpa using fun h : "X" = a => h1 h.symm
      have e2 : ("W" == a) = false := by
        simpa using fun h : "W" = a => h2 h.symm
      simp [Schedule.conflictsOf, h, List.find?, h1, h2, e1, e2]

theorem c13_check_accepts_feasible_schedule_witness :
    NoLongRun stateComplete "X" ∧ NoLongRun stateComplete "W" ∧
    (Constraint.check stateComplete "W" 4).1 = true :=
  have hrun : ∀ p ∈ stateComplete.workers, NoLongRun stateComplete p.2.id := by
    intro p hp
    apply (check_max_consec_days_off_iff _ _).1
    revert p
    decide
  ⟨hrun _ (by decide : (("X", ⟨"X", "senior", ⟨[0, 0, 0, 0, 0, 0, 0], [0, 0, 0, 0, 0, 0, 0]⟩⟩) :
      String × Worker) ∈ stateComplete.workers),
   hrun _ (by decide : (("W", ⟨"W", "senior", ⟨[0, 0, 0, 0, 0, 0, 0], [0, 0, 0, 0, 0, 0, 0]⟩⟩) :
      String × Worker) ∈ stateComplete.workers),
   c13_check_accepts_feasible_schedule stateComplete (by decide) hrun (by decide) (by decide)
    (by
      intro d hd x y hy
      rw [conflictsOf_pair stateComplete rfl x] at hy
      revert d
      split_ifs at hy with h1 h2
      · subst h1; simp at hy; subst hy; decide
      · subst h2; simp at hy; subst hy; decide
      · simp at hy)
    ("W", ⟨"W", "senior", ⟨[0, 0, 0, 0, 0, 0, 0], [0, 0, 0, 0, 0, 0, 0]⟩⟩) (by decide)
    4 (by decide)⟩

/-! ## Registration of a conflict group -/

theorem mem_setInsertAll (ids l : List String) (y : String) :
    y ∈ setInsertAll l ids ↔ y ∈ l ∨ y ∈ ids := by
  unfold setInsertAll
  induction ids generalizing l with
  | nil => simp
  | cons x t ih =>
    rw [List.foldl_cons, ih, mem_setInsert]
    simp only [List.mem_cons]
    tauto

theorem conflictsOf_setConflicts (cf : List (String × List String)) (k a : String)
    (v : List String) :
    ∀ (s s' : Schedule), s.conflicts = cf → s'.conflicts = setConflicts cf k v →
      s'.conflictsOf a = if a = k then v else s.conflictsOf a := by
  induction cf with
  | nil =>
    intro s s' h h'
    unfold Schedule.conflictsOf
    rw [h, h']
    by_cases hak : a = k
    · subst hak; simp [setConflicts]
    · have e : (k == a) = false := by simpa using fun h' : k = a => hak h'.symm
      simp [setConflicts, List.find?, hak, e]
  | cons p t ih =>
    intro s s' h h'
    by_cases hp : p.1 = k
    · unfold Schedule.conflictsOf
      rw [h, h']
      by_cases hak : a = k
      · subst hak; simp [setConflicts, hp, List.find?]
      · have e : (k == a) = false := by simpa using fun h' : k = a => hak h'.symm
        have e' : (p.1 == a) = false := by rw [hp]; exact e
        simp [setConflicts, hp, List.find?, hak, e, e']
    · by_cases hpa : p.1 = a
      · have hak : ¬ a = k := fun h' => hp (hpa.trans h')
        unfold Schedule.conflictsOf
        rw [h, h']
        simp [setConflicts, hp, List.find?, hpa, hak]
      · have e' : (p.1 == a) = false := by simpa using hpa
        have := ih { s with conflicts := t } { s' with conflicts := setConflicts t k v } rfl rfl
        unfold Schedule.conflictsOf at this ⊢
        rw [h, h']
        simp only [setConflicts, hp, ↓reduceIte, List.find?, e']
        exact this

theorem mem_conflictsOf_linkGroup (ids : List String) (s : Schedule) (id a b : String) :
    b ∈ (Schedule.linkGroup ids s id).conflictsOf a ↔
      if a = id then (b ∈ s.conflictsOf id ∨ b ∈ ids) ∧ b ≠ id else b ∈ s.conflictsOf a := by
  rw [conflictsOf_setConflicts s.conflicts id a _ s (Schedule.linkGroup ids s id) rfl rfl]
  by_cases h : a = id
  · simp only [h, ↓reduceIte, mem_setErase, mem_setInsertAll]
  · simp only [h, ↓reduceIte]

theorem mem_conflictsOf_foldl_linkGroup (ids : List String) (l : List String) :
    ∀ (s : Schedule), (∀ a, a ∉ s.conflictsOf a) → ∀ a b,
      (b ∈ (l.foldl (Schedule.linkGroup ids) s).conflictsOf a ↔
        b ∈ s.conflictsOf a ∨ (a ∈ l ∧ b ∈ ids ∧ b ≠ a)) := by
  induction l with
  | nil => intro s _ a b; simp
  | cons id t ih =>
    intro s hirr a b
    rw [List.foldl_cons]
    have hirr' : ∀ a, a ∉ (Schedule.linkGroup ids s id).conflictsOf a := by
      intro x hx
      rw [mem_conflictsOf_linkGroup] at hx
      by_cases h : x = id
      · simp only [h, ↓reduceIte] at hx
        rw [← h] at hx
        exact hx.2 rfl
      · simp only [h, ↓reduceIte] at hx
        exact hirr x hx
    rw [ih _ hirr', mem_conflictsOf_linkGroup]
    by_cases h : a = id
    · subst h
      simp only [↓reduceIte, List.mem_cons, true_or, true_and]
      constructor
      · rintro (⟨h1 | h1, h2⟩ | ⟨_, h1, h2⟩)
        · exact Or.inl h1
        · exact Or.inr ⟨h1, h2⟩
        · exact Or.inr ⟨h1, h2⟩
      · rintro (h1 | ⟨h1, h2⟩)
        · exact Or.inl ⟨Or.inl h1, fun e => hirr a (e ▸ h1)⟩
        · exact Or.inl ⟨Or.inr h1, h2⟩
    · simp only [h, ↓reduceIte, List.mem_cons, false_or]

theorem registerConflict_spec (s : Schedule) (ids : List String)
    (hsymm : ∀ a b, b ∈ s.conflictsOf a → a ∈ s.conflictsOf b)
    (hirr : ∀ a, a ∉ s.conflictsOf a) :
    (∀ a b, b ∈ (s.registerConflict ids).conflictsOf a →
      a ∈ (s.registerConflict ids).conflictsOf b) ∧
    (∀ a, a ∉ (s.registerConflict ids).conflictsOf a) ∧
    (∀ a ∈ ids, ∀ b ∈ ids, a ≠ b →
      b ∈ (s.registerConflict ids).conflictsOf a ∧ a ∈ (s.registerConflict ids).conflictsOf b) ∧
    (∀ a b, b ∈ s.conflictsOf a → b ∈ (s.registerConflict ids).conflictsOf a) := by
  have key := mem_conflictsOf_foldl_linkGroup ids ids s hirr
  unfold Schedule.registerConflict
  refine ⟨?_, ?_, ?_, ?_⟩
  · intro a b h
    rw [key] at h ⊢
    rcases h with h | ⟨h1, h2, h3⟩
    · exact Or.inl (hsymm a b h)
    · exact Or.inr ⟨h2, h1, fun e => h3 e.symm⟩
  · intro a h
    rw [key] at h
    rcases h with h | ⟨_, _, h3⟩
    · exact hirr a h
    · exact h3 rfl
  · intro a ha b hb hab
    rw [key, key]
    exact ⟨Or.inr ⟨ha, hb, fun e => hab e.symm⟩, Or.inr ⟨hb, ha, hab⟩⟩
  · intro a b h
    rw [key]
    exact Or.inl h

/-- C15: the registration of a conflict group (the `-conflict` branch of `load_file` and
of `main`), applied to any list of ids and started from a symmetric and irreflexive
conflict relation, yields a relation that is symmetric and irreflexive, that contains the
edge `a`–`b` in both directions for every two distinct ids of the group, and that keeps
every edge present before. -/
theorem c15_conflict_group_registration (s : Schedule) (ids : List String)
    (hsymm : ∀ a b, b ∈ s.conflictsOf a → a ∈ s.conflictsOf b)
    (hirr : ∀ a, a ∉ s.conflictsOf a) :
    (∀ a b, b ∈ (s.registerConflict ids).conflictsOf a →
      a ∈ (s.registerConflict ids).conflictsOf b) ∧
    (∀ a, a ∉ (s.registerConflict ids).conflictsOf a) ∧
    (∀ a ∈ ids, ∀ b ∈ ids, a ≠ b →
      b ∈ (s.registerConflict ids).conflictsOf a ∧ a ∈ (s.registerConflict ids).conflictsOf b) ∧
    (∀ a b, b ∈ s.conflictsOf a → b ∈ (s.registerConflict ids).conflictsOf a) :=
  registerConflict_spec s ids hsymm hirr

theorem c15_conflict_group_registration_witness :
    "C" ∈ ((initial [("A", "regular"), ("B", "regular"), ("C", "senior")] [] 2 3 3 1
      ).registerConflict ["A", "B", "C", "A"]).conflictsOf "A" ∧
    "A" ∉ ((initial [("A", "regular"), ("B", "regular"), ("C", "senior")] [] 2 3 3 1
      ).registerConflict ["A", "B", "C", "A"]).conflictsOf "A" :=
  have h := c15_conflict_group_registration
    (initial [("A", "regular"), ("B", "regular"), ("C", "senior")] [] 2 3 3 1)
    ["A", "B", "C", "A"]
    (fun a b hb => by rw [conflictsOf_nil _ rfl a] at hb; simp at hb)
    (fun a => by rw [conflictsOf_nil _ rfl a]; simp)
  ⟨(h.2.2.1 "A" (by decide) "C" (by decide) (by decide)).1, h.2.1 "A"⟩

section
open Constraint

/-! ## The board: everything of a schedule but the worker table -/

theorem brd_mem_getD_set (l : List (List String)) (i j : Nat) (a : List String) (x : String) :
    x ∈ (l.set i a).getD j [] ↔ if j = i ∧ i < l.length then x ∈ a else x ∈ l.getD j [] := by
  simp only [List.getD_eq_getElem?_getD, List.getElem?_set]
  by_cases hji : i = j
  · subst hji
    by_cases hl : i < l.length
    · simp [hl]
    · have : l[i]? = none := by simp [List.getElem?_eq_none_iff]; omega
      simp [hl, this]
  · have : ¬ j = i := fun e => hji e.symm
    simp [hji, this]

theorem brd_getD_set_self (l : List (List String)) (i : Nat) (a : List String)
    (h : i < l.length) : (l.set i a).getD i [] = a := by
  simp [List.getD_eq_getElem?_getD, List.getElem?_set, h]

@[simp] theorem brd_setOn (s : Schedule) (k : String) (i : Nat) (v : Int) :
    (s.setOn k i v).board = s.board := rfl

@[simp] theorem brd_setOff (s : Schedule) (k : String) (i : Nat) (v : Int) :
    (s.setOff k i v).board = s.board := rfl

@[simp] theorem brd_touch (s : Schedule) (k : String) : (s.touch k).board = s.board := by
  unfold Schedule.touch
  split <;> rfl

@[simp] theorem brd_insOn (s : Schedule) (i : Nat) (x : String) :
    (s.insOn i x).board = s.board.insOn i x := rfl

@[simp] theorem brd_ersOn (s : Schedule) (i : Nat) (x : String) :
    (s.ersOn i x).board = s.board.ersOn i x := rfl

@[simp] theorem brd_insOff (s : Schedule) (i : Nat) (x : String) :
    (s.insOff i x).board = s.board.insOff i x := rfl

@[simp] theorem brd_ersOff (s : Schedule) (i : Nat) (x : String) :
    (s.ersOff i x).board = s.board.ersOff i x := rfl

theorem run_check_snd (s : Schedule) (k : String) (d : Nat) :
    (Constraint.check s k d).2 = s.touch k := by
  unfold Constraint.check Constraint.check_min_days_off
  simp only
  split
  · rfl
  · split
    · rfl
    · split <;> rfl

@[simp] theorem brd_check (s : Schedule) (k : String) (d : Nat) :
    (Constraint.check s k d).2.board = s.board := by
  rw [run_check_snd, brd_touch]

theorem run_check_true (s : Schedule) (k : String) (d : Nat)
    (h : (Constraint.check s k d).1 = true) :
    (Constraint.check_min_days_off s k).1 = true ∧
    Constraint.check_max_consec_days_off (s.touch k) k = true ∧
    Constraint.check_min_daily_staff (s.touch k) k d = true ∧
    Constraint.check_conflicts (s.touch k) k d = true := by
  unfold Constraint.check at h
  simp only at h
  have e : (Constraint.check_min_days_off s k).2 = s.touch k := rfl
  rw [e] at h
  split at h
  · simp at h
  · split at h
    · simp at h
    · split at h
      · simp at h
      · rename_i h1 h2 h3
        simp only [Bool.not_eq_false] at h1 h2 h3
        exact ⟨h1, h2, h3, h⟩

namespace Board

theorem Shrink.refl (b : Board) : Shrink b b :=
  ⟨fun _ _ h => h, fun _ _ h => h, rfl, rfl, rfl, rfl, rfl⟩

theorem Shrink.trans {a b c : Board} (h1 : Shrink a b) (h2 : Shrink b c) : Shrink a c :=
  ⟨fun i x h => h1.on_sub i x (h2.on_sub i x h), fun i x h => h1.off_sub i x (h2.off_sub i x h),
    h2.conflicts.trans h1.conflicts, h2.mdo.trans h1.mdo, h2.mc.trans h1.mc,
    h2.ms.trans h1.ms, h2.msr.trans h1.msr⟩

theorem brd_mem_erase (l : List (List String)) (i j : Nat) (x y : String)
    (h : y ∈ (l.set i (setErase (l.getD i []) x)).getD j []) : y ∈ l.getD j [] := by
  rw [brd_mem_getD_set] at h
  split at h
  · rename_i hj
    rw [hj.1]
    exact ((mem_setErase _ _ _).1 h).1
  · exact h

theorem brd_mem_insert_erase (l : List (List String)) (i j : Nat) (x y : String)
    (h : y ∈ ((l.set i (setInsert (l.getD i []) x)).set i
      (setErase ((l.set i (setInsert (l.getD i []) x)).getD i []) x)).getD j []) :
    y ∈ l.getD j [] := by
  rw [List.set_set] at h
  rw [brd_mem_getD_set] at h
  split at h
  · rename_i hj
    obtain ⟨rfl, hl⟩ := hj
    rw [mem_setErase] at h
    rw [brd_getD_set_self _ _ _ hl, mem_setInsert] at h
    rcases h.1 with e | e
    · exact absurd e h.2
    · exact e
  · exact h

theorem Shrink.ersOn {b b' : Board} (h : Shrink b b') (i : Nat) (x : String) :
    Shrink b (b'.ersOn i x) :=
  ⟨fun j y hy => h.on_sub j y (brd_mem_erase _ _ _ _ _ hy), h.off_sub, h.conflicts, h.mdo, h.mc,
    h.ms, h.msr⟩

theorem Shrink.ersOff {b b' : Board} (h : Shrink b b') (i : Nat) (x : String) :
    Shrink b (b'.ersOff i x) :=
  ⟨h.on_sub, fun j y hy => h.off_sub j y (brd_mem_erase _ _ _ _ _ hy), h.conflicts, h.mdo, h.mc,
    h.ms, h.msr⟩

theorem Shrink.probeOn (b : Board) (i : Nat) (x : String) :
    Shrink b ((b.insOn i x).ersOn i x) :=
  ⟨fun _ _ h => brd_mem_insert_erase _ _ _ _ _ h, fun _ _ h => h, rfl, rfl, rfl, rfl, rfl⟩

theorem Shrink.probeOff (b : Board) (i : Nat) (x : String) :
    Shrink b ((b.insOff i x).ersOff i x) :=
  ⟨fun _ _ h => h, fun _ _ h => brd_mem_insert_erase _ _ _ _ _ h, rfl, rfl, rfl, rfl, rfl⟩

end Board

theorem pass_min_days_off_loop_shrink (k : String) (rest : List Nat) :
    ∀ s s', propagate_min_days_off_loop k rest s = (true, s') → Board.Shrink s.board s'.board := by
  induction rest with
  | nil =>
    intro s s' h
    simp only [propagate_min_days_off_loop, Prod.mk.injEq, true_and] at h
    subst h
    exact Board.Shrink.refl _
  | cons i tl ih =>
    intro s s' h
    simp only [propagate_min_days_off_loop] at h
    split at h
    · split at h
      · simp at h
      · have := ih _ _ h
        simp only [brd_ersOff, brd_setOff, brd_check, brd_insOff, brd_setOn] at this
        exact (Board.Shrink.probeOff _ _ _).trans this
    · exact ih _ _ h

theorem pass_min_days_off_shrink (s s' : Schedule) (k : String)
    (h : propagate_min_days_off s k = (true, s')) : Board.Shrink s.board s'.board := by
  simp only [propagate_min_days_off] at h
  split at h
  · simpa using pass_min_days_off_loop_shrink _ _ _ _ h
  · simp only [Prod.mk.injEq, true_and] at h
    subst h
    simpa using Board.Shrink.refl s.board

theorem pass_forceOn_shrink (k : String) (i : Nat) (s s' : Schedule)
    (h : forceOn k i s = (true, s')) : Board.Shrink s.board s'.board := by
  simp only [forceOn] at h
  split at h
  · split at h
    · simp at h
    · simp only [Prod.mk.injEq, true_and] at h
      subst h
      simpa using Board.Shrink.probeOn s.board i _
  · simp only [Prod.mk.injEq, true_and] at h
    subst h
    exact Board.Shrink.refl _

theorem pass_max_consec_loop_shrink (k : String) (arr : List Int) (rest : List Nat) :
    ∀ s s', propagate_max_consec_loop k arr rest s = (true, s') →
      Board.Shrink s.board s'.board := by
  induction rest with
  | nil =>
    intro s s' h
    simp only [propagate_max_consec_loop, Prod.mk.injEq, true_and] at h
    subst h
    exact Board.Shrink.refl _
  | cons j tl ih =>
    intro s s' h
    simp only [propagate_max_consec_loop] at h
    by_cases hk : arr.getD j 0 = 2
    · simp only [hk, ↓reduceIte] at h
      by_cases hc : ((scanRight arr 7 (j + 1) : Nat) : Int) - scanLeft arr j - 1 + 1
          ≥ s.max_consec_days_off
      · simp only [hc, ↓reduceIte] at h
        generalize hr1 : (if scanLeft arr j ≥ 0 then forceOn k (scanLeft arr j).toNat s
          else (true, s)) = r1 at h
        obtain ⟨b1, s1⟩ := r1
        cases b1 with
        | false => simp at h
        | true =>
          simp only [Bool.true_eq_false, ↓reduceIte] at h
          generalize hr2 : (if scanRight arr 7 (j + 1) < 7 then
            forceOn k (scanRight arr 7 (j + 1)) s1 else (true, s1)) = r2 at h
          obtain ⟨b2, s2⟩ := r2
          cases b2 with
          | false => simp at h
          | true =>
            simp only [Bool.true_eq_false, ↓reduceIte] at h
            have e1 : Board.Shrink s.board s1.board := by
              split at hr1
              · exact pass_forceOn_shrink _ _ _ _ hr1
              · simp only [Prod.mk.injEq, true_and] at hr1
                subst hr1
                exact Board.Shrink.refl _
            have e2 : Board.Shrink s1.board s2.board := by
              split at hr2
              · exact pass_forceOn_shrink _ _ _ _ hr2
              · simp only [Prod.mk.injEq, true_and] at hr2
                subst hr2
                exact Board.Shrink.refl _
            exact e1.trans (e2.trans (ih _ _ h))
      · simp only [hc, ↓reduceIte] at h
        exact ih _ _ h
    · simp only [hk, ↓reduceIte] at h
      exact ih _ _ h

theorem pass_max_consec_shrink (s s' : Schedule) (k : String)
    (h : propagate_max_consec_days_off s k = (true, s')) : Board.Shrink s.board s'.board := by
  simp only [propagate_max_consec_days_off] at h
  simpa using pass_max_consec_loop_shrink _ _ _ _ _ h

theorem pass_force_staff_loop_shrink (b : Bool) (d : Nat) (keys : List String) :
    ∀ s s', force_staff_loop b d keys s = (true, s') → Board.Shrink s.board s'.board := by
  induction keys with
  | nil =>
    intro s s' h
    simp only [force_staff_loop, Prod.mk.injEq, true_and] at h
    subst h
    exact Board.Shrink.refl _
  | cons k tl ih =>
    intro s s' h
    simp only [force_staff_loop] at h
    split at h
    · split at h
      · simp at h
      · have := ih _ _ h
        simp only [brd_ersOn, brd_setOff, brd_check, brd_insOn, brd_setOn] at this
        exact (Board.Shrink.probeOn _ _ _).trans this
    · exact ih _ _ h

theorem pass_min_daily_staff_shrink (s s' : Schedule) (k : String) (d : Nat)
    (h : propagate_min_daily_staff s k d = (true, s')) : Board.Shrink s.board s'.board := by
  simp only [propagate_min_daily_staff] at h
  split at h
  · exact pass_force_staff_loop_shrink _ _ _ _ _ h
  · split at h
    · exact pass_force_staff_loop_shrink _ _ _ _ _ h
    · simp only [Prod.mk.injEq, true_and] at h
      subst h
      exact Board.Shrink.refl _

theorem pass_probeOff_board (wk id wid : String) (rest : List Nat) :
    ∀ s, (probeOff wk id wid rest s).on_ = s.on_ ∧
      (probeOff wk id wid rest s).conflicts = s.conflicts ∧
      (probeOff wk id wid rest s).min_days_off = s.min_days_off ∧
      (probeOff wk id wid rest s).max_consec_days_off = s.max_consec_days_off ∧
      (probeOff wk id wid rest s).min_daily_staff = s.min_daily_staff ∧
      (probeOff wk id wid rest s).min_daily_seniors = s.min_daily_seniors ∧
      ∀ j y, y ∈ (probeOff wk id wid rest s).off.getD j [] →
        y ∈ s.off.getD j [] ∨ (y = wid ∧ j ∈ rest ∧ wk ∈ s.on_.getD j []) := by
  induction rest with
  | nil => intro s; simp [probeOff]
  | cons i tl ih =>
    intro s
    simp only [probeOff]
    split
    · rename_i hi
      obtain ⟨h1, h2, h3, h4, h5, h6, h7⟩ := ih (((s.setOn id i 0).setOff id i 0).insOff i wid)
      refine ⟨h1, h2, h3, h4, h5, h6, ?_⟩
      intro j y hy
      rcases h7 j y hy with h | ⟨ha, hb, hc⟩
      · simp only [Schedule.insOff, Schedule.setOff, Schedule.setOn] at h
        rw [brd_mem_getD_set] at h
        split at h
        · rename_i hj
          rw [mem_setInsert] at h
          rcases h with h | h
          · right
            refine ⟨h, by simp [hj.1], ?_⟩
            rw [hj.1]
            simpa [Schedule.isOn] using hi
          · left; rw [hj.1]; exact h
        · left; exact h
      · right
        exact ⟨ha, List.mem_cons_of_mem _ hb, hc⟩
    · obtain ⟨h1, h2, h3, h4, h5, h6, h7⟩ := ih s
      refine ⟨h1, h2, h3, h4, h5, h6, ?_⟩
      intro j y hy
      rcases h7 j y hy with h | ⟨ha, hb, hc⟩
      · left; exact h
      · right; exact ⟨ha, List.mem_cons_of_mem _ hb, hc⟩

theorem pass_rollbackOff_board (wk id wid : String) (a b : List Int) (rest : List Nat) :
    ∀ s, (rollbackOff wk id wid a b rest s).on_ = s.on_ ∧
      (rollbackOff wk id wid a b rest s).conflicts = s.conflicts ∧
      (rollbackOff wk id wid a b rest s).min_days_off = s.min_days_off ∧
      (rollbackOff wk id wid a b rest s).max_consec_days_off = s.max_consec_days_off ∧
      (rollbackOff wk id wid a b rest s).min_daily_staff = s.min_daily_staff ∧
      (rollbackOff wk id wid a b rest s).min_daily_seniors = s.min_daily_seniors ∧
      ∀ j y, y ∈ (rollbackOff wk id wid a b rest s).off.getD j [] →
        y ∈ s.off.getD j [] ∧ (j ∈ rest → wk ∈ s.on_.getD j [] → y ≠ wid) := by
  induction rest with
  | nil => intro s; simp [rollbackOff]
  | cons i tl ih =>
    intro s
    simp only [rollbackOff]
    split
    · rename_i hi
      obtain ⟨h1, h2, h3, h4, h5, h6, h7⟩ :=
        ih (((s.setOn id i (a.getD i 0)).setOff id i (b.getD i 0)).ersOff i wid)
      refine ⟨h1, h2, h3, h4, h5, h6, ?_⟩
      intro j y hy
      obtain ⟨hm, hn⟩ := h7 j y hy
      simp only [Schedule.ersOff, Schedule.setOff, Schedule.setOn] at hm hn
      rw [brd_mem_getD_set] at hm
      split at hm
      · rename_i hj
        rw [mem_setErase] at hm
        rw [hj.1]
        exact ⟨hm.1, fun _ _ => hm.2⟩
      · rename_i hj
        refine ⟨hm, ?_⟩
        intro hjm hon
        rcases List.mem_cons.1 hjm with e | e
        · subst e
          have hl : ¬ j < s.off.length := fun hl => hj ⟨rfl, hl⟩
          have hl2 : s.off.length ≤ j := Nat.le_of_not_lt hl
          have : s.off.getD j [] = [] := by
            simp [List.getD_eq_getElem?_getD, List.getElem?_eq_none hl2]
          rw [this] at hm
          simp at hm
        · exact hn e hon
    · rename_i hi
      obtain ⟨h1, h2, h3, h4, h5, h6, h7⟩ := ih s
      refine ⟨h1, h2, h3, h4, h5, h6, ?_⟩
      intro j y hy
      obtain ⟨hm, hn⟩ := h7 j y hy
      refine ⟨hm, ?_⟩
      intro hjm hon
      rcases List.mem_cons.1 hjm with e | e
      · subst e
        exact absurd (by simpa [Schedule.isOn] using hon) hi
      · exact hn e hon

theorem pass_conflicts_loop_shrink (wk : String) (d : Nat) (ids : List String) :
    ∀ s s', propagate_conflicts_loop wk d ids s = (true, s') →
      Board.Shrink s.board s'.board := by
  induction ids with
  | nil =>
    intro s s' h
    simp only [propagate_conflicts_loop, Prod.mk.injEq, true_and] at h
    subst h
    exact Board.Shrink.refl _
  | cons id tl ih =>
    intro s s' h
    simp only [propagate_conflicts_loop] at h
    split at h
    · split at h
      · simp at h
      · have hs := ih _ _ h
        refine Board.Shrink.trans ?_ hs
        generalize hw : ((s.touch id).worker id).id = wid
        generalize hA : (((s.touch id).setOn id d 0).worker id).domain.on_ = A
        generalize hB : (((s.touch id).setOn id d 0).worker id).domain.off = B
        have hp := pass_probeOff_board wk id wid days ((s.touch id).setOn id d 0)
        have hc := run_check_snd (probeOff wk id wid days ((s.touch id).setOn id d 0)) wid d
        have hr := pass_rollbackOff_board wk id wid A B days
          (Constraint.check (probeOff wk id wid days ((s.touch id).setOn id d 0)) wid d).2
        rw [hc] at hr
        obtain ⟨p1, p2, p3, p4, p5, p6, p7⟩ := hp
        obtain ⟨r1, r2, r3, r4, r5, r6, r7⟩ := hr
        have t1 : ∀ x : Schedule, (x.touch wid).on_ = x.on_ := fun x =>
          congrArg Board.on_ (brd_touch x wid)
        have t2 : ∀ x : Schedule, (x.touch wid).off = x.off := fun x =>
          congrArg Board.off (brd_touch x wid)
        have t0 : ∀ x : Schedule, (x.touch wid).board = x.board := fun x => brd_touch x wid
        have u0 : (s.touch id).board = s.board := brd_touch s id
        rw [hc]
        refine ⟨?_, ?_, ?_, ?_, ?_, ?_, ?_⟩
        · intro j y hy
          have : (rollbackOff wk id wid A B days
              ((probeOff wk id wid days ((s.touch id).setOn id d 0)).touch wid)).on_ = s.on_ := by
            rw [r1, t1, p1]
            exact congrArg Board.on_ u0
          change y ∈ (rollbackOff wk id wid A B days _).on_.getD j [] at hy
          rw [this] at hy
          exact hy
        · intro j y hy
          change y ∈ (rollbackOff wk id wid A B days _).off.getD j [] at hy
          obtain ⟨hm, hn⟩ := r7 j y hy
          rw [t2] at hm
          rw [t1, p1] at hn
          rcases p7 j y hm with h' | ⟨ha, hb, hc'⟩
          · have : ((s.touch id).setOn id d 0).off = s.off := congrArg Board.off u0
            rw [this] at h'
            exact h'
          · exact absurd ha (hn hb hc')
        · exact r2.trans ((congrArg Board.conflicts (t0 _)).trans
            (p2.trans (congrArg Board.conflicts u0)))
        · exact r3.trans ((congrArg Board.min_days_off (t0 _)).trans
            (p3.trans (congrArg Board.min_days_off u0)))
        · exact r4.trans ((congrArg Board.max_consec_days_off (t0 _)).trans
            (p4.trans (congrArg Board.max_consec_days_off u0)))
        · exact r5.trans ((congrArg Board.min_daily_staff (t0 _)).trans
            (p5.trans (congrArg Board.min_daily_staff u0)))
        · exact r6.trans ((congrArg Board.min_daily_seniors (t0 _)).trans
            (p6.trans (congrArg Board.min_daily_seniors u0)))
    · have hs := ih _ _ h
      simpa using hs

theorem pass_conflicts_shrink (s s' : Schedule) (k : String) (d : Nat)
    (h : propagate_conflicts s k d = (true, s')) : Board.Shrink s.board s'.board := by
  simp only [propagate_conflicts] at h
  split at h
  · exact pass_conflicts_loop_shrink _ _ _ _ _ h
  · simp only [Prod.mk.injEq, true_and] at h
    subst h
    exact Board.Shrink.refl _

theorem pass_propagate_shrink (s s' : Schedule) (k : String) (d : Nat)
    (h : propagate s k d = (true, s')) : Board.Shrink s.board s'.board := by
  simp only [propagate] at h
  generalize h1 : propagate_min_days_off s k = r1 at h
  obtain ⟨b1, s1⟩ := r1
  cases b1 with
  | false => simp at h
  | true =>
    simp only [Bool.true_eq_false, ↓reduceIte] at h
    generalize h2 : propagate_max_consec_days_off s1 k = r2 at h
    obtain ⟨b2, s2⟩ := r2
    cases b2 with
    | false => simp at h
    | true =>
      simp only [Bool.true_eq_false, ↓reduceIte] at h
      generalize h3 : propagate_min_daily_staff s2 k d = r3 at h
      obtain ⟨b3, s3⟩ := r3
      cases b3 with
      | false => simp at h
      | true =>
        simp only [Bool.true_eq_false, ↓reduceIte] at h
        exact (pass_min_days_off_shrink _ _ _ h1).trans
          ((pass_max_consec_shrink _ _ _ h2).trans
            ((pass_min_daily_staff_shrink _ _ _ _ h3).trans (pass_conflicts_shrink _ _ _ _ h)))

theorem run_tryMove_true (rec : Schedule → Option (Bool × Schedule)) (s1 : Schedule)
    (k : String) (i : Nat) (t c : Schedule) (h : tryMove rec s1 k i = some (some t, c)) :
    (check s1 k i).1 = true ∧ ∃ p, propagate (check s1 k i).2 k i = (true, p) ∧
      rec p = some (true, t) := by
  simp only [tryMove] at h
  split at h
  · simp at h
  · rename_i hc
    split at h
    · simp at h
    · rename_i hp
      refine ⟨by simpa using hc, (propagate (check s1 k i).2 k i).2, ?_, ?_⟩
      · exact Prod.ext (by simpa using hp) rfl
      · split at h
        · simp at h
        · rename_i t' ht
          simp only [Option.some.injEq, Prod.mk.injEq] at h
          rw [ht, h.1]
        · simp at h

theorem run_tryMove_none (rec : Schedule → Option (Bool × Schedule)) (s1 : Schedule)
    (k : String) (i : Nat) (c : Schedule) (h : tryMove rec s1 k i = some (none, c)) :
    c = (check s1 k i).2 := by
  simp only [tryMove] at h
  split at h
  · simp only [Option.some.injEq, Prod.mk.injEq, true_and] at h
    exact h.symm
  · split at h
    · simp only [Option.some.injEq, Prod.mk.injEq, true_and] at h
      exact h.symm
    · split at h
      · simp at h
      · simp at h
      · simp only [Option.some.injEq, Prod.mk.injEq, true_and] at h
        exact h.symm

theorem run_trialOn_true (rec : Schedule → Option (Bool × Schedule)) (k : String) (i : Nat)
    (s t c : Schedule) (h : trialOn rec k i s = some (some t, c)) :
    s.bOn k i = 1 ∧ (check (commitOn s k i) k i).1 = true ∧
      ∃ p, propagate (check (commitOn s k i) k i).2 k i = (true, p) ∧ rec p = some (true, t) := by
  simp only [trialOn] at h
  split at h
  · rename_i hb
    refine ⟨hb, ?_⟩
    split at h
    · simp at h
    · rename_i t' c' ht
      simp only [Option.some.injEq, Prod.mk.injEq] at h
      rw [← h.1]
      exact run_tryMove_true rec _ k i t' c' ht
    · simp at h
  · simp at h

theorem run_trialOn_none (rec : Schedule → Option (Bool × Schedule)) (k : String) (i : Nat)
    (s sa : Schedule) (h : trialOn rec k i s = some (none, sa)) :
    (s.bOn k i ≠ 1 ∧ sa = s) ∨ (s.bOn k i = 1 ∧
      sa = ((((check (commitOn s k i) k i).2).ersOn i k).setOn k i 1).setOff k i (s.bOff k i)) := by
  simp only [trialOn] at h
  split at h
  · rename_i hb
    right
    refine ⟨hb, ?_⟩
    split at h
    · simp at h
    · simp at h
    · rename_i c hc
      simp only [Option.some.injEq, Prod.mk.injEq, true_and] at h
      rw [← h, run_tryMove_none rec _ k i c hc]
      rfl
  · rename_i hb
    left
    simp only [Option.some.injEq, Prod.mk.injEq, true_and] at h
    exact ⟨hb, h.symm⟩

theorem run_trialOff_true (rec : Schedule → Option (Bool × Schedule)) (k : String) (i : Nat)
    (s t c : Schedule) (h : trialOff rec k i s = some (some t, c)) :
    s.bOff k i = 1 ∧ (check (commitOff s k i) k i).1 = true ∧
      ∃ p, propagate (check (commitOff s k i) k i).2 k i = (true, p) ∧ rec p = some (true, t) := by
  simp only [trialOff] at h
  split at h
  · rename_i hb
    refine ⟨hb, ?_⟩
    split at h
    · simp at h
    · rename_i t' c' ht
      simp only [Option.some.injEq, Prod.mk.injEq] at h
      rw [← h.1]
      exact run_tryMove_true rec _ k i t' c' ht
    · simp at h
  · simp at h

theorem run_trialOff_none (rec : Schedule → Option (Bool × Schedule)) (k : String) (i : Nat)
    (s sa : Schedule) (h : trialOff rec k i s = some (none, sa)) :
    (s.bOff k i ≠ 1 ∧ sa = s) ∨ (s.bOff k i = 1 ∧
      sa = ((((check (commitOff s k i) k i).2).ersOff i k).setOn k i (s.bOn k i)).setOff k i 1) := by
  simp only [trialOff] at h
  split at h
  · rename_i hb
    right
    refine ⟨hb, ?_⟩
    split at h
    · simp at h
    · simp at h
    · rename_i c hc
      simp only [Option.some.injEq, Prod.mk.injEq, true_and] at h
      rw [← h, run_tryMove_none rec _ k i c hc]
      rfl
  · rename_i hb
    left
    simp only [Option.some.injEq, Prod.mk.injEq, true_and] at h
    exact ⟨hb, h.symm⟩

theorem run_trialOn_none_shrink (rec : Schedule → Option (Bool × Schedule)) (k : String)
    (i : Nat) (s sa : Schedule) (h : trialOn rec k i s = some (none, sa)) :
    Board.Shrink s.board sa.board := by
  rcases run_trialOn_none rec k i s sa h with ⟨_, rfl⟩ | ⟨_, rfl⟩
  · exact Board.Shrink.refl _
  · simpa [commitOn] using Board.Shrink.probeOn s.board i k

theorem run_trialOff_none_shrink (rec : Schedule → Option (Bool × Schedule)) (k : String)
    (i : Nat) (s sa : Schedule) (h : trialOff rec k i s = some (none, sa)) :
    Board.Shrink s.board sa.board := by
  rcases run_trialOff_none rec k i s sa h with ⟨_, rfl⟩ | ⟨_, rfl⟩
  · exact Board.Shrink.refl _
  · simpa [commitOff] using Board.Shrink.probeOff s.board i k

/-- A property of the board that survives the removal of committed entries and every
commit that passes `check` holds in the schedule of every successful search. -/
theorem run_invariant (P : Board → Prop)
    (hshrink : ∀ b b', P b → Board.Shrink b b' → P b')
    (hon : ∀ s k i, P s.board → (check (commitOn s k i) k i).1 = true →
      P (commitOn s k i).board)
    (hoff : ∀ s k i, P s.board → (check (commitOff s k i) k i).1 = true →
      P (commitOff s k i).board) :
    ∀ n s t, P s.board → schedulerFuel n s = some (true, t) → P t.board := by
  intro n
  induction n with
  | zero => intro s t _ h; simp [schedulerFuel] at h
  | succ n ih =>
    intro s t hP h
    simp only [schedulerFuel] at h
    split at h
    · simp only [Option.some.injEq, Prod.mk.injEq, true_and] at h
      subst h; exact hP
    · split at h
      · simp only [Option.some.injEq, Prod.mk.injEq, true_and] at h
        subst h
        simpa using hP
      · have hP' : P (s.touch (mrv s.workers)).board := by simpa using hP
        generalize s.touch (mrv s.workers) = s0 at h hP'
        generalize mrv s.workers = k at h
        clear hP
        have loop : ∀ rest s0, P s0.board →
            schedulerLoop (schedulerFuel n) k rest s0 = some (true, t) → P t.board := by
          intro rest
          induction rest with
          | nil => intro s0 _ h; simp [schedulerLoop] at h
          | cons i tl ihl =>
            intro s0 hP0 h
            simp only [schedulerLoop] at h
            split at h
            · simp at h
            · rename_i t' c' hon'
              simp only [Option.some.injEq, Prod.mk.injEq, true_and] at h
              subst h
              obtain ⟨_, hc, p, hp, hr⟩ := run_trialOn_true _ k i s0 t' c' hon'
              have h1 := hon s0 k i hP0 hc
              have h2 : P (check (commitOn s0 k i) k i).2.board := by simpa using h1
              exact ih p t' (hshrink _ _ h2 (pass_propagate_shrink _ _ _ _ hp)) hr
            · rename_i sa hon'
              have hPa := hshrink _ _ hP0 (run_trialOn_none_shrink _ k i s0 sa hon')
              split at h
              · simp at h
              · rename_i t' c' hoff'
                simp only [Option.some.injEq, Prod.mk.injEq, true_and] at h
                subst h
                obtain ⟨_, hc, p, hp, hr⟩ := run_trialOff_true _ k i sa t' c' hoff'
                have h1 := hoff sa k i hPa hc
                have h2 : P (check (commitOff sa k i) k i).2.board := by simpa using h1
                exact ih p t' (hshrink _ _ h2 (pass_propagate_shrink _ _ _ _ hp)) hr
              · rename_i sb hoff'
                exact ihl sb (hshrink _ _ hPa (run_trialOff_none_shrink _ k i sa sb hoff')) h
        exact loop days s0 hP' h

end

/-! ## Probes: a tentative commit followed by its roll back -/

theorem sets_insert_erase (l : List (List String)) (i : Nat) (x : String)
    (h : x ∉ l.getD i []) :
    (l.set i (setInsert (l.getD i []) x)).set i
      (setErase ((l.set i (setInsert (l.getD i []) x)).getD i []) x) = l := by
  induction l generalizing i with
  | nil => simp
  | cons a t ih =>
    cases i with
    | zero =>
      simp only [List.getD_cons_zero, List.set_cons_zero, List.cons.injEq, and_true] at h ⊢
      exact setErase_setInsert a x h
    | succ i =>
      simp only [List.getD_cons_succ, List.set_cons_succ, List.cons.injEq, true_and] at h ⊢
      exact ih i h

theorem arr_set_restore (l : List Int) (i : Nat) (v u : Int) (h : l.getD i 0 = v) :
    (l.set i u).set i v = l := by
  rw [List.set_set, ← h, set_getD_self]

namespace Schedule

theorem ersOff_insOff (s : Schedule) (i : Nat) (x : String) (h : x ∉ s.off.getD i []) :
    (s.insOff i x).ersOff i x = s := by
  obtain ⟨off, ons, ws, cf, a, b, c, d⟩ := s
  simp only [insOff, ersOff, Schedule.mk.injEq, and_true]
  exact sets_insert_erase off i x h

theorem ersOn_insOn (s : Schedule) (i : Nat) (x : String) (h : x ∉ s.on_.getD i []) :
    (s.insOn i x).ersOn i x = s := by
  obtain ⟨off, ons, ws, cf, a, b, c, d⟩ := s
  simp only [insOn, ersOn, Schedule.mk.injEq, and_true, true_and]
  exact sets_insert_erase ons i x h

theorem keys_setOn (s : Schedule) (k : String) (i : Nat) (v : Int) :
    (s.setOn k i v).keys = s.keys := map_fst_modWorker _ _ _

theorem keys_setOff (s : Schedule) (k : String) (i : Nat) (v : Int) :
    (s.setOff k i v).keys = s.keys := map_fst_modWorker _ _ _

theorem worker_of_mem (s : Schedule) (k : String) (h : k ∈ s.keys) :
    findWorker s.workers k = some (s.worker k) := by
  obtain ⟨w, hw⟩ := findWorker_of_mem s.workers k h
  simp [worker, hw]

theorem worker_setOn (s : Schedule) (k k' : String) (i : Nat) (v : Int) (h : k ∈ s.keys) :
    (s.setOn k i v).worker k' =
      if k' = k then
        { s.worker k with domain := { (s.worker k).domain with
            on_ := (s.worker k).domain.on_.set i v } }
      else s.worker k' := by
  unfold worker setOn
  simp only [findWorker_modWorker]
  by_cases hk : k' = k
  · subst hk
    obtain ⟨w, hw⟩ := findWorker_of_mem s.workers k' h
    simp [hw]
  · simp [hk]

theorem worker_setOff (s : Schedule) (k k' : String) (i : Nat) (v : Int) (h : k ∈ s.keys) :
    (s.setOff k i v).worker k' =
      if k' = k then
        { s.worker k with domain := { (s.worker k).domain with
            off := (s.worker k).domain.off.set i v } }
      else s.worker k' := by
  unfold worker setOff
  simp only [findWorker_modWorker]
  by_cases hk : k' = k
  · subst hk
    obtain ⟨w, hw⟩ := findWorker_of_mem s.workers k' h
    simp [hw]
  · simp [hk]

/-- The probe of `propagate_min_days_off` rolled back: what remains is the removal of the
on-duty option. -/
theorem offProbe_rollback (s : Schedule) (k : String) (i : Nat)
    (hoff : s.bOff k i = 1) (hnot : k ∉ s.off.getD i []) :
    ((((s.setOn k i 0).setOff k i 0).insOff i k).setOff k i 1).ersOff i k = s.setOn k i 0 := by
  have e : ((((s.setOn k i 0).setOff k i 0).insOff i k).setOff k i 1).ersOff i k =
      ((((s.setOn k i 0).setOff k i 0).setOff k i 1).insOff i k).ersOff i k := rfl
  rw [e, ersOff_insOff _ _ _ (by simpa [setOn, setOff] using hnot)]
  obtain ⟨off, ons, ws, cf, a, b, c, d⟩ := s
  simp only [setOn, setOff, Schedule.mk.injEq, true_and, and_true]
  rw [modWorker_modWorker, modWorker_modWorker]
  apply modWorker_congr
  intro w hw
  have hb : w.domain.off.getD i 0 = 1 := by
    simpa [bOff, worker, hw] using hoff
  simp only [List.set_set]
  rw [← hb, set_getD_self]

end Schedule

/-! ## `propagate_min_days_off` -/

theorem check_snd (s : Schedule) (k : String) (d : Nat) (h : k ∈ s.keys) :
    (Constraint.check s k d).2 = s := by
  have e : (Constraint.check_min_days_off s k).2 = s := by
    simp [Constraint.check_min_days_off, Schedule.touch_of_mem s k h]
  unfold Constraint.check
  simp only
  split_ifs <;> simp [e]

/-- What a successful run of `propagate_min_days_off` may change: nothing but on-duty
options of worker `w`, which it removes. -/
structure OnlyOnRemoved (w : String) (s s' : Schedule) : Prop where
  on_eq : s'.on_ = s.on_
  off_eq : s'.off = s.off
  conflicts_eq : s'.conflicts = s.conflicts
  thresholds_eq : s'.min_days_off = s.min_days_off ∧
    s'.max_consec_days_off = s.max_consec_days_off ∧
    s'.min_daily_staff = s.min_daily_staff ∧ s'.min_daily_seniors = s.min_daily_seniors
  keys_eq : s'.keys = s.keys
  others : ∀ k, k ≠ w → s'.worker k = s.worker k
  id_eq : (s'.worker w).id = (s.worker w).id
  level_eq : (s'.worker w).level = (s.worker w).level
  offs_eq : (s'.worker w).domain.off = (s.worker w).domain.off
  ons_le : ∀ j, s'.bOn w j = s.bOn w j ∨ s'.bOn w j = 0

theorem onlyOnRemoved_refl (w : String) (s : Schedule) : OnlyOnRemoved w s s :=
  ⟨rfl, rfl, rfl, ⟨rfl, rfl, rfl, rfl⟩, rfl, fun _ _ => rfl, rfl, rfl, rfl, fun _ => Or.inl rfl⟩

theorem onlyOnRemoved_trans {w : String} {s s' s'' : Schedule} (h : OnlyOnRemoved w s s')
    (h' : OnlyOnRemoved w s' s'') : OnlyOnRemoved w s s'' where
  on_eq := h'.on_eq.trans h.on_eq
  off_eq := h'.off_eq.trans h.off_eq
  conflicts_eq := h'.conflicts_eq.trans h.conflicts_eq
  thresholds_eq := ⟨h'.thresholds_eq.1.trans h.thresholds_eq.1,
    h'.thresholds_eq.2.1.trans h.thresholds_eq.2.1,
    h'.thresholds_eq.2.2.1.trans h.thresholds_eq.2.2.1,
    h'.thresholds_eq.2.2.2.trans h.thresholds_eq.2.2.2⟩
  keys_eq := h'.keys_eq.trans h.keys_eq
  others := fun k hk => (h'.others k hk).trans (h.others k hk)
  id_eq := h'.id_eq.trans h.id_eq
  level_eq := h'.level_eq.trans h.level_eq
  offs_eq := h'.offs_eq.trans h.offs_eq
  ons_le := by
    intro j
    rcases h'.ons_le j with e | e
    · rw [e]; exact h.ons_le j
    · exact Or.inr e

theorem onlyOnRemoved_setOn (s : Schedule) (w : String) (i : Nat) (hw : w ∈ s.keys) :
    OnlyOnRemoved w s (s.setOn w i 0) where
  on_eq := rfl
  off_eq := rfl
  conflicts_eq := rfl
  thresholds_eq := ⟨rfl, rfl, rfl, rfl⟩
  keys_eq := Schedule.keys_setOn _ _ _ _
  others := by
    intro k hk
    rw [Schedule.worker_setOn _ _ _ _ _ hw]
    simp [hk]
  id_eq := by rw [Schedule.worker_setOn _ _ _ _ _ hw]; simp
  level_eq := by rw [Schedule.worker_setOn _ _ _ _ _ hw]; simp
  offs_eq := by rw [Schedule.worker_setOn _ _ _ _ _ hw]; simp
  ons_le := by
    intro j
    unfold Schedule.bOn
    rw [Schedule.worker_setOn _ _ _ _ _ hw]
    simp only [↓reduceIte, getD_set_zero]
    by_cases hj : j = i
    · right; simp [hj]
    · left; simp [hj]

theorem bOn_setOn_self (s : Schedule) (w : String) (i : Nat) (hw : w ∈ s.keys) :
    (s.setOn w i 0).bOn w i = 0 := by
  unfold Schedule.bOn
  rw [Schedule.worker_setOn _ _ _ _ _ hw]
  simp only [↓reduceIte, getD_set_zero]

theorem min_days_off_loop_spec (w : String) (rest : List Nat) :
    ∀ (s s' : Schedule), w ∈ s.keys → (s.worker w).id = w →
      (∀ i ∈ rest, s.bOff w i = 1 → w ∉ s.off.getD i []) →
      Constraint.propagate_min_days_off_loop w rest s = (true, s') →
      OnlyOnRemoved w s s' ∧ ∀ i ∈ rest, s.bOff w i = 1 → s'.bOn w i ≠ 1 := by
  induction rest with
  | nil =>
    intro s s' _ _ _ h
    simp only [Constraint.propagate_min_days_off_loop, Prod.mk.injEq, true_and] at h
    subst h
    exact ⟨onlyOnRemoved_refl w s, by simp⟩
  | cons i tl ih =>
    intro s s' hw hid hfree h
    unfold Constraint.propagate_min_days_off_loop at h
    simp only [hid] at h
    by_cases hboth : (s.worker w).domain.off.getD i 0 = 1 ∧ (s.worker w).domain.on_.getD i 0 = 1
    · rw [if_pos hboth] at h
      have hk1 : w ∈ (((s.setOn w i 0).setOff w i 0).insOff i w).keys := by
        show w ∈ ((s.setOn w i 0).setOff w i 0).keys
        rw [Schedule.keys_setOff, Schedule.keys_setOn]; exact hw
      rw [check_snd _ _ _ hk1] at h
      by_cases hc : (Constraint.check (((s.setOn w i 0).setOff w i 0).insOff i w) w i).1 = false
      · rw [if_pos hc] at h
        simp at h
      · rw [if_neg hc] at h
        have hnot : w ∉ s.off.getD i [] := hfree i (List.mem_cons_self _ _) hboth.1
        rw [Schedule.offProbe_rollback s w i hboth.1 hnot] at h
        have hstep := onlyOnRemoved_setOn s w i hw
        have hw2 : w ∈ (s.setOn w i 0).keys := by rw [Schedule.keys_setOn]; exact hw
        have hid2 : ((s.setOn w i 0).worker w).id = w := by rw [hstep.id_eq]; exact hid
        have hoffb : ∀ j, (s.setOn w i 0).bOff w j = s.bOff w j := by
          intro j; unfold Schedule.bOff; rw [hstep.offs_eq]
        have hfree2 : ∀ j ∈ tl, (s.setOn w i 0).bOff w j = 1 →
            w ∉ (s.setOn w i 0).off.getD j [] := by
          intro j hj hb
          rw [hoffb] at hb
          exact hfree j (List.mem_cons_of_mem _ hj) hb
        obtain ⟨h1, h2⟩ := ih (s.setOn w i 0) s' hw2 hid2 hfree2 h
        refine ⟨onlyOnRemoved_trans hstep h1, ?_⟩
        intro j hj hb
        rcases List.mem_cons.1 hj with e | e
        · subst e
          rcases h1.ons_le j with e' | e'
          · rw [e', bOn_setOn_self s w j hw]; decide
          · rw [e']; decide
        · exact h2 j e (by rw [hoffb]; exact hb)
    · rw [if_neg hboth] at h
      obtain ⟨h1, h2⟩ := ih s s' hw hid (fun j hj => hfree j (List.mem_cons_of_mem _ hj)) h
      refine ⟨h1, ?_⟩
      intro j hj hb
      rcases List.mem_cons.1 hj with e | e
      · subst e
        have hne : s.bOn w j ≠ 1 := fun hon => hboth ⟨hb, hon⟩
        rcases h1.ons_le j with e' | e'
        · rw [e']; exact hne
        · rw [e']; decide
      · exact h2 j e hb

theorem bit_zero_or_one (l : List Int) (h : ∀ x ∈ l, x = 0 ∨ x = 1) (i : Nat) :
    l.getD i 0 = 0 ∨ l.getD i 0 = 1 := by
  by_cases hi : i < l.length
  · rw [List.getD_eq_getElem _ _ hi]
    exact h _ (List.getElem_mem hi)
  · left
    rw [List.getD_eq_default _ _ (not_lt.mp hi)]

theorem DataInv.mem_worker {s : Schedule} (_hs : DataInv s) {w : String} (hw : w ∈ s.keys) :
    (w, s.worker w) ∈ s.workers :=
  findWorker_mem _ _ _ (Schedule.worker_of_mem s w hw)

theorem DataInv.bOn_cases {s : Schedule} (hs : DataInv s) {w : String} (hw : w ∈ s.keys)
    (i : Nat) : s.bOn w i = 0 ∨ s.bOn w i = 1 :=
  bit_zero_or_one _ (hs.bits _ (hs.mem_worker hw)).1 i

theorem propagate_min_days_off_spec (s : Schedule) (hs : DataInv s) (w : String)
    (hw : w ∈ s.keys) :
    (Domain.count (s.worker w).domain.off + Schedule.count s.off w ≠ s.min_days_off →
      Constraint.propagate_min_days_off s w = (true, s)) ∧
    (Domain.count (s.worker w).domain.off + Schedule.count s.off w = s.min_days_off →
      ∀ s', Constraint.propagate_min_days_off s w = (true, s') →
        (∀ d ∈ days, s'.bOff w d = 1 → s'.bOn w d = 0) ∧
        (s'.worker w).domain.off = (s.worker w).domain.off ∧
        s'.on_ = s.on_ ∧ s'.off = s.off ∧
        ∀ k, k ≠ w → s'.worker k = s.worker k) := by
  have ht : s.touch w = s := Schedule.touch_of_mem s w hw
  constructor
  · intro hne
    unfold Constraint.propagate_min_days_off
    simp only [ht]
    rw [if_neg hne]
  · intro heq s' h
    unfold Constraint.propagate_min_days_off at h
    simp only [ht] at h
    rw [if_pos heq] at h
    have hid : (s.worker w).id = w := hs.ids _ (hs.mem_worker hw)
    have hfree : ∀ i ∈ days, s.bOff w i = 1 → w ∉ s.off.getD i [] := by
      intro i hi hb hmem
      have := (hs.committed_dead w hw i hi (Or.inr (by simpa [Schedule.isOff] using hmem))).2
      rw [this] at hb
      exact absurd hb (by decide)
    obtain ⟨h1, h2⟩ := min_days_off_loop_spec w days s s' hw hid hfree h
    refine ⟨?_, h1.offs_eq, h1.on_eq, h1.off_eq, h1.others⟩
    intro d hd hb
    have hb' : s.bOff w d = 1 := by
      unfold Schedule.bOff at hb ⊢
      rw [← h1.offs_eq]; exact hb
    have hne := h2 d hd hb'
    rcases h1.ons_le d with e | e
    · rcases hs.bOn_cases hw d with e0 | e1
      · rw [e, e0]
      · rw [e] at hne; exact absurd e1 hne
    · exact e

/-- C20: in a state satisfying the data-model invariants, for a worker `w` of the table:
if the number of available off-duty options of `w` plus the number of days `w` is
committed off duty differs from `min_days_off`, `Constraint::propagate_min_days_off`
returns `true` and leaves the state unchanged; if it equals `min_days_off` and the call
returns `true`, then afterwards every day whose off-duty option is available for `w` has
its on-duty option removed, the off-duty options of `w` and the committed sets are as
before, and no other worker is touched. -/
theorem c20_propagate_min_days_off (s : Schedule) (hs : DataInv s) (w : String)
    (hw : w ∈ s.keys) :
    (Domain.count (s.worker w).domain.off + Schedule.count s.off w ≠ s.min_days_off →
      Constraint.propagate_min_days_off s w = (true, s)) ∧
    (Domain.count (s.worker w).domain.off + Schedule.count s.off w = s.min_days_off →
      ∀ s', Constraint.propagate_min_days_off s w = (true, s') →
        (∀ d ∈ days, s'.bOff w d = 1 → s'.bOn w d = 0) ∧
        (s'.worker w).domain.off = (s.worker w).domain.off ∧
        s'.on_ = s.on_ ∧ s'.off = s.off ∧
        ∀ k, k ≠ w → s'.worker k = s.worker k) :=
  propagate_min_days_off_spec s hs w hw

theorem dataInv_stateTightRest : DataInv stateTightRest where
  keys_nodup := by decide
  ids := by decide
  len_sets := by decide
  len_arrs := by decide
  bits := by decide
  exclusive := by decide
  committed_dead := by decide
  declared := by
    intro a b h
    rw [conflictsOf_nil stateTightRest rfl a] at h
    simp at h
  symm := by
    intro a b h
    rw [conflictsOf_nil stateTightRest rfl a] at h
    simp at h
  irrefl := by
    intro a
    rw [conflictsOf_nil stateTightRest rfl a]
    simp
  nonneg := by decide

theorem c20_propagate_min_days_off_witness :
    (Constraint.propagate_min_days_off stateTightRest "A").1 = true ∧
    (Constraint.propagate_min_days_off stateTightRest "A").2.bOff "A" 5 = 1 ∧
    (Constraint.propagate_min_days_off stateTightRest "A").2.bOn "A" 5 = 0 ∧
    (Constraint.propagate_min_days_off stateTightRest "A").2.off = stateTightRest.off :=
  have h := (c20_propagate_min_days_off stateTightRest dataInv_stateTightRest "A"
    (by decide)).2 (by decide) (Constraint.propagate_min_days_off stateTightRest "A").2
    (by decide)
  ⟨by decide, by decide, h.1 5 (by decide) (by decide), h.2.2.2.1⟩

section
open Constraint

theorem run_invariant_sched (P : Schedule → Prop)
    (hshrink : ∀ s s', P s → Board.Shrink s.board s'.board → P s')
    (hon : ∀ s k i, P s → (check (commitOn s k i) k i).1 = true → P (commitOn s k i))
    (hoff : ∀ s k i, P s → (check (commitOff s k i) k i).1 = true → P (commitOff s k i)) :
    ∀ n s t, P s → schedulerFuel n s = some (true, t) → P t := by
  intro n s t hP h
  have key := run_invariant (fun b => ∀ s, s.board = b → P s)
    (by
      intro b b' hb hsh s' hs'
      have h0 := hb ⟨b.off, b.on_, [], b.conflicts, b.min_days_off, b.max_consec_days_off,
        b.min_daily_staff, b.min_daily_seniors⟩ rfl
      exact hshrink _ _ h0 (by rw [hs']; exact hsh))
    (by
      intro s k i hb hc s' hs'
      exact hshrink _ _ (hon s k i (hb s rfl) hc) (by rw [hs']; exact Board.Shrink.refl _))
    (by
      intro s k i hb hc s' hs'
      exact hshrink _ _ (hoff s k i (hb s rfl) hc) (by rw [hs']; exact Board.Shrink.refl _))
    n s t
    (by
      intro s' hs'
      exact hshrink _ _ hP (by rw [hs']; exact Board.Shrink.refl _))
    h
  exact key t rfl

theorem run_mrvLoop_mem (all : List (String × Worker)) (rest : List (String × Worker)) :
    ∀ m, mrvLoop all rest m = m ∨ mrvLoop all rest m ∈ rest.map Prod.fst := by
  induction rest with
  | nil => intro m; left; rfl
  | cons p tl ih =>
    intro m
    simp only [mrvLoop]
    split
    · rcases ih p.1 with h | h
      · right; rw [h]; simp
      · right; exact List.mem_cons_of_mem _ h
    · split
      · rcases ih p.1 with h | h
        · right; rw [h]; simp
        · right; exact List.mem_cons_of_mem _ h
      · rcases ih m with h | h
        · left; exact h
        · right; exact List.mem_cons_of_mem _ h

theorem run_mrv_mem (ws : List (String × Worker)) (h : ws ≠ []) :
    mrv ws ∈ ws.map Prod.fst := by
  cases ws with
  | nil => exact absurd rfl h
  | cons p tl =>
    simp only [mrv, mrvLoop, ↓reduceIte]
    rcases run_mrvLoop_mem (p :: tl) tl p.1 with h | h
    · rw [h]; simp
    · exact List.mem_cons_of_mem _ h

theorem run_rollback_on (s : Schedule) (k : String) (i : Nat) (hk : k ∈ s.keys)
    (hb : s.bOn k i = 1) (hn : k ∉ s.on_.getD i []) :
    ((((check (commitOn s k i) k i).2).ersOn i k).setOn k i 1).setOff k i (s.bOff k i) = s := by
  have hk' : k ∈ (commitOn s k i).keys := by
    simp only [commitOn, Schedule.keys_setOn, Schedule.keys_setOff]
    exact hk
  rw [check_snd _ _ _ hk']
  have e : ((((commitOn s k i).ersOn i k).setOn k i 1).setOff k i (s.bOff k i)) =
      (((((s.insOn i k).ersOn i k).setOn k i 0).setOff k i 0).setOn k i 1).setOff k i
        (s.bOff k i) := rfl
  rw [e, Schedule.ersOn_insOn s i k hn]
  obtain ⟨w, hw⟩ := findWorker_of_mem s.workers k hk
  have hbo : w.domain.on_.getD i 0 = 1 := by
    simpa [Schedule.bOn, Schedule.worker, hw] using hb
  have hbf : s.bOff k i = w.domain.off.getD i 0 := by
    simp [Schedule.bOff, Schedule.worker, hw]
  simp only [Schedule.setOn, Schedule.setOff, modWorker_modWorker]
  rw [modWorker_id]
  intro w' hw'
  rw [hw] at hw'
  cases hw'
  have h1 : w.domain.on_.set i 1 = w.domain.on_ := by
    have := set_getD_self w.domain.on_ i 0
    rwa [hbo] at this
  simp only [hbf, List.set_set, h1, set_getD_self]

theorem run_rollback_off (s : Schedule) (k : String) (i : Nat) (hk : k ∈ s.keys)
    (hb : s.bOff k i = 1) (hn : k ∉ s.off.getD i []) :
    ((((check (commitOff s k i) k i).2).ersOff i k).setOn k i (s.bOn k i)).setOff k i 1 = s := by
  have hk' : k ∈ (commitOff s k i).keys := by
    simp only [commitOff, Schedule.keys_setOn, Schedule.keys_setOff]
    exact hk
  rw [check_snd _ _ _ hk']
  have e : ((((commitOff s k i).ersOff i k).setOn k i (s.bOn k i)).setOff k i 1) =
      (((((s.insOff i k).ersOff i k).setOn k i 0).setOff k i 0).setOn k i (s.bOn k i)).setOff
        k i 1 := rfl
  rw [e, Schedule.ersOff_insOff s i k hn]
  obtain ⟨w, hw⟩ := findWorker_of_mem s.workers k hk
  have hbo : w.domain.off.getD i 0 = 1 := by
    simpa [Schedule.bOff, Schedule.worker, hw] using hb
  have hbf : s.bOn k i = w.domain.on_.getD i 0 := by
    simp [Schedule.bOn, Schedule.worker, hw]
  simp only [Schedule.setOn, Schedule.setOff, modWorker_modWorker]
  rw [modWorker_id]
  intro w' hw'
  rw [hw] at hw'
  cases hw'
  have h1 : w.domain.off.set i 1 = w.domain.off := by
    have := set_getD_self w.domain.off i 0
    rwa [hbo] at this
  simp only [hbf, List.set_set, h1, set_getD_self]

theorem run_trialOn_none_eq (rec : Schedule → Option (Bool × Schedule)) (k : String) (i : Nat)
    (s sa : Schedule) (hk : k ∈ s.keys) (hl : LiveUncommitted s k)
    (h : trialOn rec k i s = some (none, sa)) : sa = s := by
  rcases run_trialOn_none rec k i s sa h with ⟨_, rfl⟩ | ⟨hb, rfl⟩
  · rfl
  · exact run_rollback_on s k i hk hb (hl i (Or.inl hb)).1

theorem run_trialOff_none_eq (rec : Schedule → Option (Bool × Schedule)) (k : String) (i : Nat)
    (s sa : Schedule) (hk : k ∈ s.keys) (hl : LiveUncommitted s k)
    (h : trialOff rec k i s = some (none, sa)) : sa = s := by
  rcases run_trialOff_none rec k i s sa h with ⟨_, rfl⟩ | ⟨hb, rfl⟩
  · rfl
  · exact run_rollback_off s k i hk hb (hl i (Or.inr hb)).2

theorem run_loop_false_eq (rec : Schedule → Option (Bool × Schedule)) (k : String)
    (s t : Schedule) (hk : k ∈ s.keys) (hl : LiveUncommitted s k) (rest : List Nat)
    (h : schedulerLoop rec k rest s = some (false, t)) : t = s := by
  induction rest with
  | nil =>
    simp only [schedulerLoop, Option.some.injEq, Prod.mk.injEq, true_and] at h
    exact h.symm
  | cons i tl ih =>
    simp only [schedulerLoop] at h
    split at h
    · simp at h
    · simp at h
    · rename_i sa hon
      have e1 := run_trialOn_none_eq rec k i s sa hk hl hon
      subst e1
      split at h
      · simp at h
      · simp at h
      · rename_i sb hoff
        have e2 := run_trialOff_none_eq rec k i sa sb hk hl hoff
        subst e2
        exact ih h

theorem run_fuel_false_eq (n : Nat) (s t : Schedule)
    (hl : ∀ k ∈ s.keys, LiveUncommitted s k)
    (h : schedulerFuel n s = some (false, t)) : t = s := by
  cases n with
  | zero => simp [schedulerFuel] at h
  | succ n =>
    simp only [schedulerFuel] at h
    split at h
    · simp at h
    · rename_i hne
      have hk : mrv s.workers ∈ s.keys := run_mrv_mem s.workers hne
      rw [Schedule.touch_of_mem s _ hk] at h
      split at h
      · simp at h
      · exact run_loop_false_eq _ _ s t hk (hl _ hk) days h

/-- C7: for every state in which a worker with an available option on a day is in neither
committed set of that day, if `scheduler` returns false the schedule it leaves behind is
the schedule it was given: committed sets, domains, worker table, conflict relation and
thresholds are all unchanged. -/
theorem C7_false_leaves_schedule_unchanged (s t : Schedule)
    (hl : ∀ k ∈ s.keys, ∀ i, (s.bOn k i = 1 ∨ s.bOff k i = 1) →
      k ∉ s.on_.getD i [] ∧ k ∉ s.off.getD i [])
    (h : scheduler s = some (false, t)) : t = s :=
  run_fuel_false_eq _ s t hl h

theorem brd_not_mem_empty7 (i : Nat) (x : String) :
    x ∉ ([[], [], [], [], [], [], []] : List (List String)).getD i [] := by
  match i with
  | 0 | 1 | 2 | 3 | 4 | 5 | 6 => simp
  | n + 7 => simp

/-- C7 holds on a concrete schedule: on the single worker who needs two rest days while
runs of two rest days are forbidden, `scheduler` returns false and leaves the very
schedule it was given. -/
theorem C7_false_leaves_schedule_unchanged_witness :
    ∃ t, scheduler rosterSingle = some (false, t) ∧ t = rosterSingle :=
  ⟨rosterSingle, by decide,
    C7_false_leaves_schedule_unchanged rosterSingle rosterSingle
      (fun _ _ i _ => ⟨brd_not_mem_empty7 i _, brd_not_mem_empty7 i _⟩) (by decide)⟩

/-! ### No conflicting pair on duty -/

theorem brd_conflictsOf_eq (s s' : Schedule) (h : s'.conflicts = s.conflicts) (k : String) :
    s'.conflictsOf k = s.conflictsOf k := by
  simp only [Schedule.conflictsOf, h]

theorem run_noClash_shrink (s s' : Schedule) (h : NoClash s)
    (hs : Board.Shrink s.board s'.board) : NoClash s' := by
  have hc : ∀ k, s'.conflictsOf k = s.conflictsOf k := brd_conflictsOf_eq s s' hs.conflicts
  refine ⟨?_, ?_⟩
  · intro a b hab
    rw [hc] at hab ⊢
    exact h.1 a b hab
  · intro d x y hxy hon
    rw [hc] at hxy
    exact h.2 d x y hxy ⟨hs.on_sub d x hon.1, hs.on_sub d y hon.2⟩

theorem run_noClash_commitOn (s : Schedule) (k : String) (i : Nat) (h : NoClash s)
    (hc : (check (commitOn s k i) k i).1 = true) : NoClash (commitOn s k i) := by
  have hcf : ∀ x, (commitOn s k i).conflictsOf x = s.conflictsOf x :=
    brd_conflictsOf_eq s _ rfl
  have hchk := (run_check_true _ _ _ hc).2.2.2
  refine ⟨?_, ?_⟩
  · intro a b hab
    rw [hcf] at hab ⊢
    exact h.1 a b hab
  · intro d x y hxy hon
    rw [hcf] at hxy
    have hon_ : (commitOn s k i).on_ = s.on_.set i (setInsert (s.on_.getD i []) k) := rfl
    rw [hon_, brd_mem_getD_set, brd_mem_getD_set] at hon
    by_cases hd : d = i ∧ i < s.on_.length
    · simp only [hd, and_self, ↓reduceIte, mem_setInsert] at hon
      obtain ⟨rfl, hlt⟩ := hd
      -- the commit is visible: `check_conflicts` ran its loop
      have hk_on : ((commitOn s k d).touch k).isOn d k = true := by
        rw [isOn_touch]
        simp only [Schedule.isOn, hon_, decide_eq_true_eq]
        rw [brd_getD_set_self _ _ _ hlt, mem_setInsert]
        exact Or.inl rfl
      simp only [check_conflicts, hk_on, ↓reduceIte, List.all_eq_true, Bool.not_eq_true',
        conflictsOf_touch, isOn_touch] at hchk
      have hnot : ∀ z ∈ s.conflictsOf k, z ∉ setInsert (s.on_.getD d []) k := by
        intro z hz hmem
        have := hchk z (by rw [hcf]; exact hz)
        simp only [Schedule.isOn, hon_, decide_eq_false_iff_not] at this
        rw [brd_getD_set_self _ _ _ hlt] at this
        exact this hmem
      rcases hon with ⟨hx | hx, hy | hy⟩
      · subst hx; subst hy
        exact hnot _ hxy (by rw [mem_setInsert]; exact Or.inl rfl)
      · subst hx
        exact hnot y hxy (by rw [mem_setInsert]; exact Or.inr hy)
      · subst hy
        exact hnot x (h.1 x _ hxy) (by rw [mem_setInsert]; exact Or.inr hx)
      · exact h.2 d x y hxy ⟨hx, hy⟩
    · simp only [hd, ↓reduceIte] at hon
      exact h.2 d x y hxy hon

theorem run_noClash_commitOff (s : Schedule) (k : String) (i : Nat) (h : NoClash s) :
    NoClash (commitOff s k i) := by
  have hcf : ∀ x, (commitOff s k i).conflictsOf x = s.conflictsOf x :=
    brd_conflictsOf_eq s _ rfl
  refine ⟨?_, ?_⟩
  · intro a b hab
    rw [hcf] at hab ⊢
    exact h.1 a b hab
  · intro d x y hxy hon
    rw [hcf] at hxy
    exact h.2 d x y hxy hon

/-- C4: for every initial state in which nothing is committed and the conflict relation is
symmetric, if `scheduler` returns true then in the resulting schedule no two workers
related by the conflict relation are both in the committed-on set of any day. -/
theorem C4_no_conflicting_pair_on_duty (s t : Schedule)
    (hempty : ∀ d, s.on_.getD d [] = [])
    (hsymm : ∀ a b, b ∈ s.conflictsOf a → a ∈ s.conflictsOf b)
    (h : scheduler s = some (true, t)) :
    ∀ d x y, y ∈ t.conflictsOf x → ¬ (t.isOn d x = true ∧ t.isOn d y = true) := by
  have h0 : NoClash s := ⟨hsymm, fun d x y _ hon => by
    have h1 := hon.1
    rw [hempty d] at h1
    exact absurd h1 (List.not_mem_nil _)⟩
  have ht := run_invariant_sched NoClash run_noClash_shrink
    (fun s k i hs hc => run_noClash_commitOn s k i hs hc)
    (fun s k i hs _ => run_noClash_commitOff s k i hs) _ s t h0 h
  intro d x y hxy hon
  exact ht.2 d x y hxy ⟨by simpa [Schedule.isOn] using hon.1, by simpa [Schedule.isOn] using hon.2⟩

theorem brd_getD_empty7 (i : Nat) :
    ([[], [], [], [], [], [], []] : List (List String)).getD i [] = [] := by
  match i with
  | 0 | 1 | 2 | 3 | 4 | 5 | 6 => simp
  | n + 7 => simp

theorem conflictsOf_rosterRivals (a b : String) :
    b ∈ rosterRivals.conflictsOf a ↔ (a = "A" ∧ b = "B") ∨ (a = "B" ∧ b = "A") := by
  simp only [Schedule.conflictsOf, rosterRivals, initial, List.find?]
  by_cases h1 : a = "A"
  · subst h1; simp
  · by_cases h2 : a = "B"
    · subst h2; simp
    · have e1 : ("A" == a) = false := by simpa using fun e => h1 e.symm
      have e2 : ("B" == a) = false := by simpa using fun e => h2 e.symm
      simp [e1, e2, h1, h2]

/-- C4 holds on a concrete roster: for the conflicting workers `A` and `B`, `scheduler`
returns true and no day has both of them on duty. -/
theorem C4_no_conflicting_pair_on_duty_witness :
    ∃ t, scheduler rosterRivals = some (true, t) ∧
      ∀ d x y, y ∈ t.conflictsOf x → ¬ (t.isOn d x = true ∧ t.isOn d y = true) := by
  obtain ⟨t, ht, _⟩ := exists_true_of_eval rosterRivals (fun _ => true) (by decide)
  refine ⟨t, ht, C4_no_conflicting_pair_on_duty rosterRivals t (fun d => brd_getD_empty7 d) ?_ ht⟩
  intro a b hab
  rw [conflictsOf_rosterRivals] at hab ⊢
  tauto

theorem run_tryMove_fail (rec : Schedule → Option (Bool × Schedule)) (s1 : Schedule)
    (k : String) (i : Nat)
    (h : (check s1 k i).1 = false ∨ (propagate (check s1 k i).2 k i).1 = false) :
    tryMove rec s1 k i = some (none, (check s1 k i).2) := by
  simp only [tryMove]
  split
  · rfl
  · rename_i hc
    rcases h with h | h
    · exact absurd h hc
    · simp [h]

theorem run_trialOn_fail (rec : Schedule → Option (Bool × Schedule)) (k : String) (i : Nat)
    (s : Schedule) (hk : k ∈ s.keys) (hl : LiveUncommitted s k)
    (h : (check (commitOn s k i) k i).1 = false ∨
      (propagate (check (commitOn s k i) k i).2 k i).1 = false) :
    trialOn rec k i s = some (none, s) := by
  by_cases hb : s.bOn k i = 1
  · have e : trialOn rec k i s = some (none,
        ((((check (commitOn s k i) k i).2).ersOn i k).setOn k i 1).setOff k i (s.bOff k i)) := by
      have hb' : (s.worker k).domain.on_.getD i 0 = 1 := hb
      simp only [trialOn, hb', ↓reduceIte]
      have := run_tryMove_fail rec (commitOn s k i) k i h
      simp only [commitOn] at this
      rw [this]
      rfl
    rw [e, run_rollback_on s k i hk hb (hl i (Or.inl hb)).1]
  · have hb' : ¬ (s.worker k).domain.on_.getD i 0 = 1 := hb
    simp only [trialOn, hb', ↓reduceIte]

theorem run_trialOff_fail (rec : Schedule → Option (Bool × Schedule)) (k : String) (i : Nat)
    (s : Schedule) (hk : k ∈ s.keys) (hl : LiveUncommitted s k)
    (h : (check (commitOff s k i) k i).1 = false ∨
      (propagate (check (commitOff s k i) k i).2 k i).1 = false) :
    trialOff rec k i s = some (none, s) := by
  by_cases hb : s.bOff k i = 1
  · have e : trialOff rec k i s = some (none,
        ((((check (commitOff s k i) k i).2).ersOff i k).setOn k i (s.bOn k i)).setOff k i 1) := by
      have hb' : (s.worker k).domain.off.getD i 0 = 1 := hb
      simp only [trialOff, hb', ↓reduceIte]
      have := run_tryMove_fail rec (commitOff s k i) k i h
      simp only [commitOff] at this
      rw [this]
      rfl
    rw [e, run_rollback_off s k i hk hb (hl i (Or.inr hb)).2]
  · have hb' : ¬ (s.worker k).domain.off.getD i 0 = 1 := hb
    simp only [trialOff, hb', ↓reduceIte]

/-- When every tentative move of the loop fails in `check` or in `propagate`, the loop
returns false without recursing and leaves the schedule as it was. -/
theorem run_loop_all_fail (rec : Schedule → Option (Bool × Schedule)) (k : String)
    (s : Schedule) (hk : k ∈ s.keys) (hl : LiveUncommitted s k)
    (hOn : ∀ i, (check (commitOn s k i) k i).1 = false ∨
      (propagate (check (commitOn s k i) k i).2 k i).1 = false)
    (hOff : ∀ i, (check (commitOff s k i) k i).1 = false ∨
      (propagate (check (commitOff s k i) k i).2 k i).1 = false)
    (rest : List Nat) : schedulerLoop rec k rest s = some (false, s) := by
  induction rest with
  | nil => rfl
  | cons i tl ih =>
    simp only [schedulerLoop, run_trialOn_fail rec k i s hk hl (hOn i),
      run_trialOff_fail rec k i s hk hl (hOff i)]
    exact ih

/-- The fresh domain has fourteen available options. -/
theorem run_fresh_count : Domain.count Domain.fresh.on_ = 7 ∧ Domain.count Domain.fresh.off = 7 := by
  decide

theorem run_worker_fresh (s : Schedule) (hfresh : ∀ p ∈ s.workers, p.2.domain = Domain.fresh)
    (k : String) : (s.worker k).domain = Domain.fresh := by
  unfold Schedule.worker
  cases h : findWorker s.workers k with
  | none => rfl
  | some w => exact hfresh _ (findWorker_mem _ _ _ h)

/-- On a non-empty table of fresh workers `scheduler` enters its loop for the worker
chosen by `mrv`. -/
theorem run_fuel_fresh (n : Nat) (s : Schedule) (hne : s.workers ≠ [])
    (hfresh : ∀ p ∈ s.workers, p.2.domain = Domain.fresh) :
    schedulerFuel (n + 1) s = schedulerLoop (schedulerFuel n) (mrv s.workers) days s := by
  have hk : mrv s.workers ∈ s.keys := run_mrv_mem s.workers hne
  simp only [schedulerFuel, hne, ↓reduceIte, Schedule.touch_of_mem s _ hk,
    run_worker_fresh s hfresh, run_fresh_count]
  simp

theorem run_liveUncommitted_of_empty (s : Schedule) (k : String)
    (hon : s.on_ = [[], [], [], [], [], [], []]) (hoff : s.off = [[], [], [], [], [], [], []]) :
    LiveUncommitted s k := by
  intro i _
  rw [hon, hoff]
  exact ⟨brd_not_mem_empty7 i k, brd_not_mem_empty7 i k⟩

/-- On a non-empty table of fresh workers with nothing committed, when every tentative
move of the first worker fails, `scheduler` returns false. -/
theorem run_initial_all_fail (s : Schedule) (hne : s.workers ≠ [])
    (hfresh : ∀ p ∈ s.workers, p.2.domain = Domain.fresh)
    (hon : s.on_ = [[], [], [], [], [], [], []]) (hoff : s.off = [[], [], [], [], [], [], []])
    (hOn : ∀ k ∈ s.keys, ∀ i, (check (commitOn s k i) k i).1 = false ∨
      (propagate (check (commitOn s k i) k i).2 k i).1 = false)
    (hOff : ∀ k ∈ s.keys, ∀ i, (check (commitOff s k i) k i).1 = false ∨
      (propagate (check (commitOff s k i) k i).2 k i).1 = false) (n : Nat) :
    schedulerFuel (n + 1) s = some (false, s) := by
  have hk : mrv s.workers ∈ s.keys := run_mrv_mem s.workers hne
  rw [run_fuel_fresh n s hne hfresh]
  exact run_loop_all_fail _ _ s hk (run_liveUncommitted_of_empty s _ hon hoff)
    (hOn _ hk) (hOff _ hk) days

theorem run_check_false_of_staff (s : Schedule) (k : String) (d : Nat)
    (h : check_min_daily_staff (s.touch k) k d = false) : (check s k d).1 = false := by
  cases hc : (check s k d).1 with
  | false => rfl
  | true =>
    have := (run_check_true s k d hc).2.2.1
    rw [h] at this
    exact absurd this (by simp)

theorem run_check_false_of_max_consec (s : Schedule) (k : String) (d : Nat)
    (h : check_max_consec_days_off (s.touch k) k = false) : (check s k d).1 = false := by
  cases hc : (check s k d).1 with
  | false => rfl
  | true =>
    have := (run_check_true s k d hc).2.1
    rw [h] at this
    exact absurd this (by simp)

theorem run_staff_false_of_short (s : Schedule) (k : String) (d : Nat)
    (h : (s.workers.length : Int) < s.min_daily_staff) :
    check_min_daily_staff s k d = false := by
  have h1 : workers_count s d ≤ (s.workers.length : Int) := by
    unfold workers_count
    exact_mod_cast List.countP_le_length _
  have h2 : ¬ workers_count s d ≥ s.min_daily_staff := by omega
  simp [check_min_daily_staff, h2]

theorem run_commit_workers_length (s : Schedule) (k : String) (i : Nat) :
    (commitOn s k i).workers.length = s.workers.length ∧
    (commitOff s k i).workers.length = s.workers.length := by
  simp [commitOn, commitOff, Schedule.setOn, Schedule.setOff, Schedule.insOn, Schedule.insOff,
    length_modWorker]

theorem run_commit_keys (s : Schedule) (k : String) (i : Nat) :
    (commitOn s k i).keys = s.keys ∧ (commitOff s k i).keys = s.keys := by
  simp only [commitOn, commitOff, Schedule.keys_setOn, Schedule.keys_setOff]
  exact ⟨rfl, rfl⟩

/-- C9 (amended): for every initial state with a non-empty worker table, whatever the
conflicts and the other three thresholds are, if `min_daily_staff` is greater than the
number of workers then `scheduler` returns false (and leaves the schedule unchanged). -/
theorem C9_understaffed_returns_false (s : Schedule) (hne : s.workers ≠ [])
    (hfresh : ∀ p ∈ s.workers, p.2.domain = Domain.fresh)
    (hon : s.on_ = [[], [], [], [], [], [], []]) (hoff : s.off = [[], [], [], [], [], [], []])
    (hms : (s.workers.length : Int) < s.min_daily_staff) :
    scheduler s = some (false, s) := by
  refine run_initial_all_fail s hne hfresh hon hoff ?_ ?_ _
  · intro k hk i
    left
    apply run_check_false_of_staff
    have hk' : k ∈ (commitOn s k i).keys := by rw [(run_commit_keys s k i).1]; exact hk
    rw [Schedule.touch_of_mem _ _ hk']
    apply run_staff_false_of_short
    rw [(run_commit_workers_length s k i).1]
    exact hms
  · intro k hk i
    left
    apply run_check_false_of_staff
    have hk' : k ∈ (commitOff s k i).keys := by rw [(run_commit_keys s k i).2]; exact hk
    rw [Schedule.touch_of_mem _ _ hk']
    apply run_staff_false_of_short
    rw [(run_commit_workers_length s k i).2]
    exact hms

/-- C9 (amended) holds on a concrete roster: one worker, `min_daily_staff = 2`. -/
theorem C9_understaffed_returns_false_witness :
    scheduler rosterShort = some (false, rosterShort) :=
  C9_understaffed_returns_false rosterShort (by decide) (by decide) rfl rfl (by decide)

/-- C9 as stated fails on the empty worker table: `min_daily_staff = 1` is greater than
the number of workers, 0, and `scheduler` returns true (the `workers.empty()` guard). -/
theorem C9_empty_table_returns_true :
    IsInitial rosterNobody ∧
    (rosterNobody.workers.length : Int) < rosterNobody.min_daily_staff ∧
    scheduler rosterNobody = some (true, rosterNobody) :=
  ⟨isInitial_initial [] 2 3 1 1 (by decide) (by decide) (by decide) (by decide) (by decide),
    by decide, by decide⟩

end

section
open Constraint

/-! ### No long run of rest days -/

theorem run_noLongRun_of_isOff (s s' : Schedule) (w : String)
    (hmc : s'.max_consec_days_off = s.max_consec_days_off)
    (hoff : ∀ d, s'.isOff d w = true → s.isOff d w = true) (h : NoLongRun s w) :
    NoLongRun s' w := by
  rintro ⟨start, len, hlen, hle, hall⟩
  exact h ⟨start, len, by rw [← hmc]; exact hlen, hle, fun d h1 h2 => hoff d (hall d h1 h2)⟩

theorem run_noLongRun_shrink (s s' : Schedule) (h : ∀ w, NoLongRun s w)
    (hs : Board.Shrink s.board s'.board) : ∀ w, NoLongRun s' w := by
  intro w
  refine run_noLongRun_of_isOff s s' w hs.mc ?_ (h w)
  intro d hd
  simp only [Schedule.isOff, decide_eq_true_eq] at hd ⊢
  exact hs.off_sub d w hd

theorem run_noLongRun_commitOn (s : Schedule) (k : String) (i : Nat)
    (h : ∀ w, NoLongRun s w) : ∀ w, NoLongRun (commitOn s k i) w :=
  fun w => run_noLongRun_of_isOff s _ w rfl (fun _ hd => hd) (h w)

theorem run_noLongRun_commitOff (s : Schedule) (k : String) (i : Nat)
    (h : ∀ w, NoLongRun s w) (hc : (check (commitOff s k i) k i).1 = true) :
    ∀ w, NoLongRun (commitOff s k i) w := by
  intro w
  by_cases hw : w = k
  · subst hw
    have := (run_check_true _ _ _ hc).2.1
    rw [check_max_consec_days_off_iff, noLongRun_touch] at this
    exact this
  · refine run_noLongRun_of_isOff s _ w rfl ?_ (h w)
    intro d hd
    have e : (commitOff s k i).off = s.off.set i (setInsert (s.off.getD i []) k) := rfl
    simp only [Schedule.isOff, decide_eq_true_eq, e] at hd ⊢
    rw [brd_mem_getD_set] at hd
    split at hd
    · rename_i hdi
      rw [mem_setInsert] at hd
      rcases hd with hd | hd
      · exact absurd hd hw
      · rw [hdi.1]; exact hd
    · exact hd

/-- With `max_consec_days_off <= 0` the run check fails on every schedule. -/
theorem run_max_consec_false (s : Schedule) (w : String) (h : s.max_consec_days_off ≤ 0) :
    check_max_consec_days_off s w = false := by
  cases hc : check_max_consec_days_off s w with
  | false => rfl
  | true =>
    rw [check_max_consec_days_off_iff] at hc
    exact absurd ⟨0, 0, by simpa using h, by simp [OffBlock]⟩ hc

/-- C2: for every initial state (all domains fully live, nothing committed), if
`scheduler` returns true then in the resulting schedule no worker of the table has a
block of consecutive days within 0..6, of length `max_consec_days_off` or more, on all of
which the worker is committed off duty. -/
theorem C2_no_long_run_of_rest_days (s t : Schedule)
    (hfresh : ∀ p ∈ s.workers, p.2.domain = Domain.fresh)
    (hon : s.on_ = [[], [], [], [], [], [], []]) (hoff : s.off = [[], [], [], [], [], [], []])
    (h : scheduler s = some (true, t)) : ∀ w ∈ t.keys, NoLongRun t w := by
  by_cases hmc : s.max_consec_days_off ≤ 0
  · -- no move can pass `check`: only the empty table returns true
    by_cases hne : s.workers = []
    · have : scheduler s = some (true, s) := by
        simp [scheduler, schedulerFuel, hne]
      rw [this] at h
      cases h
      intro w hw
      simp [Schedule.keys, hne] at hw
    · have hf : scheduler s = some (false, s) := by
        refine run_initial_all_fail s hne hfresh hon hoff ?_ ?_ _
        · intro k _ i
          left
          exact run_check_false_of_max_consec _ _ _ (run_max_consec_false _ _ (by
            rw [(touch_fields _ _).2.2.2.2.1]; exact hmc))
        · intro k _ i
          left
          exact run_check_false_of_max_consec _ _ _ (run_max_consec_false _ _ (by
            rw [(touch_fields _ _).2.2.2.2.1]; exact hmc))
      rw [hf] at h
      cases h
  · have h0 : ∀ w, NoLongRun s w := by
      rintro w ⟨start, len, hlen, hle, hall⟩
      have hpos : 0 < len := by
        have : (0 : Int) < (len : Int) := by omega
        exact_mod_cast this
      have := hall start (Nat.le_refl _) (by omega)
      simp only [Schedule.isOff, hoff, decide_eq_true_eq] at this
      exact brd_not_mem_empty7 _ _ this
    have ht := run_invariant_sched (fun s => ∀ w, NoLongRun s w) run_noLongRun_shrink
      (fun s k i hs _ => run_noLongRun_commitOn s k i hs)
      (fun s k i hs hc => run_noLongRun_commitOff s k i hs hc) _ s t h0 h
    exact fun w _ => ht w

/-- C2 holds on a concrete roster: for the workers `A` and `B`, `scheduler` returns true
and neither has three consecutive committed rest days. -/
theorem C2_no_long_run_of_rest_days_witness :
    ∃ t, scheduler rosterRivals = some (true, t) ∧ ∀ w ∈ t.keys, NoLongRun t w := by
  obtain ⟨t, ht, _⟩ := exists_true_of_eval rosterRivals (fun _ => true) (by decide)
  exact ⟨t, ht, C2_no_long_run_of_rest_days rosterRivals t (by decide) rfl rfl ht⟩

end

/-! ## The block scan of `propagate_max_consec_days_off` -/

theorem scanLeft_spec (arr : List Int) (k : Nat) :
    -1 ≤ Constraint.scanLeft arr k ∧ Constraint.scanLeft arr k < (k : Int) ∧
    (∀ d : Nat, Constraint.scanLeft arr k < (d : Int) → d < k → arr.getD d 0 = 1) ∧
    (0 ≤ Constraint.scanLeft arr k → arr.getD (Constraint.scanLeft arr k).toNat 0 ≠ 1) := by
  induction k with
  | zero =>
    simp only [Constraint.scanLeft]
    refine ⟨le_refl _, by decide, ?_, ?_⟩
    · intro d _ hd; omega
    · intro h; omega
  | succ n ih =>
    unfold Constraint.scanLeft
    by_cases h1 : arr.getD n 0 = 1
    · rw [if_pos h1]
      obtain ⟨a, b, c, e⟩ := ih
      refine ⟨a, by push_cast; omega, ?_, e⟩
      intro d hd hlt
      by_cases hdn : d = n
      · subst hdn; exact h1
      · exact c d hd (by omega)
    · rw [if_neg h1]
      refine ⟨by omega, by push_cast; omega, ?_, ?_⟩
      · intro d hd hlt; omega
      · intro _
        simpa using h1

theorem scanRight_spec (arr : List Int) (fuel : Nat) :
    ∀ j : Nat, j ≤ Constraint.scanRight arr fuel j ∧
      Constraint.scanRight arr fuel j ≤ j + fuel ∧
      (∀ d : Nat, j ≤ d → d < Constraint.scanRight arr fuel j → d < 7 ∧ arr.getD d 0 = 1) ∧
      (Constraint.scanRight arr fuel j < j + fuel →
        ¬ (Constraint.scanRight arr fuel j < 7 ∧
          arr.getD (Constraint.scanRight arr fuel j) 0 = 1)) := by
  induction fuel with
  | zero =>
    intro j
    simp only [Constraint.scanRight]
    refine ⟨le_refl _, le_refl _, ?_, ?_⟩
    · intro d h1 h2; omega
    · intro h; omega
  | succ f ih =>
    intro j
    unfold Constraint.scanRight
    by_cases h1 : j < 7 ∧ arr.getD j 0 = 1
    · rw [if_pos h1]
      obtain ⟨a, b, c, e⟩ := ih (j + 1)
      refine ⟨by omega, by omega, ?_, ?_⟩
      · intro d hd hlt
        by_cases hdj : d = j
        · subst hdj; exact h1
        · exact c d (by omega) hlt
      · intro h; exact e (by omega)
    · rw [if_neg h1]
      refine ⟨le_refl _, by omega, ?_, ?_⟩
      · intro d hd hlt; omega
      · intro _; exact h1

theorem max_consec_block_spec (s : Schedule) (worker_id : String) (arr : List Int) (k : Nat)
    (hk : k < 7) :
    (-1 ≤ Constraint.scanLeft arr k ∧ Constraint.scanLeft arr k < (k : Int) ∧
      k < Constraint.scanRight arr 7 (k + 1) ∧ Constraint.scanRight arr 7 (k + 1) ≤ 7 ∧
      (∀ d : Nat, Constraint.scanLeft arr k < (d : Int) →
        d < Constraint.scanRight arr 7 (k + 1) → d ≠ k → arr.getD d 0 = 1) ∧
      (0 ≤ Constraint.scanLeft arr k →
        arr.getD (Constraint.scanLeft arr k).toNat 0 ≠ 1) ∧
      (Constraint.scanRight arr 7 (k + 1) < 7 →
        arr.getD (Constraint.scanRight arr 7 (k + 1)) 0 ≠ 1)) ∧
    (Constraint.blockLength arr k + 1 < s.max_consec_days_off →
      Constraint.propagate_max_consec_loop worker_id arr [k] s = (true, s)) := by
  obtain ⟨l1, l2, l3, l4⟩ := scanLeft_spec arr k
  obtain ⟨r1, r2, r3, r4⟩ := scanRight_spec arr 7 (k + 1)
  have hr7 : Constraint.scanRight arr 7 (k + 1) ≤ 7 := by
    by_contra hcon
    have := (r3 (Constraint.scanRight arr 7 (k + 1) - 1) (by omega) (by omega)).1
    omega
  refine ⟨⟨l1, l2, by omega, hr7, ?_, l4, ?_⟩, ?_⟩
  · intro d hd1 hd2 hdk
    by_cases hlt : d < k
    · exact l3 d hd1 hlt
    · exact (r3 d (by omega) hd2).2
  · intro hlt
    have := r4 (by omega)
    intro h1
    exact this ⟨hlt, h1⟩
  · intro hshort
    unfold Constraint.propagate_max_consec_loop
    by_cases h2 : arr.getD k 0 = 2
    · rw [if_pos h2]
      have hnot : ¬ ((Constraint.scanRight arr 7 (k + 1) : Int) - Constraint.scanLeft arr k - 1
          + 1 ≥ s.max_consec_days_off) := by
        unfold Constraint.blockLength at hshort
        omega
      simp only [hnot, ↓reduceIte, Constraint.propagate_max_consec_loop]
    · rw [if_neg h2]
      simp only [Constraint.propagate_max_consec_loop]

/-- C19 (as stated, refuted): with `max_consec_days_off = 3`, day 0 committed off and
day 1 still having the off-duty option, the block `R = {0, 1}` has length 2, below the
limit, and yet the iteration of `propagate_max_consec_days_off` for `k = 1` removes the
off-duty option of day 2, the day immediately after `R`. -/
theorem c19_elimination_below_limit :
    (Constraint.statusArr stateRunOfTwo "A").getD 1 0 = 2 ∧
    Constraint.blockLength (Constraint.statusArr stateRunOfTwo "A") 1 = 2 ∧
    stateRunOfTwo.max_consec_days_off = 3 ∧
    stateRunOfTwo.bOff "A" 2 = 1 ∧
    (Constraint.propagate_max_consec_loop "A" (Constraint.statusArr stateRunOfTwo "A") [1]
      stateRunOfTwo).1 = true ∧
    (Constraint.propagate_max_consec_loop "A" (Constraint.statusArr stateRunOfTwo "A") [1]
      stateRunOfTwo).2.bOff "A" 2 = 0 := by
  decide

/-- C19 (amended): in `propagate_max_consec_days_off`, for a day `k` of `0..6`, the days
strictly between `i = scanLeft` and `j = scanRight` form the block `R` made of `k` and the
maximal runs of status-1 (committed off) days adjacent to `k` on both sides, of length
`blockLength = j - i - 1`; when `blockLength + 1` is below `max_consec_days_off`, i.e.
when one more rest day next to `R` would still not reach the limit, the iteration for `k`
returns `true` and leaves the schedule unchanged: an off-duty option of the day before or
after `R` is removed only if `blockLength + 1 ≥ max_consec_days_off`. -/
theorem c19_elimination_needs_block_plus_one (s : Schedule) (worker_id : String)
    (arr : List Int) (k : Nat) (hk : k < 7) :
    (-1 ≤ Constraint.scanLeft arr k ∧ Constraint.scanLeft arr k < (k : Int) ∧
      k < Constraint.scanRight arr 7 (k + 1) ∧ Constraint.scanRight arr 7 (k + 1) ≤ 7 ∧
      (∀ d : Nat, Constraint.scanLeft arr k < (d : Int) →
        d < Constraint.scanRight arr 7 (k + 1) → d ≠ k → arr.getD d 0 = 1) ∧
      (0 ≤ Constraint.scanLeft arr k →
        arr.getD (Constraint.scanLeft arr k).toNat 0 ≠ 1) ∧
      (Constraint.scanRight arr 7 (k + 1) < 7 →
        arr.getD (Constraint.scanRight arr 7 (k + 1)) 0 ≠ 1)) ∧
    (Constraint.blockLength arr k + 1 < s.max_consec_days_off →
      Constraint.propagate_max_consec_loop worker_id arr [k] s = (true, s)) :=
  max_consec_block_spec s worker_id arr k hk

theorem c19_elimination_needs_block_plus_one_witness :
    Constraint.blockLength (Constraint.statusArr stateRunOfTwo "A") 3 + 1 <
      stateRunOfTwo.max_consec_days_off ∧
    Constraint.propagate_max_consec_loop "A" (Constraint.statusArr stateRunOfTwo "A") [3]
      stateRunOfTwo = (true, stateRunOfTwo) :=
  ⟨by decide, (c19_elimination_needs_block_plus_one stateRunOfTwo "A"
    (Constraint.statusArr stateRunOfTwo "A") 3 (by decide)).2 (by decide)⟩

/-! ## The first two passes of `propagate` only narrow the domain of their worker -/

theorem narrowed_refl (w : String) (s : Schedule) : Narrowed w s s :=
  ⟨rfl, rfl, rfl, ⟨rfl, rfl, rfl, rfl⟩, rfl, fun _ _ => rfl, rfl, rfl,
    fun _ => Or.inl rfl, fun _ => Or.inl rfl⟩

theorem narrowed_trans {w : String} {s s' s'' : Schedule} (h : Narrowed w s s')
    (h' : Narrowed w s' s'') : Narrowed w s s'' where
  on_eq := h'.on_eq.trans h.on_eq
  off_eq := h'.off_eq.trans h.off_eq
  conflicts_eq := h'.conflicts_eq.trans h.conflicts_eq
  thresholds_eq := ⟨h'.thresholds_eq.1.trans h.thresholds_eq.1,
    h'.thresholds_eq.2.1.trans h.thresholds_eq.2.1,
    h'.thresholds_eq.2.2.1.trans h.thresholds_eq.2.2.1,
    h'.thresholds_eq.2.2.2.trans h.thresholds_eq.2.2.2⟩
  keys_eq := h'.keys_eq.trans h.keys_eq
  others := fun k hk => (h'.others k hk).trans (h.others k hk)
  id_eq := h'.id_eq.trans h.id_eq
  level_eq := h'.level_eq.trans h.level_eq
  ons_le := by
    intro j
    rcases h'.ons_le j with e | e
    · rw [e]; exact h.ons_le j
    · exact Or.inr e
  offs_le := by
    intro j
    rcases h'.offs_le j with e | e
    · rw [e]; exact h.offs_le j
    · exact Or.inr e

theorem narrowed_of_onlyOnRemoved {w : String} {s s' : Schedule} (h : OnlyOnRemoved w s s') :
    Narrowed w s s' where
  on_eq := h.on_eq
  off_eq := h.off_eq
  conflicts_eq := h.conflicts_eq
  thresholds_eq := h.thresholds_eq
  keys_eq := h.keys_eq
  others := h.others
  id_eq := h.id_eq
  level_eq := h.level_eq
  ons_le := h.ons_le
  offs_le := by
    intro j; left; unfold Schedule.bOff; rw [h.offs_eq]

theorem narrowed_setOff (s : Schedule) (w : String) (i : Nat) (hw : w ∈ s.keys) :
    Narrowed w s (s.setOff w i 0) where
  on_eq := rfl
  off_eq := rfl
  conflicts_eq := rfl
  thresholds_eq := ⟨rfl, rfl, rfl, rfl⟩
  keys_eq := Schedule.keys_setOff _ _ _ _
  others := by
    intro k hk
    rw [Schedule.worker_setOff _ _ _ _ _ hw]
    simp [hk]
  id_eq := by rw [Schedule.worker_setOff _ _ _ _ _ hw]; simp
  level_eq := by rw [Schedule.worker_setOff _ _ _ _ _ hw]; simp
  ons_le := by
    intro j; left
    unfold Schedule.bOn
    rw [Schedule.worker_setOff _ _ _ _ _ hw]
    simp
  offs_le := by
    intro j
    unfold Schedule.bOff
    rw [Schedule.worker_setOff _ _ _ _ _ hw]
    simp only [↓reduceIte, getD_set_zero]
    by_cases hj : j = i
    · right; simp [hj]
    · left; simp [hj]

/-- The probe of a forced on-duty commit rolled back: what remains is the removal of the
off-duty option. -/
theorem onProbe_rollback (s : Schedule) (k : String) (i : Nat) (hnot : k ∉ s.on_.getD i []) :
    ((((s.setOff k i 0).setOn k i 0).insOn i k).setOn k i (s.bOn k i)).ersOn i k =
      s.setOff k i 0 := by
  have e : ((((s.setOff k i 0).setOn k i 0).insOn i k).setOn k i (s.bOn k i)).ersOn i k =
      ((((s.setOff k i 0).setOn k i 0).setOn k i (s.bOn k i)).insOn i k).ersOn i k := rfl
  rw [e, Schedule.ersOn_insOn _ _ _ (by simpa [Schedule.setOn, Schedule.setOff] using hnot)]
  by_cases hk : k ∈ s.keys
  · obtain ⟨w, hw⟩ := findWorker_of_mem s.workers k hk
    have hb : s.bOn k i = w.domain.on_.getD i 0 := by
      simp [Schedule.bOn, Schedule.worker, hw]
    obtain ⟨off, ons, ws, cf, a, b, c, d⟩ := s
    simp only [Schedule.setOn, Schedule.setOff, Schedule.mk.injEq, true_and, and_true]
    rw [modWorker_modWorker, modWorker_modWorker]
    apply modWorker_congr
    intro w' hw'
    simp only at hw
    rw [hw] at hw'
    cases hw'
    simp only [hb, List.set_set, set_getD_self]
  · have hnone : findWorker s.workers k = none := by
      cases h : findWorker s.workers k with
      | none => rfl
      | some w => exact absurd ((findWorker_isSome _ _).1 (by simp [h])) hk
    obtain ⟨off, ons, ws, cf, a, b, c, d⟩ := s
    simp only [Schedule.setOn, Schedule.setOff, Schedule.mk.injEq, true_and, and_true]
    rw [modWorker_modWorker, modWorker_modWorker]
    apply modWorker_congr
    intro w' hw'
    simp only at hnone
    rw [hnone] at hw'
    cases hw'

theorem forceOn_spec (k : String) (i : Nat) (s s' : Schedule) (hk : k ∈ s.keys)
    (hid : (s.worker k).id = k) (hfree : s.bOff k i = 1 → k ∉ s.on_.getD i [])
    (h : Constraint.forceOn k i s = (true, s')) :
    s' = s ∨ (s.bOff k i = 1 ∧ s' = s.setOff k i 0 ∧
      (Constraint.check (((s.setOff k i 0).setOn k i 0).insOn i k) k i).1 = true) := by
  unfold Constraint.forceOn at h
  simp only [hid] at h
  by_cases hb : (s.worker k).domain.off.getD i 0 = 1
  · rw [if_pos hb] at h
    have hk1 : k ∈ (((s.setOff k i 0).setOn k i 0).insOn i k).keys := by
      show k ∈ ((s.setOff k i 0).setOn k i 0).keys
      rw [Schedule.keys_setOn, Schedule.keys_setOff]; exact hk
    rw [check_snd _ _ _ hk1] at h
    by_cases hc : (Constraint.check (((s.setOff k i 0).setOn k i 0).insOn i k) k i).1 = false
    · rw [if_pos hc] at h
      simp at h
    · rw [if_neg hc] at h
      have := onProbe_rollback s k i (hfree hb)
      unfold Schedule.bOn at this
      rw [this] at h
      simp only [Prod.mk.injEq, true_and] at h
      right
      exact ⟨hb, h.symm, by simpa using hc⟩
  · rw [if_neg hb] at h
    simp only [Prod.mk.injEq, true_and] at h
    left; exact h.symm

theorem forceOn_narrowed (k : String) (i : Nat) (s s' : Schedule) (hk : k ∈ s.keys)
    (hid : (s.worker k).id = k) (hfree : s.bOff k i = 1 → k ∉ s.on_.getD i [])
    (h : Constraint.forceOn k i s = (true, s')) : Narrowed k s s' := by
  rcases forceOn_spec k i s s' hk hid hfree h with e | ⟨_, e, _⟩
  · rw [e]; exact narrowed_refl k s
  · rw [e]; exact narrowed_setOff s k i hk

theorem narrowed_keeps {k : String} {s s' : Schedule} (h : Narrowed k s s') (hk : k ∈ s.keys)
    (hid : (s.worker k).id = k) (hfree : ∀ i, s.bOff k i = 1 → k ∉ s.on_.getD i []) :
    k ∈ s'.keys ∧ (s'.worker k).id = k ∧ ∀ i, s'.bOff k i = 1 → k ∉ s'.on_.getD i [] := by
  refine ⟨by rw [h.keys_eq]; exact hk, by rw [h.id_eq]; exact hid, ?_⟩
  intro i hb
  rw [h.on_eq]
  apply hfree
  rcases h.offs_le i with e | e
  · rw [← e]; exact hb
  · rw [e] at hb; exact absurd hb (by decide)

theorem max_consec_loop_narrowed (k : String) (arr : List Int) (rest : List Nat) :
    ∀ (s s' : Schedule), k ∈ s.keys → (s.worker k).id = k →
      (∀ i, s.bOff k i = 1 → k ∉ s.on_.getD i []) →
      Constraint.propagate_max_consec_loop k arr rest s = (true, s') → Narrowed k s s' := by
  induction rest with
  | nil =>
    intro s s' _ _ _ h
    simp only [Constraint.propagate_max_consec_loop, Prod.mk.injEq, true_and] at h
    subst h
    exact narrowed_refl k s
  | cons d tl ih =>
    intro s s' hk hid hfree h
    unfold Constraint.propagate_max_consec_loop at h
    by_cases h2 : arr.getD d 0 = 2
    · rw [if_pos h2] at h
      simp only at h
      by_cases hlim : ((Constraint.scanRight arr 7 (d + 1) : Int) - Constraint.scanLeft arr d
          - 1 + 1 ≥ s.max_consec_days_off)
      · rw [if_pos hlim] at h
        -- the first forced day
        obtain ⟨t1, ht1, hn1⟩ : ∃ t1, (if Constraint.scanLeft arr d ≥ 0 then
            Constraint.forceOn k (Constraint.scanLeft arr d).toNat s else (true, s)) =
              (true, t1) ∧ Narrowed k s t1 := by
          by_cases hi : Constraint.scanLeft arr d ≥ 0
          · rw [if_pos hi] at h ⊢
            cases hr : Constraint.forceOn k (Constraint.scanLeft arr d).toNat s with
            | mk b t =>
              rw [hr] at h
              cases b with
              | false => simp at h
              | true =>
                exact ⟨t, rfl, forceOn_narrowed k _ s t hk hid (hfree _) hr⟩
          · rw [if_neg hi]
            exact ⟨s, rfl, narrowed_refl k s⟩
        rw [ht1] at h
        simp only [Bool.true_eq_false, ↓reduceIte] at h
        obtain ⟨hk1, hid1, hfree1⟩ := narrowed_keeps hn1 hk hid hfree
        obtain ⟨t2, ht2, hn2⟩ : ∃ t2, (if Constraint.scanRight arr 7 (d + 1) < 7 then
            Constraint.forceOn k (Constraint.scanRight arr 7 (d + 1)) t1 else (true, t1)) =
              (true, t2) ∧ Narrowed k t1 t2 := by
          by_cases hj : Constraint.scanRight arr 7 (d + 1) < 7
          · rw [if_pos hj] at h ⊢
            cases hr : Constraint.forceOn k (Constraint.scanRight arr 7 (d + 1)) t1 with
            | mk b t =>
              rw [hr] at h
              cases b with
              | false => simp at h
              | true =>
                exact ⟨t, rfl, forceOn_narrowed k _ t1 t hk1 hid1 (hfree1 _) hr⟩
          · rw [if_neg hj]
            exact ⟨t1, rfl, narrowed_refl k t1⟩
        rw [ht2] at h
        simp only [Bool.true_eq_false, ↓reduceIte] at h
        obtain ⟨hk2, hid2, hfree2⟩ := narrowed_keeps hn2 hk1 hid1 hfree1
        exact narrowed_trans (narrowed_trans hn1 hn2) (ih t2 s' hk2 hid2 hfree2 h)
      · rw [if_neg hlim] at h
        exact ih s s' hk hid hfree h
    · rw [if_neg h2] at h
      exact ih s s' hk hid hfree h

theorem propagate_max_consec_narrowed (s s' : Schedule) (k : String) (hk : k ∈ s.keys)
    (hid : (s.worker k).id = k) (hfree : ∀ i, s.bOff k i = 1 → k ∉ s.on_.getD i [])
    (h : Constraint.propagate_max_consec_days_off s k = (true, s')) : Narrowed k s s' := by
  unfold Constraint.propagate_max_consec_days_off at h
  simp only [Schedule.touch_of_mem s k hk] at h
  exact max_consec_loop_narrowed k _ days s s' hk hid hfree h

theorem propagate_min_days_off_narrowed (s s' : Schedule) (k : String) (hk : k ∈ s.keys)
    (hid : (s.worker k).id = k) (hfree : ∀ i ∈ days, s.bOff k i = 1 → k ∉ s.off.getD i [])
    (h : Constraint.propagate_min_days_off s k = (true, s')) : Narrowed k s s' := by
  unfold Constraint.propagate_min_days_off at h
  simp only [Schedule.touch_of_mem s k hk] at h
  split at h
  · exact narrowed_of_onlyOnRemoved (min_days_off_loop_spec k days s s' hk hid hfree h).1
  · simp only [Prod.mk.injEq, true_and] at h
    subst h
    exact narrowed_refl k s

/-! ## Two workers who conflict, both required every day -/

theorem workers_of_keys_pair (t : Schedule) (a b : String) (hab : a ≠ b)
    (h : t.keys = [a, b]) : t.workers = [(a, t.worker a), (b, t.worker b)] := by
  unfold Schedule.keys at h
  match hw : t.workers, h with
  | [p, q], h =>
    simp only [List.map_cons, List.map_nil, List.cons.injEq, and_true] at h
    obtain ⟨hp, hq⟩ := h
    obtain ⟨p1, p2⟩ := p
    obtain ⟨q1, q2⟩ := q
    simp only at hp hq
    subst hp hq
    simp [Schedule.worker, hw, findWorker, hab]

theorem workers_count_pair (t : Schedule) (a b : String) (hab : a ≠ b)
    (h : t.keys = [a, b]) (d : Nat) :
    Constraint.workers_count t d =
      (if Constraint.reachable t d (t.worker a) = true then 1 else 0) +
      (if Constraint.reachable t d (t.worker b) = true then 1 else 0) := by
  unfold Constraint.workers_count
  rw [workers_of_keys_pair t a b hab h]
  simp only [List.countP_cons, List.countP_nil, zero_add]
  split_ifs <;> simp

theorem check_false_of_conflicts (s : Schedule) (k : String) (d : Nat)
    (h : Constraint.check_conflicts (s.touch k) k d = false) :
    (Constraint.check s k d).1 = false := by
  cases hc : (Constraint.check s k d).1 with
  | false => rfl
  | true =>
    have := (run_check_true s k d hc).2.2.2
    rw [h] at this
    exact absurd this (by simp)

theorem mem_getD_set_insert (l : List (List String)) (i : Nat) (x y : String)
    (h : y ∈ l.getD i []) : y ∈ (l.set i (setInsert (l.getD i []) x)).getD i [] := by
  induction l generalizing i with
  | nil => simp at h
  | cons a t ih =>
    cases i with
    | zero =>
      simp only [List.getD_cons_zero, List.set_cons_zero] at h ⊢
      exact (mem_setInsert _ _ _).2 (Or.inr h)
    | succ i =>
      simp only [List.getD_cons_succ, List.set_cons_succ] at h ⊢
      exact ih i h

theorem mem_getD_set_insert_self (l : List (List String)) (i : Nat) (x : String)
    (h : i < l.length) : x ∈ (l.set i (setInsert (l.getD i []) x)).getD i [] := by
  induction l generalizing i with
  | nil => simp at h
  | cons a t ih =>
    cases i with
    | zero =>
      simp only [List.getD_cons_zero, List.set_cons_zero]
      exact (mem_setInsert _ _ _).2 (Or.inl rfl)
    | succ i =>
      simp only [List.getD_cons_succ, List.set_cons_succ]
      exact ih i (by simpa using h)

theorem lt_length_of_mem_getD (l : List (List String)) (i : Nat) (x : String)
    (h : x ∈ l.getD i []) : i < l.length := by
  by_contra hcon
  rw [List.getD_eq_default _ _ (not_lt.mp hcon)] at h
  simp at h

/-- The probe that forces a worker on duty fails when a conflict partner is committed on
duty that day. -/
theorem force_staff_probe_fails (t : Schedule) (k o : String) (i : Nat) (ho : o ∈ t.keys)
    (hc : k ∈ t.conflictsOf o) (hk : k ∈ t.on_.getD i []) :
    (Constraint.check (((t.setOff o i 0).setOn o i 0).insOn i o) o i).1 = false := by
  apply check_false_of_conflicts
  have ho' : o ∈ (((t.setOff o i 0).setOn o i 0).insOn i o).keys := by
    show o ∈ ((t.setOff o i 0).setOn o i 0).keys
    rw [Schedule.keys_setOn, Schedule.keys_setOff]; exact ho
  rw [Schedule.touch_of_mem _ _ ho']
  have hlen := lt_length_of_mem_getD _ _ _ hk
  have h1 : (((t.setOff o i 0).setOn o i 0).insOn i o).isOn i o = true := by
    simp only [Schedule.isOn, Schedule.insOn, Schedule.setOn, Schedule.setOff,
      decide_eq_true_eq]
    exact mem_getD_set_insert_self _ _ _ hlen
  have h2 : (((t.setOff o i 0).setOn o i 0).insOn i o).isOn i k = true := by
    simp only [Schedule.isOn, Schedule.insOn, Schedule.setOn, Schedule.setOff,
      decide_eq_true_eq]
    exact mem_getD_set_insert _ _ _ _ hk
  have h3 : (((t.setOff o i 0).setOn o i 0).insOn i o).conflictsOf o = t.conflictsOf o := rfl
  unfold Constraint.check_conflicts
  rw [if_pos h1, h3]
  simp only [List.all_eq_false, Bool.not_eq_true', Bool.not_eq_false]
  exact ⟨k, hc, h2⟩

theorem force_staff_loop_fails (t : Schedule) (k o : String) (i : Nat) (a b : String)
    (hko : (k = a ∧ o = b) ∨ (k = b ∧ o = a))
    (ho : o ∈ t.keys) (hc : k ∈ t.conflictsOf o) (hk : k ∈ t.on_.getD i [])
    (hkb : t.bOn k i ≠ 1) (hob : t.bOn o i = 1 ∧ t.bOff o i = 1) :
    (Constraint.force_staff_loop false i [a, b] t).1 = false := by
  have hprobe := force_staff_probe_fails t k o i ho hc hk
  have hkb' : ¬ (t.worker k).domain.on_.getD i 0 = 1 := hkb
  have hob1 : (t.worker o).domain.on_.getD i 0 = 1 := hob.1
  have hob2 : (t.worker o).domain.off.getD i 0 = 1 := hob.2
  have hk2 : ¬ ((True ∨ (t.worker k).level = "senior") ∧
      (t.worker k).domain.on_.getD i 0 = 1 ∧ (t.worker k).domain.off.getD i 0 = 1) :=
    fun h => hkb' h.2.1
  have ho2 : (True ∨ (t.worker o).level = "senior") ∧
      (t.worker o).domain.on_.getD i 0 = 1 ∧ (t.worker o).domain.off.getD i 0 = 1 :=
    ⟨Or.inl trivial, hob1, hob2⟩
  rcases hko with ⟨rfl, rfl⟩ | ⟨rfl, rfl⟩
  · unfold Constraint.force_staff_loop
    simp only
    rw [if_neg hk2]
    unfold Constraint.force_staff_loop
    simp only
    rw [if_pos ho2, if_pos hprobe]
  · unfold Constraint.force_staff_loop
    simp only
    rw [if_pos ho2, if_pos hprobe]

theorem worker_commitOn (s : Schedule) (k k' : String) (i : Nat) (hk : k ∈ s.keys) :
    (commitOn s k i).worker k' =
      if k' = k then
        { s.worker k with domain :=
            { off := (s.worker k).domain.off.set i 0, on_ := (s.worker k).domain.on_.set i 0 } }
      else s.worker k' := by
  unfold commitOn
  have h1 : k ∈ (s.insOn i k).keys := hk
  have h2 : k ∈ ((s.insOn i k).setOn k i 0).keys := by rw [Schedule.keys_setOn]; exact h1
  rw [Schedule.worker_setOff _ _ _ _ _ h2]
  by_cases h : k' = k
  · rw [if_pos h, if_pos h, Schedule.worker_setOn _ _ _ _ _ h1, if_pos rfl]
    rfl
  · rw [if_neg h, if_neg h, Schedule.worker_setOn _ _ _ _ _ h1, if_neg h]
    rfl

theorem worker_commitOff (s : Schedule) (k k' : String) (i : Nat) (hk : k ∈ s.keys) :
    (commitOff s k i).worker k' =
      if k' = k then
        { s.worker k with domain :=
            { off := (s.worker k).domain.off.set i 0, on_ := (s.worker k).domain.on_.set i 0 } }
      else s.worker k' := by
  unfold commitOff
  have h1 : k ∈ (s.insOff i k).keys := hk
  have h2 : k ∈ ((s.insOff i k).setOn k i 0).keys := by rw [Schedule.keys_setOn]; exact h1
  rw [Schedule.worker_setOff _ _ _ _ _ h2]
  by_cases h : k' = k
  · rw [if_pos h, if_pos h, Schedule.worker_setOn _ _ _ _ _ h1, if_pos rfl]
    rfl
  · rw [if_neg h, if_neg h, Schedule.worker_setOn _ _ _ _ _ h1, if_neg h]
    rfl

theorem fresh_getD_on (i : Nat) (h : i < 7) : Domain.fresh.on_.getD i 0 = 1 := by
  interval_cases i <;> rfl

theorem fresh_getD_off (i : Nat) (h : i < 7) : Domain.fresh.off.getD i 0 = 1 := by
  interval_cases i <;> rfl

theorem getD_empty7_set_ne (i j : Nat) (v : List String) (h : j ≠ i) :
    (([[], [], [], [], [], [], []] : List (List String)).set i v).getD j [] = [] := by
  rw [getD_set_ne _ _ _ _ _ h]
  exact brd_getD_empty7 j

/-- The setting of C10 seen from the worker `k` chosen by `mrv` and the other worker `o`. -/
theorem rivals_trials_fail (s : Schedule) (a b la lb : String) (hab : a ≠ b)
    (hws : s.workers = [(a, ⟨a, la, Domain.fresh⟩), (b, ⟨b, lb, Domain.fresh⟩)])
    (hon : s.on_ = [[], [], [], [], [], [], []]) (hoff : s.off = [[], [], [], [], [], [], []])
    (hca : b ∈ s.conflictsOf a) (hcb : a ∈ s.conflictsOf b) (hms : s.min_daily_staff = 2)
    (k o : String) (hko : (k = a ∧ o = b) ∨ (k = b ∧ o = a)) (i : Nat) :
    ((Constraint.check (commitOn s k i) k i).1 = false ∨
      (Constraint.propagate (Constraint.check (commitOn s k i) k i).2 k i).1 = false) ∧
    (Constraint.check (commitOff s k i) k i).1 = false := by
  have hkeys : s.keys = [a, b] := by simp [Schedule.keys, hws]
  have hwa : s.worker a = ⟨a, la, Domain.fresh⟩ := by simp [Schedule.worker, hws, findWorker]
  have hwb : s.worker b = ⟨b, lb, Domain.fresh⟩ := by
    simp [Schedule.worker, hws, findWorker, hab]
  have hne : k ≠ o := by
    rcases hko with ⟨rfl, rfl⟩ | ⟨rfl, rfl⟩
    · exact hab
    · exact fun h => hab h.symm
  have hk : k ∈ s.keys := by
    rw [hkeys]; rcases hko with ⟨rfl, _⟩ | ⟨rfl, _⟩ <;> simp
  have ho : o ∈ s.keys := by
    rw [hkeys]; rcases hko with ⟨_, rfl⟩ | ⟨_, rfl⟩ <;> simp
  have hwk : (s.worker k).id = k ∧ (s.worker k).domain = Domain.fresh := by
    rcases hko with ⟨rfl, _⟩ | ⟨rfl, _⟩
    · rw [hwa]; exact ⟨rfl, rfl⟩
    · rw [hwb]; exact ⟨rfl, rfl⟩
  have hwo : (s.worker o).id = o ∧ (s.worker o).domain = Domain.fresh := by
    rcases hko with ⟨_, rfl⟩ | ⟨_, rfl⟩
    · rw [hwb]; exact ⟨rfl, rfl⟩
    · rw [hwa]; exact ⟨rfl, rfl⟩
  have hcok : k ∈ s.conflictsOf o := by
    rcases hko with ⟨rfl, rfl⟩ | ⟨rfl, rfl⟩
    · exact hcb
    · exact hca
  constructor
  · -- the on-duty trial
    by_cases hc : (Constraint.check (commitOn s k i) k i).1 = false
    · exact Or.inl hc
    right
    have hc' : (Constraint.check (commitOn s k i) k i).1 = true := by simpa using hc
    have hk1 : k ∈ (commitOn s k i).keys := by rw [(run_commit_keys s k i).1]; exact hk
    have hkeys1 : (commitOn s k i).keys = [a, b] := by rw [(run_commit_keys s k i).1]; exact hkeys
    rw [check_snd _ _ _ hk1]
    have hstaff := (run_check_true _ _ _ hc').2.2.1
    rw [Schedule.touch_of_mem _ _ hk1] at hstaff
    -- the worker entries after the commit
    have hw1k : (commitOn s k i).worker k =
        { s.worker k with domain :=
            { off := (s.worker k).domain.off.set i 0,
              on_ := (s.worker k).domain.on_.set i 0 } } := by
      rw [worker_commitOn s k k i hk]; simp
    have hw1o : (commitOn s k i).worker o = s.worker o := by
      rw [worker_commitOn s k o i hk, if_neg (fun h : o = k => hne h.symm)]
    have hon1 : (commitOn s k i).on_ = s.on_.set i (setInsert (s.on_.getD i []) k) := rfl
    have hoff1 : (commitOn s k i).off = s.off := rfl
    have hbk1 : (commitOn s k i).bOn k i = 0 ∧ (commitOn s k i).bOff k i = 0 := by
      unfold Schedule.bOn Schedule.bOff
      rw [hw1k]
      simp only [getD_set_zero, ↓reduceIte, and_self]
    have hid1 : ((commitOn s k i).worker k).id = k := by rw [hw1k]; exact hwk.1
    -- both workers are counted by the staffing check
    have hcount : Constraint.workers_count (commitOn s k i) i ≥ 2 := by
      have := hstaff
      simp only [Constraint.check_min_daily_staff, Bool.and_eq_true, decide_eq_true_eq] at this
      have e : (commitOn s k i).min_daily_staff = 2 := hms
      rw [e] at this
      exact this.1
    rw [workers_count_pair _ a b hab hkeys1] at hcount
    have hreach : Constraint.reachable (commitOn s k i) i ((commitOn s k i).worker k) = true := by
      rcases hko with ⟨rfl, rfl⟩ | ⟨rfl, rfl⟩
      · by_contra hcon
        rw [if_neg hcon] at hcount
        split_ifs at hcount <;> omega
      · by_contra hcon
        rw [if_neg hcon] at hcount
        split_ifs at hcount <;> omega
    have hkon : k ∈ (commitOn s k i).on_.getD i [] := by
      unfold Constraint.reachable at hreach
      have h0 : ((commitOn s k i).worker k).domain.on_.getD i 0 = 0 := hbk1.1
      rw [h0, hid1] at hreach
      simpa [Schedule.isOn] using hreach
    have hi7 : i < 7 := by
      have := lt_length_of_mem_getD _ _ _ hkon
      rw [hon1, hon] at this
      simpa using this
    -- the first two passes only narrow the domain of k
    cases r1 : Constraint.propagate_min_days_off (commitOn s k i) k with
    | mk b1 s2 =>
    cases b1 with
    | false => simp [Constraint.propagate, r1]
    | true =>
    have hn1 : Narrowed k (commitOn s k i) s2 :=
      propagate_min_days_off_narrowed _ _ k hk1 hid1
        (by intro j _ _; rw [hoff1, hoff]; exact brd_not_mem_empty7 j k) r1
    have hfree1 : ∀ j, (commitOn s k i).bOff k j = 1 → k ∉ (commitOn s k i).on_.getD j [] := by
      intro j hj
      have hji : j ≠ i := by
        rintro rfl
        rw [hbk1.2] at hj
        exact absurd hj (by decide)
      rw [hon1, hon, getD_empty7_set_ne i j _ hji]
      simp
    obtain ⟨hk2, hid2, hfree2⟩ := narrowed_keeps hn1 hk1 hid1 hfree1
    cases r2 : Constraint.propagate_max_consec_days_off s2 k with
    | mk b2 s3 =>
    cases b2 with
    | false => simp [Constraint.propagate, r1, r2]
    | true =>
    have hn2 : Narrowed k s2 s3 := propagate_max_consec_narrowed _ _ k hk2 hid2 hfree2 r2
    have hn : Narrowed k (commitOn s k i) s3 := narrowed_trans hn1 hn2
    have hkeys3 : s3.keys = [a, b] := by rw [hn.keys_eq]; exact hkeys1
    have hw3o : s3.worker o = s.worker o := by
      rw [hn.others o (fun h => hne h.symm), hw1o]
    have hkon3 : k ∈ s3.on_.getD i [] := by rw [hn.on_eq]; exact hkon
    have hr3k : Constraint.reachable s3 i (s3.worker k) = true := by
      have hison : s3.isOn i k = true := by
        unfold Schedule.isOn
        exact decide_eq_true hkon3
      unfold Constraint.reachable
      rw [hn.id_eq, hid1, hison, Bool.or_true]
    have hr3o : Constraint.reachable s3 i (s3.worker o) = true := by
      unfold Constraint.reachable
      rw [hw3o, hwo.2, fresh_getD_on i hi7]
      simp
    have hcount3 : Constraint.workers_count s3 i = s3.min_daily_staff := by
      rw [workers_count_pair _ a b hab hkeys3, hn.thresholds_eq.2.2.1]
      have e : (commitOn s k i).min_daily_staff = 2 := hms
      rw [e]
      rcases hko with ⟨rfl, rfl⟩ | ⟨rfl, rfl⟩
      · rw [if_pos hr3k, if_pos hr3o]; rfl
      · rw [if_pos hr3o, if_pos hr3k]; rfl
    have hb3k : s3.bOn k i ≠ 1 := by
      rcases hn.ons_le i with e | e
      · rw [e, hbk1.1]; decide
      · rw [e]; decide
    have hb3o : s3.bOn o i = 1 ∧ s3.bOff o i = 1 := by
      unfold Schedule.bOn Schedule.bOff
      rw [hw3o, hwo.2]
      exact ⟨fresh_getD_on i hi7, fresh_getD_off i hi7⟩
    have hc3 : k ∈ s3.conflictsOf o := by
      have : s3.conflictsOf o = s.conflictsOf o := by
        unfold Schedule.conflictsOf
        rw [hn.conflicts_eq]
        rfl
      rw [this]; exact hcok
    have ho3 : o ∈ s3.keys := by
      rw [hkeys3]; rcases hko with ⟨_, rfl⟩ | ⟨_, rfl⟩ <;> simp
    have hloop := force_staff_loop_fails s3 k o i a b hko ho3 hc3 hkon3 hb3k hb3o
    have hkeys3' : s3.workers.map Prod.fst = [a, b] := hkeys3
    have r3 : (Constraint.propagate_min_daily_staff s3 k i).1 = false := by
      unfold Constraint.propagate_min_daily_staff
      rw [if_pos hcount3, hkeys3']
      exact hloop
    simp [Constraint.propagate, r1, r2, r3]
  · -- the off-duty trial
    apply run_check_false_of_staff
    have hk1 : k ∈ (commitOff s k i).keys := by rw [(run_commit_keys s k i).2]; exact hk
    have hkeys1 : (commitOff s k i).keys = [a, b] := by
      rw [(run_commit_keys s k i).2]; exact hkeys
    rw [Schedule.touch_of_mem _ _ hk1]
    have hw1k : (commitOff s k i).worker k =
        { s.worker k with domain :=
            { off := (s.worker k).domain.off.set i 0,
              on_ := (s.worker k).domain.on_.set i 0 } } := by
      rw [worker_commitOff s k k i hk]; simp
    have hnot : Constraint.reachable (commitOff s k i) i ((commitOff s k i).worker k) = false := by
      unfold Constraint.reachable
      rw [hw1k]
      have e : (commitOff s k i).on_ = s.on_ := rfl
      simp only [getD_set_zero, ↓reduceIte, Schedule.isOn, e, hon, ne_eq, not_true_eq_false,
        decide_False, Bool.false_or, decide_eq_false_iff_not]
      exact brd_not_mem_empty7 i _
    have hcount : Constraint.workers_count (commitOff s k i) i ≤ 1 := by
      rw [workers_count_pair _ a b hab hkeys1]
      rcases hko with ⟨rfl, rfl⟩ | ⟨rfl, rfl⟩
      · rw [hnot, if_neg (by decide : ¬ false = true)]; split_ifs <;> norm_num
      · rw [hnot, if_neg (by decide : ¬ false = true)]; split_ifs <;> norm_num
    have e : (commitOff s k i).min_daily_staff = 2 := hms
    simp only [Constraint.check_min_daily_staff, e, ge_iff_le, Bool.and_eq_false_imp,
      decide_eq_true_eq]
    intro h
    omega

theorem rivals_return_false (s : Schedule) (a b la lb : String) (hab : a ≠ b)
    (hws : s.workers = [(a, ⟨a, la, Domain.fresh⟩), (b, ⟨b, lb, Domain.fresh⟩)])
    (hon : s.on_ = [[], [], [], [], [], [], []]) (hoff : s.off = [[], [], [], [], [], [], []])
    (hca : b ∈ s.conflictsOf a) (hcb : a ∈ s.conflictsOf b) (hms : s.min_daily_staff = 2)
    (n : Nat) : schedulerFuel (n + 1) s = some (false, s) := by
  have hkeys : s.keys = [a, b] := by simp [Schedule.keys, hws]
  have hsplit : ∀ k ∈ s.keys, ∃ o, (k = a ∧ o = b) ∨ (k = b ∧ o = a) := by
    intro k hk
    rw [hkeys] at hk
    simp only [List.mem_cons, List.mem_singleton, List.not_mem_nil, or_false] at hk
    rcases hk with rfl | rfl
    · exact ⟨b, Or.inl ⟨rfl, rfl⟩⟩
    · exact ⟨a, Or.inr ⟨rfl, rfl⟩⟩
  refine run_initial_all_fail s (by rw [hws]; simp) ?_ hon hoff ?_ ?_ n
  · intro p hp
    rw [hws] at hp
    simp only [List.mem_cons, List.mem_singleton, List.not_mem_nil, or_false] at hp
    rcases hp with rfl | rfl <;> rfl
  · intro k hk i
    obtain ⟨o, hko⟩ := hsplit k hk
    exact (rivals_trials_fail s a b la lb hab hws hon hoff hca hcb hms k o hko i).1
  · intro k hk i
    obtain ⟨o, hko⟩ := hsplit k hk
    exact Or.inl (rivals_trials_fail s a b la lb hab hws hon hoff hca hcb hms k o hko i).2

/-- C10: on every initial state whose worker table is exactly `A` and `B` (any levels,
either iteration order), whose conflict relation is the symmetric edge `A`–`B` and whose
`min_daily_staff` is 2, `scheduler` returns false (and leaves the schedule as it was),
for every value of `min_days_off`, `max_consec_days_off` and `min_daily_seniors`. -/
theorem c10_conflicting_pair_returns_false (s : Schedule) (la lb : String)
    (hws : s.workers = [("A", ⟨"A", la, Domain.fresh⟩), ("B", ⟨"B", lb, Domain.fresh⟩)] ∨
      s.workers = [("B", ⟨"B", lb, Domain.fresh⟩), ("A", ⟨"A", la, Domain.fresh⟩)])
    (hon : s.on_ = [[], [], [], [], [], [], []]) (hoff : s.off = [[], [], [], [], [], [], []])
    (hcA : s.conflictsOf "A" = ["B"]) (hcB : s.conflictsOf "B" = ["A"])
    (hms : s.min_daily_staff = 2) : scheduler s = some (false, s) := by
  have hA : "B" ∈ s.conflictsOf "A" := by rw [hcA]; simp
  have hB : "A" ∈ s.conflictsOf "B" := by rw [hcB]; simp
  rcases hws with h | h
  · exact rivals_return_false s "A" "B" la lb (by decide) h hon hoff hA hB hms _
  · exact rivals_return_false s "B" "A" lb la (by decide) h hon hoff hB hA hms _

theorem c10_conflicting_pair_returns_false_witness :
    scheduler (initial [("B", "senior"), ("A", "regular")] [("A", ["B"]), ("B", ["A"])]
      5 1 2 3) =
    some (false, initial [("B", "senior"), ("A", "regular")] [("A", ["B"]), ("B", ["A"])]
      5 1 2 3) :=
  c10_conflicting_pair_returns_false _ "regular" "senior" (Or.inr rfl) rfl rfl
    (by decide) (by decide) rfl

/-! ## Induction over the eliminations of a propagation pass

Each successful probe of a pass nets out to the removal of one option; a property that
survives every such removal, given that the probe passed `check`, survives the pass. -/

theorem min_days_off_loop_ind (k : String) (Q : Schedule → Prop)
    (hbase : ∀ t, Q t → k ∈ t.keys ∧ (t.worker k).id = k ∧
      ∀ i ∈ days, t.bOff k i = 1 → k ∉ t.off.getD i [])
    (hstep : ∀ t i, Q t → i ∈ days → t.bOff k i = 1 → t.bOn k i = 1 →
      (Constraint.check (probeOffDuty t k i) k i).1 = true → Q (t.setOn k i 0))
    (rest : List Nat) (hrest : ∀ i ∈ rest, i ∈ days) :
    ∀ (s s' : Schedule), Q s →
      Constraint.propagate_min_days_off_loop k rest s = (true, s') → Q s' := by
  induction rest with
  | nil =>
    intro s s' hq h
    simp only [Constraint.propagate_min_days_off_loop, Prod.mk.injEq, true_and] at h
    subst h
    exact hq
  | cons i tl ih =>
    intro s s' hq h
    obtain ⟨hk, hid, hfree⟩ := hbase s hq
    have hi : i ∈ days := hrest i (List.mem_cons_self _ _)
    have hrest' : ∀ j ∈ tl, j ∈ days := fun j hj => hrest j (List.mem_cons_of_mem _ hj)
    unfold Constraint.propagate_min_days_off_loop at h
    simp only [hid] at h
    by_cases hboth : (s.worker k).domain.off.getD i 0 = 1 ∧ (s.worker k).domain.on_.getD i 0 = 1
    · rw [if_pos hboth] at h
      have hk1 : k ∈ (((s.setOn k i 0).setOff k i 0).insOff i k).keys := by
        show k ∈ ((s.setOn k i 0).setOff k i 0).keys
        rw [Schedule.keys_setOff, Schedule.keys_setOn]; exact hk
      rw [check_snd _ _ _ hk1] at h
      by_cases hc : (Constraint.check (((s.setOn k i 0).setOff k i 0).insOff i k) k i).1 = false
      · rw [if_pos hc] at h
        simp at h
      · rw [if_neg hc] at h
        rw [Schedule.offProbe_rollback s k i hboth.1 (hfree i hi hboth.1)] at h
        exact ih hrest' _ _ (hstep s i hq hi hboth.1 hboth.2 (by simpa [probeOffDuty] using hc)) h
    · rw [if_neg hboth] at h
      exact ih hrest' _ _ hq h

theorem min_days_off_ind (k : String) (Q : Schedule → Prop)
    (hbase : ∀ t, Q t → k ∈ t.keys ∧ (t.worker k).id = k ∧
      ∀ i ∈ days, t.bOff k i = 1 → k ∉ t.off.getD i [])
    (hstep : ∀ t i, Q t → i ∈ days → t.bOff k i = 1 → t.bOn k i = 1 →
      (Constraint.check (probeOffDuty t k i) k i).1 = true → Q (t.setOn k i 0))
    (s s' : Schedule) (hq : Q s) (h : Constraint.propagate_min_days_off s k = (true, s')) :
    Q s' := by
  unfold Constraint.propagate_min_days_off at h
  simp only [Schedule.touch_of_mem s k (hbase s hq).1] at h
  split at h
  · exact min_days_off_loop_ind k Q hbase hstep days (fun _ h => h) s s' hq h
  · simp only [Prod.mk.injEq, true_and] at h
    subst h
    exact hq

theorem forceOn_ind (k : String) (Q : Schedule → Prop)
    (hbase : ∀ t, Q t → k ∈ t.keys ∧ (t.worker k).id = k ∧
      ∀ i, t.bOff k i = 1 → k ∉ t.on_.getD i [])
    (hstep : ∀ t i, Q t → t.bOff k i = 1 →
      (Constraint.check (probeOnDuty t k i) k i).1 = true → Q (t.setOff k i 0))
    (i : Nat) (s s' : Schedule) (hq : Q s) (h : Constraint.forceOn k i s = (true, s')) :
    Q s' := by
  obtain ⟨hk, hid, hfree⟩ := hbase s hq
  rcases forceOn_spec k i s s' hk hid (hfree i) h with e | ⟨hb, e, hc⟩
  · rw [e]; exact hq
  · rw [e]; exact hstep s i hq hb hc

theorem max_consec_loop_ind (k : String) (Q : Schedule → Prop)
    (hbase : ∀ t, Q t → k ∈ t.keys ∧ (t.worker k).id = k ∧
      ∀ i, t.bOff k i = 1 → k ∉ t.on_.getD i [])
    (hstep : ∀ t i, Q t → t.bOff k i = 1 →
      (Constraint.check (probeOnDuty t k i) k i).1 = true → Q (t.setOff k i 0))
    (arr : List Int) (rest : List Nat) :
    ∀ (s s' : Schedule), Q s →
      Constraint.propagate_max_consec_loop k arr rest s = (true, s') → Q s' := by
  induction rest with
  | nil =>
    intro s s' hq h
    simp only [Constraint.propagate_max_consec_loop, Prod.mk.injEq, true_and] at h
    subst h
    exact hq
  | cons d tl ih =>
    intro s s' hq h
    unfold Constraint.propagate_max_consec_loop at h
    by_cases h2 : arr.getD d 0 = 2
    · rw [if_pos h2] at h
      simp only at h
      by_cases hlim : ((Constraint.scanRight arr 7 (d + 1) : Int) - Constraint.scanLeft arr d
          - 1 + 1 ≥ s.max_consec_days_off)
      · rw [if_pos hlim] at h
        obtain ⟨t1, ht1, hq1⟩ : ∃ t1, (if Constraint.scanLeft arr d ≥ 0 then
            Constraint.forceOn k (Constraint.scanLeft arr d).toNat s else (true, s)) =
              (true, t1) ∧ Q t1 := by
          by_cases hi : Constraint.scanLeft arr d ≥ 0
          · rw [if_pos hi] at h ⊢
            cases hr : Constraint.forceOn k (Constraint.scanLeft arr d).toNat s with
            | mk b t =>
              rw [hr] at h
              cases b with
              | false => simp at h
              | true => exact ⟨t, rfl, forceOn_ind k Q hbase hstep _ s t hq hr⟩
          · rw [if_neg hi]
            exact ⟨s, rfl, hq⟩
        rw [ht1] at h
        simp only [Bool.true_eq_false, ↓reduceIte] at h
        obtain ⟨t2, ht2, hq2⟩ : ∃ t2, (if Constraint.scanRight arr 7 (d + 1) < 7 then
            Constraint.forceOn k (Constraint.scanRight arr 7 (d + 1)) t1 else (true, t1)) =
              (true, t2) ∧ Q t2 := by
          by_cases hj : Constraint.scanRight arr 7 (d + 1) < 7
          · rw [if_pos hj] at h ⊢
            cases hr : Constraint.forceOn k (Constraint.scanRight arr 7 (d + 1)) t1 with
            | mk b t =>
              rw [hr] at h
              cases b with
              | false => simp at h
              | true => exact ⟨t, rfl, forceOn_ind k Q hbase hstep _ t1 t hq1 hr⟩
          · rw [if_neg hj]
            exact ⟨t1, rfl, hq1⟩
        rw [ht2] at h
        simp only [Bool.true_eq_false, ↓reduceIte] at h
        exact ih t2 s' hq2 h
      · rw [if_neg hlim] at h
        exact ih s s' hq h
    · rw [if_neg h2] at h
      exact ih s s' hq h

theorem max_consec_ind (k : String) (Q : Schedule → Prop)
    (hbase : ∀ t, Q t → k ∈ t.keys ∧ (t.worker k).id = k ∧
      ∀ i, t.bOff k i = 1 → k ∉ t.on_.getD i [])
    (hstep : ∀ t i, Q t → t.bOff k i = 1 →
      (Constraint.check (probeOnDuty t k i) k i).1 = true → Q (t.setOff k i 0))
    (s s' : Schedule) (hq : Q s)
    (h : Constraint.propagate_max_consec_days_off s k = (true, s')) : Q s' := by
  unfold Constraint.propagate_max_consec_days_off at h
  simp only [Schedule.touch_of_mem s k (hbase s hq).1] at h
  exact max_consec_loop_ind k Q hbase hstep _ days s s' hq h

/-- The probe of `propagate_min_daily_staff` rolled back: what remains is the removal of
the off-duty option. -/
theorem staffProbe_rollback (s : Schedule) (k : String) (i : Nat) (hon : s.bOn k i = 1)
    (hnot : k ∉ s.on_.getD i []) :
    ((((s.setOff k i 0).setOn k i 0).insOn i k).setOn k i 1).ersOn i k = s.setOff k i 0 := by
  have := onProbe_rollback s k i hnot
  rw [hon] at this
  exact this

theorem force_staff_loop_ind (b : Bool) (d : Nat) (Q : Schedule → Prop)
    (hbase : ∀ t, Q t → ∀ x ∈ t.keys, t.bOn x d = 1 → x ∉ t.on_.getD d [])
    (hstep : ∀ t x, Q t → x ∈ t.keys → (b = false ∨ (t.worker x).level = "senior") →
      t.bOn x d = 1 → t.bOff x d = 1 →
      (Constraint.check (probeOnDuty t x d) x d).1 = true → Q (t.setOff x d 0))
    (keys : List String) :
    ∀ (s s' : Schedule), Q s → (∀ x ∈ keys, x ∈ s.keys) →
      Constraint.force_staff_loop b d keys s = (true, s') → Q s' := by
  induction keys with
  | nil =>
    intro s s' hq _ h
    simp only [Constraint.force_staff_loop, Prod.mk.injEq, true_and] at h
    subst h
    exact hq
  | cons x tl ih =>
    intro s s' hq hsub h
    have hx : x ∈ s.keys := hsub x (List.mem_cons_self _ _)
    have hsub' : ∀ y ∈ tl, y ∈ s.keys := fun y hy => hsub y (List.mem_cons_of_mem _ hy)
    unfold Constraint.force_staff_loop at h
    simp only at h
    by_cases hcond : (b = false ∨ (s.worker x).level = "senior") ∧
        (s.worker x).domain.on_.getD d 0 = 1 ∧ (s.worker x).domain.off.getD d 0 = 1
    · rw [if_pos hcond] at h
      have hk1 : x ∈ (((s.setOff x d 0).setOn x d 0).insOn d x).keys := by
        show x ∈ ((s.setOff x d 0).setOn x d 0).keys
        rw [Schedule.keys_setOn, Schedule.keys_setOff]; exact hx
      rw [check_snd _ _ _ hk1] at h
      by_cases hc : (Constraint.check (((s.setOff x d 0).setOn x d 0).insOn d x) x d).1 = false
      · rw [if_pos hc] at h
        simp at h
      · rw [if_neg hc] at h
        rw [staffProbe_rollback s x d hcond.2.1 (hbase s hq x hx hcond.2.1)] at h
        have hq' := hstep s x hq hx hcond.1 hcond.2.1 hcond.2.2
          (by simpa [probeOnDuty] using hc)
        refine ih _ s' hq' ?_ h
        intro y hy
        rw [Schedule.keys_setOff]
        exact hsub' y hy
    · rw [if_neg hcond] at h
      exact ih s s' hq hsub' h

theorem min_daily_staff_ind (d : Nat) (Q : Schedule → Prop)
    (hbase : ∀ t, Q t → ∀ x ∈ t.keys, t.bOn x d = 1 → x ∉ t.on_.getD d [])
    (hstep : ∀ t x, Q t → x ∈ t.keys → t.bOn x d = 1 → t.bOff x d = 1 →
      (Constraint.check (probeOnDuty t x d) x d).1 = true → Q (t.setOff x d 0))
    (k : String) (s s' : Schedule) (hq : Q s)
    (h : Constraint.propagate_min_daily_staff s k d = (true, s')) : Q s' := by
  unfold Constraint.propagate_min_daily_staff at h
  split at h
  · exact force_staff_loop_ind false d Q hbase
      (fun t x hq hx _ => hstep t x hq hx) _ s s' hq (fun x hx => hx) h
  · split at h
    · exact force_staff_loop_ind true d Q hbase
        (fun t x hq hx _ => hstep t x hq hx) _ s s' hq (fun x hx => hx) h
    · simp only [Prod.mk.injEq, true_and] at h
      subst h
      exact hq

/-! ## A roster whose only senior must work every day and rest as well -/

theorem findWorker_of_mem_nodup (ws : List (String × Worker)) (h : (ws.map Prod.fst).Nodup)
    (p : String × Worker) (hp : p ∈ ws) : findWorker ws p.1 = some p.2 := by
  induction ws with
  | nil => cases hp
  | cons q tl ih =>
    simp only [List.map_cons, List.nodup_cons] at h
    rcases List.mem_cons.1 hp with e | hm
    · subst e; simp [findWorker]
    · have hne : q.1 ≠ p.1 := by
        intro e; apply h.1; rw [e]; exact List.mem_map_of_mem Prod.fst hm
      simp only [findWorker, if_neg hne]
      exact ih h.2 hm

theorem worker_eq_of_mem (s : Schedule) (hn : s.keys.Nodup) (p : String × Worker)
    (hp : p ∈ s.workers) : s.worker p.1 = p.2 := by
  unfold Schedule.worker
  rw [findWorker_of_mem_nodup s.workers hn p hp]
  rfl

theorem check_rest (u : Schedule) (k : String) (i : Nat) (hk : k ∈ u.keys)
    (h : (Constraint.check u k i).1 = true) :
    u.min_days_off ≤ Domain.count (u.worker k).domain.off + Schedule.count u.off k := by
  have := (run_check_true u k i h).1
  unfold Constraint.check_min_days_off at this
  rw [Schedule.touch_of_mem u k hk] at this
  simpa using this

theorem check_staff (u : Schedule) (k : String) (i : Nat) (hk : k ∈ u.keys)
    (h : (Constraint.check u k i).1 = true) :
    u.min_daily_staff ≤ Constraint.workers_count u i ∧
    u.min_daily_seniors ≤ Constraint.seniors_count u i := by
  have := (run_check_true u k i h).2.2.1
  unfold Constraint.check_min_daily_staff at this
  rw [Schedule.touch_of_mem u k hk] at this
  simpa using this

theorem senior_reachable (u : Schedule) (b : String) (d : Nat) (hn : u.keys.Nodup)
    (honly : ∀ k ∈ u.keys, (u.worker k).level = "senior" → k = b)
    (h : 1 ≤ Constraint.seniors_count u d) :
    Constraint.reachable u d (u.worker b) = true := by
  unfold Constraint.seniors_count at h
  have hpos : 0 < u.workers.countP
      (fun p => Constraint.reachable u d p.2 && decide (p.2.level = "senior")) := by
    exact_mod_cast h
  obtain ⟨p, hp, hpp⟩ := List.countP_pos_iff.1 hpos
  have hw : u.worker p.1 = p.2 := worker_eq_of_mem u hn p hp
  simp only [Bool.and_eq_true, decide_eq_true_eq] at hpp
  have hk : p.1 ∈ u.keys := List.mem_map_of_mem Prod.fst hp
  have hb : p.1 = b := honly p.1 hk (by rw [hw]; exact hpp.2)
  rw [← hb, hw]
  exact hpp.1

theorem probeOnDuty_eq (s : Schedule) (k : String) (i : Nat) :
    probeOnDuty s k i = commitOn s k i := by
  unfold probeOnDuty commitOn Schedule.insOn Schedule.setOn Schedule.setOff
  simp only [modWorker_modWorker]

theorem probeOffDuty_eq (s : Schedule) (k : String) (i : Nat) :
    probeOffDuty s k i = commitOff s k i := by
  unfold probeOffDuty commitOff Schedule.insOff Schedule.setOn Schedule.setOff
  simp only [modWorker_modWorker]


theorem bits_commitOn (s : Schedule) (k k' : String) (i j : Nat) (hk : k ∈ s.keys) :
    ((commitOn s k i).bOn k' j = if k' = k ∧ j = i then 0 else s.bOn k' j) ∧
    ((commitOn s k i).bOff k' j = if k' = k ∧ j = i then 0 else s.bOff k' j) ∧
    ((commitOn s k i).worker k').id = (s.worker k').id ∧
    ((commitOn s k i).worker k').level = (s.worker k').level := by
  unfold Schedule.bOn Schedule.bOff
  rw [worker_commitOn s k k' i hk]
  by_cases h : k' = k
  · subst h
    rw [if_pos rfl]
    refine ⟨?_, ?_, rfl, rfl⟩
    · show ((s.worker k').domain.on_.set i 0).getD j 0 = _
      rw [getD_set_zero]
      by_cases hj : j = i
      · rw [if_pos hj, if_pos ⟨rfl, hj⟩]
      · rw [if_neg hj, if_neg (fun hh => hj hh.2)]
    · show ((s.worker k').domain.off.set i 0).getD j 0 = _
      rw [getD_set_zero]
      by_cases hj : j = i
      · rw [if_pos hj, if_pos ⟨rfl, hj⟩]
      · rw [if_neg hj, if_neg (fun hh => hj hh.2)]
  · rw [if_neg h, if_neg (fun hh => h hh.1), if_neg (fun hh => h hh.1)]
    exact ⟨rfl, rfl, rfl, rfl⟩

theorem bits_commitOff (s : Schedule) (k k' : String) (i j : Nat) (hk : k ∈ s.keys) :
    ((commitOff s k i).bOn k' j = if k' = k ∧ j = i then 0 else s.bOn k' j) ∧
    ((commitOff s k i).bOff k' j = if k' = k ∧ j = i then 0 else s.bOff k' j) ∧
    ((commitOff s k i).worker k').id = (s.worker k').id ∧
    ((commitOff s k i).worker k').level = (s.worker k').level := by
  unfold Schedule.bOn Schedule.bOff
  rw [worker_commitOff s k k' i hk]
  by_cases h : k' = k
  · subst h
    rw [if_pos rfl]
    refine ⟨?_, ?_, rfl, rfl⟩
    · show ((s.worker k').domain.on_.set i 0).getD j 0 = _
      rw [getD_set_zero]
      by_cases hj : j = i
      · rw [if_pos hj, if_pos ⟨rfl, hj⟩]
      · rw [if_neg hj, if_neg (fun hh => hj hh.2)]
    · show ((s.worker k').domain.off.set i 0).getD j 0 = _
      rw [getD_set_zero]
      by_cases hj : j = i
      · rw [if_pos hj, if_pos ⟨rfl, hj⟩]
      · rw [if_neg hj, if_neg (fun hh => hj hh.2)]
  · rw [if_neg h, if_neg (fun hh => h hh.1), if_neg (fun hh => h hh.1)]
    exact ⟨rfl, rfl, rfl, rfl⟩

theorem mem_on_commitOn (s : Schedule) (k x : String) (i j : Nat) (hi : i < s.on_.length) :
    x ∈ (commitOn s k i).on_.getD j [] ↔
      if j = i then x = k ∨ x ∈ s.on_.getD i [] else x ∈ s.on_.getD j [] := by
  show x ∈ (s.on_.set i (setInsert (s.on_.getD i []) k)).getD j [] ↔ _
  rw [brd_mem_getD_set]
  by_cases hj : j = i
  · rw [if_pos ⟨hj, hi⟩, if_pos hj, mem_setInsert]
  · rw [if_neg (fun hh => hj hh.1), if_neg hj]

theorem mem_off_commitOff (s : Schedule) (k x : String) (i j : Nat) (hx : x ≠ k) :
    x ∈ (commitOff s k i).off.getD j [] ↔ x ∈ s.off.getD j [] := by
  show x ∈ (s.off.set i (setInsert (s.off.getD i []) k)).getD j [] ↔ _
  rw [brd_mem_getD_set]
  by_cases hj : j = i ∧ i < s.off.length
  · rw [if_pos hj, mem_setInsert, hj.1]
    exact ⟨fun h => h.resolve_left hx, Or.inr⟩
  · rw [if_neg hj]

theorem mem_on_commitOn_of_ne (s : Schedule) (k x : String) (i j : Nat) (hx : x ≠ k) :
    x ∈ (commitOn s k i).on_.getD j [] ↔ x ∈ s.on_.getD j [] := by
  show x ∈ (s.on_.set i (setInsert (s.on_.getD i []) k)).getD j [] ↔ _
  rw [brd_mem_getD_set]
  by_cases hj : j = i ∧ i < s.on_.length
  · rw [if_pos hj, mem_setInsert, hj.1]
    exact ⟨fun h => h.resolve_left hx, Or.inr⟩
  · rw [if_neg hj]

theorem lt_seven_of_mem_days (i : Nat) (h : i ∈ days) : i < 7 := by
  simp only [days, List.mem_cons, List.mem_singleton, List.not_mem_nil, or_false] at h
  omega

theorem count_off_commitOff (s : Schedule) (k x : String) (i : Nat) (hx : x ≠ k) :
    Schedule.count (commitOff s k i).off x = Schedule.count s.off x := by
  unfold Schedule.count
  congr 2
  funext j
  exact decide_eq_decide.2 (mem_off_commitOff s k x i j hx)


theorem reachable_worker_iff (u : Schedule) (b : String) (d : Nat) :
    Constraint.reachable u d (u.worker b) = true ↔
      u.bOn b d ≠ 0 ∨ (u.worker b).id ∈ u.on_.getD d [] := by
  unfold Constraint.reachable Schedule.isOn Schedule.bOn
  rw [Bool.or_eq_true, decide_eq_true_eq, decide_eq_true_eq]

/-- The sole senior cannot be given a rest day: the check of the commit fails. -/
theorem soleSenior_no_rest (b : String) (s : Schedule) (i : Nat) (h : SoleSenior b s)
    (hbit : s.bOn b i = 1 ∨ s.bOff b i = 1) :
    (Constraint.check (commitOff s b i) b i).1 = false := by
  cases hc : (Constraint.check (commitOff s b i) b i).1 with
  | false => rfl
  | true =>
    exfalso
    have hkeys : (commitOff s b i).keys = s.keys := (run_commit_keys s b i).2
    have hB := fun k' j => bits_commitOff s b k' i j h.mem
    have hs := (check_staff _ _ _ (by rw [hkeys]; exact h.mem) hc).2
    have h1 : 1 ≤ Constraint.seniors_count (commitOff s b i) i := le_trans h.seniors hs
    have hr := senior_reachable (commitOff s b i) b i (by rw [hkeys]; exact h.nodup)
      (by
        intro k' hk' hl
        rw [(hB k' 0).2.2.2] at hl
        exact h.only k' (hkeys ▸ hk') hl) h1
    rw [reachable_worker_iff, (hB b i).1, if_pos ⟨rfl, rfl⟩, (hB b i).2.2.1, h.ids b h.mem] at hr
    rcases hr with e | e
    · exact e rfl
    · exact (h.live b h.mem i hbit).1 e

theorem soleSenior_commitOn (b : String) (s : Schedule) (k : String) (i : Nat)
    (h : SoleSenior b s) (hk : k ∈ s.keys) (hi : i ∈ days) (hb : s.bOn k i = 1)
    (hc : (Constraint.check (commitOn s k i) k i).1 = true) :
    SoleSenior b (commitOn s k i) := by
  have hkeys : (commitOn s k i).keys = s.keys := (run_commit_keys s k i).1
  have hi7 : i < s.on_.length := by rw [h.lenOn]; exact lt_seven_of_mem_days i hi
  have hB := fun k' j => bits_commitOn s k k' i j hk
  have hlive := h.live k hk i (Or.inl hb)
  refine ⟨by rw [hkeys]; exact h.nodup, by rw [hkeys]; exact h.noEmpty,
    by rw [hkeys]; exact h.mem, ?_, ?_, ?_, h.noconf, ?_, h.seniors, h.restPos, ?_, ?_, ?_, ?_⟩
  · intro k' hk'
    rw [(hB k' 0).2.2.1]
    exact h.ids k' (hkeys ▸ hk')
  · intro k' hk' hl
    rw [(hB k' 0).2.2.2] at hl
    exact h.only k' (hkeys ▸ hk') hl
  · intro k' hk' j hbit
    rw [hkeys] at hk'
    rw [(hB k' j).1, (hB k' j).2.1] at hbit
    by_cases hc' : k' = k ∧ j = i
    · rw [if_pos hc', if_pos hc'] at hbit
      rcases hbit with e | e <;> exact absurd e (by decide)
    · rw [if_neg hc', if_neg hc'] at hbit
      have hl := h.live k' hk' j hbit
      refine ⟨?_, hl.2⟩
      rw [mem_on_commitOn s k k' i j hi7]
      by_cases hj : j = i
      · rw [if_pos hj]
        rintro (e | e)
        · exact hc' ⟨e, hj⟩
        · exact hl.1 (hj ▸ e)
      · rw [if_neg hj]
        exact hl.1
  · show (s.on_.set i _).length = 7
    rw [List.length_set]
    exact h.lenOn
  · intro d
    rw [(hB b d).1]
    by_cases hc' : b = k ∧ d = i
    · rw [if_pos hc']; left; rfl
    · rw [if_neg hc']; exact h.bits d
  · intro d hd
    rw [(hB b d).1, mem_on_commitOn s k b i d hi7]
    by_cases hc' : b = k ∧ d = i
    · right
      rw [if_pos hc'.2]
      left
      exact hc'.1
    · rw [if_neg hc']
      rcases h.reach d hd with e | e
      · left; exact e
      · right
        by_cases hj : d = i
        · rw [if_pos hj]; right; exact hj ▸ e
        · rw [if_neg hj]; exact e
  · by_cases hbk : b = k
    · subst hbk
      exact check_rest _ _ _ (by rw [hkeys]; exact hk) hc
    · have hw : (commitOn s k i).worker b = s.worker b := by
        rw [worker_commitOn s k b i hk, if_neg hbk]
      rw [hw]
      exact h.rest
  · intro d hd
    show b ∉ s.off.getD d []
    rw [mem_on_commitOn s k b i d hi7] at hd
    by_cases hj : d = i
    · rw [if_pos hj] at hd
      rcases hd with e | e
      · rw [hj, e]; exact hlive.2
      · exact h.disj d (hj ▸ e)
    · rw [if_neg hj] at hd
      exact h.disj d hd

theorem soleSenior_commitOff (b : String) (s : Schedule) (k : String) (i : Nat)
    (h : SoleSenior b s) (hk : k ∈ s.keys) (hb : s.bOff k i = 1)
    (hc : (Constraint.check (commitOff s k i) k i).1 = true) :
    SoleSenior b (commitOff s k i) := by
  have hkb : b ≠ k := by
    intro e
    subst e
    rw [soleSenior_no_rest b s i h (Or.inr hb)] at hc
    exact absurd hc (by decide)
  have hkeys : (commitOff s k i).keys = s.keys := (run_commit_keys s k i).2
  have hB := fun k' j => bits_commitOff s k k' i j hk
  have hlive := h.live k hk i (Or.inr hb)
  have hw : (commitOff s k i).worker b = s.worker b := by
    rw [worker_commitOff s k b i hk, if_neg hkb]
  refine ⟨by rw [hkeys]; exact h.nodup, by rw [hkeys]; exact h.noEmpty,
    by rw [hkeys]; exact h.mem, ?_, ?_, ?_, h.noconf, h.lenOn, h.seniors, h.restPos,
    ?_, ?_, ?_, ?_⟩
  · intro k' hk'
    rw [(hB k' 0).2.2.1]
    exact h.ids k' (hkeys ▸ hk')
  · intro k' hk' hl
    rw [(hB k' 0).2.2.2] at hl
    exact h.only k' (hkeys ▸ hk') hl
  · intro k' hk' j hbit
    rw [hkeys] at hk'
    rw [(hB k' j).1, (hB k' j).2.1] at hbit
    by_cases hc' : k' = k ∧ j = i
    · rw [if_pos hc', if_pos hc'] at hbit
      rcases hbit with e | e <;> exact absurd e (by decide)
    · rw [if_neg hc', if_neg hc'] at hbit
      have hl := h.live k' hk' j hbit
      refine ⟨hl.1, ?_⟩
      show k' ∉ (s.off.set i (setInsert (s.off.getD i []) k)).getD j []
      rw [brd_mem_getD_set]
      by_cases hj : j = i ∧ i < s.off.length
      · rw [if_pos hj, mem_setInsert]
        rintro (e | e)
        · exact hc' ⟨e, hj.1⟩
        · exact hl.2 (hj.1 ▸ e)
      · rw [if_neg hj]
        exact hl.2
  · intro d
    unfold Schedule.bOn
    rw [hw]
    exact h.bits d
  · intro d hd
    unfold Schedule.bOn
    rw [hw]
    exact h.reach d hd
  · rw [hw, count_off_commitOff s k b i hkb]
    exact h.rest
  · intro d hd
    rw [mem_off_commitOff s k b i d hkb]
    exact h.disj d hd


theorem bits_setOn (s : Schedule) (k k' : String) (i j : Nat) (hk : k ∈ s.keys) :
    ((s.setOn k i 0).bOn k' j = if k' = k ∧ j = i then 0 else s.bOn k' j) ∧
    ((s.setOn k i 0).worker k').domain.off = (s.worker k').domain.off ∧
    ((s.setOn k i 0).worker k').id = (s.worker k').id ∧
    ((s.setOn k i 0).worker k').level = (s.worker k').level := by
  unfold Schedule.bOn
  rw [Schedule.worker_setOn s k k' i 0 hk]
  by_cases h : k' = k
  · subst h
    rw [if_pos rfl]
    refine ⟨?_, rfl, rfl, rfl⟩
    show ((s.worker k').domain.on_.set i 0).getD j 0 = _
    rw [getD_set_zero]
    by_cases hj : j = i
    · rw [if_pos hj, if_pos ⟨rfl, hj⟩]
    · rw [if_neg hj, if_neg (fun hh => hj hh.2)]
  · rw [if_neg h, if_neg (fun hh => h hh.1)]
    exact ⟨rfl, rfl, rfl, rfl⟩

theorem bits_setOff (s : Schedule) (k k' : String) (i j : Nat) (hk : k ∈ s.keys) :
    ((s.setOff k i 0).bOff k' j = if k' = k ∧ j = i then 0 else s.bOff k' j) ∧
    ((s.setOff k i 0).worker k').domain.on_ = (s.worker k').domain.on_ ∧
    ((s.setOff k i 0).worker k').id = (s.worker k').id ∧
    ((s.setOff k i 0).worker k').level = (s.worker k').level := by
  unfold Schedule.bOff
  rw [Schedule.worker_setOff s k k' i 0 hk]
  by_cases h : k' = k
  · subst h
    rw [if_pos rfl]
    refine ⟨?_, rfl, rfl, rfl⟩
    show ((s.worker k').domain.off.set i 0).getD j 0 = _
    rw [getD_set_zero]
    by_cases hj : j = i
    · rw [if_pos hj, if_pos ⟨rfl, hj⟩]
    · rw [if_neg hj, if_neg (fun hh => hj hh.2)]
  · rw [if_neg h, if_neg (fun hh => h hh.1)]
    exact ⟨rfl, rfl, rfl, rfl⟩

/-- The invariant survives the removal of options, as long as the senior keeps its
on-duty options and room for its rest days. -/
theorem soleSenior_of_narrow (b : String) (s s' : Schedule) (h : SoleSenior b s)
    (hkeys : s'.keys = s.keys) (hon : s'.on_ = s.on_) (hoff : s'.off = s.off)
    (hcf : s'.conflicts = s.conflicts) (hmdo : s'.min_days_off = s.min_days_off)
    (hmsr : s'.min_daily_seniors = s.min_daily_seniors)
    (hid : ∀ k, (s'.worker k).id = (s.worker k).id)
    (hlv : ∀ k, (s'.worker k).level = (s.worker k).level)
    (hbOn : ∀ k j, s'.bOn k j = s.bOn k j ∨ s'.bOn k j = 0)
    (hbOff : ∀ k j, s'.bOff k j = s.bOff k j ∨ s'.bOff k j = 0)
    (hreach : ∀ d, s'.bOn b d = s.bOn b d)
    (hrest : s.min_days_off ≤
      Domain.count (s'.worker b).domain.off + Schedule.count s.off b) :
    SoleSenior b s' := by
  refine ⟨by rw [hkeys]; exact h.nodup, by rw [hkeys]; exact h.noEmpty,
    by rw [hkeys]; exact h.mem, ?_, ?_, ?_, by rw [hcf]; exact h.noconf,
    by rw [hon]; exact h.lenOn, by rw [hmsr]; exact h.seniors, by rw [hmdo]; exact h.restPos,
    ?_, ?_, ?_, ?_⟩
  · intro k hk
    rw [hid]
    exact h.ids k (hkeys ▸ hk)
  · intro k hk hl
    rw [hlv] at hl
    exact h.only k (hkeys ▸ hk) hl
  · intro k hk j hbit
    rw [hon, hoff]
    apply h.live k (hkeys ▸ hk) j
    rcases hbit with e | e
    · left
      rcases hbOn k j with e' | e'
      · rw [← e']; exact e
      · rw [e'] at e; exact absurd e (by decide)
    · right
      rcases hbOff k j with e' | e'
      · rw [← e']; exact e
      · rw [e'] at e; exact absurd e (by decide)
  · intro d
    rw [hreach]
    exact h.bits d
  · intro d hd
    rw [hreach, hon]
    exact h.reach d hd
  · rw [hmdo, hoff]
    exact hrest
  · intro d hd
    rw [hoff]
    rw [hon] at hd
    exact h.disj d hd

theorem soleSenior_setOn (b : String) (s : Schedule) (k : String) (i : Nat)
    (h : SoleSenior b s) (hk : k ∈ s.keys) (hkb : b ≠ k) :
    SoleSenior b (s.setOn k i 0) := by
  have hB := fun k' j => bits_setOn s k k' i j hk
  refine soleSenior_of_narrow b s _ h (Schedule.keys_setOn _ _ _ _) rfl rfl rfl rfl rfl
    (fun k' => (hB k' 0).2.2.1) (fun k' => (hB k' 0).2.2.2) ?_ ?_ ?_ ?_
  · intro k' j
    rw [(hB k' j).1]
    by_cases hc : k' = k ∧ j = i
    · rw [if_pos hc]; right; rfl
    · rw [if_neg hc]; left; rfl
  · intro k' j
    left
    unfold Schedule.bOff
    rw [(hB k' j).2.1]
  · intro d
    rw [(hB b d).1, if_neg (fun hh => hkb hh.1)]
  · rw [(hB b 0).2.1]
    exact h.rest

theorem soleSenior_setOff (b : String) (s : Schedule) (k : String) (i : Nat)
    (h : SoleSenior b s) (hk : k ∈ s.keys)
    (hrest : b = k → s.min_days_off ≤
      Domain.count ((s.setOff k i 0).worker b).domain.off + Schedule.count s.off b) :
    SoleSenior b (s.setOff k i 0) := by
  have hB := fun k' j => bits_setOff s k k' i j hk
  refine soleSenior_of_narrow b s _ h (Schedule.keys_setOff _ _ _ _) rfl rfl rfl rfl rfl
    (fun k' => (hB k' 0).2.2.1) (fun k' => (hB k' 0).2.2.2) ?_ ?_ ?_ ?_
  · intro k' j
    left
    unfold Schedule.bOn
    rw [(hB k' j).2.1]
  · intro k' j
    rw [(hB k' j).1]
    by_cases hc : k' = k ∧ j = i
    · rw [if_pos hc]; right; rfl
    · rw [if_neg hc]; left; rfl
  · intro d
    unfold Schedule.bOn
    rw [(hB b d).2.1]
  · by_cases hbk : b = k
    · exact hrest hbk
    · rw [Schedule.worker_setOff s k b i 0 hk, if_neg hbk]
      exact h.rest

/-- A forced on-duty commit that passes `check` leaves the senior room for its rest
days once the off-duty option is removed. -/
theorem soleSenior_forced (b : String) (s : Schedule) (k : String) (i : Nat)
    (h : SoleSenior b s) (hk : k ∈ s.keys)
    (hc : (Constraint.check (probeOnDuty s k i) k i).1 = true) :
    SoleSenior b (s.setOff k i 0) := by
  apply soleSenior_setOff b s k i h hk
  intro hbk
  subst hbk
  rw [probeOnDuty_eq] at hc
  have := check_rest _ _ _ (by rw [(run_commit_keys s b i).1]; exact hk) hc
  rw [worker_commitOn s b b i hk, if_pos rfl] at this
  rw [Schedule.worker_setOff s b b i 0 hk, if_pos rfl]
  exact this

/-- A probed rest day that passes `check` is not the senior's. -/
theorem soleSenior_probed (b : String) (s : Schedule) (k : String) (i : Nat)
    (h : SoleSenior b s) (hk : k ∈ s.keys) (hb : s.bOff k i = 1)
    (hc : (Constraint.check (probeOffDuty s k i) k i).1 = true) :
    SoleSenior b (s.setOn k i 0) := by
  apply soleSenior_setOn b s k i h hk
  intro e
  subst e
  rw [probeOffDuty_eq, soleSenior_no_rest b s i h (Or.inr hb)] at hc
  exact absurd hc (by decide)


/-! ### The number of available options decreases along the search -/

theorem count_set_zero_le (l : List Int) (i : Nat) : (l.set i 0).count 1 ≤ l.count 1 := by
  induction l generalizing i with
  | nil => simp
  | cons a tl ih =>
    cases i with
    | zero =>
      simp only [List.set_cons_zero, List.count_cons]
      have : ((0 : Int) == 1) = false := by decide
      simp [this]
    | succ n =>
      simp only [List.set_cons_succ, List.count_cons]
      have := ih n
      omega

theorem count_set_zero_lt (l : List Int) (i : Nat) (h : l.getD i 0 = 1) :
    (l.set i 0).count 1 < l.count 1 := by
  induction l generalizing i with
  | nil => simp at h
  | cons a tl ih =>
    cases i with
    | zero =>
      simp only [List.getD_cons_zero] at h
      subst h
      simp [List.count_cons]
    | succ n =>
      simp only [List.getD_cons_succ] at h
      simp only [List.set_cons_succ, List.count_cons]
      have := ih n h
      omega

theorem liveTotal_modWorker_le (ws : List (String × Worker)) (k : String)
    (f : Worker → Worker)
    (hf : ∀ w, (f w).domain.on_.count 1 + (f w).domain.off.count 1 ≤
      w.domain.on_.count 1 + w.domain.off.count 1) :
    liveTotal (modWorker ws k f) ≤ liveTotal ws := by
  induction ws with
  | nil => simp [modWorker]
  | cons p tl ih =>
    unfold modWorker
    by_cases hp : p.1 = k
    · rw [if_pos hp]
      simp only [liveTotal, List.map_cons, List.sum_cons]
      have := hf p.2
      omega
    · rw [if_neg hp]
      simp only [liveTotal, List.map_cons, List.sum_cons] at ih ⊢
      omega

theorem liveTotal_modWorker_lt (ws : List (String × Worker)) (k : String)
    (f : Worker → Worker) (w : Worker) (hw : findWorker ws k = some w)
    (hf : (f w).domain.on_.count 1 + (f w).domain.off.count 1 <
      w.domain.on_.count 1 + w.domain.off.count 1) :
    liveTotal (modWorker ws k f) < liveTotal ws := by
  induction ws with
  | nil => simp [findWorker] at hw
  | cons p tl ih =>
    unfold modWorker
    unfold findWorker at hw
    by_cases hp : p.1 = k
    · rw [if_pos hp] at hw ⊢
      simp only [Option.some.injEq] at hw
      subst hw
      simp only [liveTotal, List.map_cons, List.sum_cons]
      omega
    · rw [if_neg hp] at hw ⊢
      have := ih hw
      simp only [liveTotal, List.map_cons, List.sum_cons] at this ⊢
      omega

theorem liveTotal_setOn_le (s : Schedule) (k : String) (i : Nat) :
    liveTotal (s.setOn k i 0).workers ≤ liveTotal s.workers := by
  apply liveTotal_modWorker_le
  intro w
  have := count_set_zero_le w.domain.on_ i
  show (w.domain.on_.set i 0).count 1 + w.domain.off.count 1 ≤ _
  omega

theorem liveTotal_setOff_le (s : Schedule) (k : String) (i : Nat) :
    liveTotal (s.setOff k i 0).workers ≤ liveTotal s.workers := by
  apply liveTotal_modWorker_le
  intro w
  have := count_set_zero_le w.domain.off i
  show w.domain.on_.count 1 + (w.domain.off.set i 0).count 1 ≤ _
  omega

theorem liveTotal_commitOn_lt (s : Schedule) (k : String) (i : Nat) (hk : k ∈ s.keys)
    (hb : s.bOn k i = 1) : liveTotal (commitOn s k i).workers < liveTotal s.workers := by
  have e : (commitOn s k i).workers = modWorker s.workers k (fun w =>
      { w with domain := { off := w.domain.off.set i 0, on_ := w.domain.on_.set i 0 } }) := by
    unfold commitOn Schedule.insOn Schedule.setOn Schedule.setOff
    simp only [modWorker_modWorker]
  rw [e]
  apply liveTotal_modWorker_lt _ _ _ (s.worker k) (Schedule.worker_of_mem s k hk)
  have h1 := count_set_zero_lt (s.worker k).domain.on_ i hb
  have h2 := count_set_zero_le (s.worker k).domain.off i
  show ((s.worker k).domain.on_.set i 0).count 1 + ((s.worker k).domain.off.set i 0).count 1 < _
  omega

theorem liveTotal_commitOff_lt (s : Schedule) (k : String) (i : Nat) (hk : k ∈ s.keys)
    (hb : s.bOff k i = 1) : liveTotal (commitOff s k i).workers < liveTotal s.workers := by
  have e : (commitOff s k i).workers = modWorker s.workers k (fun w =>
      { w with domain := { off := w.domain.off.set i 0, on_ := w.domain.on_.set i 0 } }) := by
    unfold commitOff Schedule.insOff Schedule.setOn Schedule.setOff
    simp only [modWorker_modWorker]
  rw [e]
  apply liveTotal_modWorker_lt _ _ _ (s.worker k) (Schedule.worker_of_mem s k hk)
  have h1 := count_set_zero_lt (s.worker k).domain.off i hb
  have h2 := count_set_zero_le (s.worker k).domain.on_ i
  show ((s.worker k).domain.on_.set i 0).count 1 + ((s.worker k).domain.off.set i 0).count 1 < _
  omega

theorem propagate_conflicts_of_nil (s : Schedule) (k : String) (d : Nat)
    (h : s.conflicts = []) : Constraint.propagate_conflicts s k d = (true, s) := by
  unfold Constraint.propagate_conflicts
  rw [conflictsOf_nil s h k]
  split
  · rfl
  · rfl

/-- A successful run of `propagate` keeps the invariant and the table keys, and does not
add options. -/
theorem soleSenior_propagate (b : String) (s s' : Schedule) (k : String) (d : Nat)
    (h : SoleSenior b s) (hk : k ∈ s.keys)
    (hp : Constraint.propagate s k d = (true, s')) :
    SoleSenior b s' ∧ s'.keys = s.keys ∧ liveTotal s'.workers ≤ liveTotal s.workers := by
  have hQ : ∀ t, (SoleSenior b t ∧ t.keys = s.keys ∧
      liveTotal t.workers ≤ liveTotal s.workers) → ∀ x ∈ t.keys,
      (t.worker x).id = x ∧ LiveUncommitted t x := fun t ht x hx =>
    ⟨ht.1.ids x hx, ht.1.live x hx⟩
  have stepOn : ∀ t x i, (SoleSenior b t ∧ t.keys = s.keys ∧
      liveTotal t.workers ≤ liveTotal s.workers) → x ∈ t.keys → t.bOff x i = 1 →
      (Constraint.check (probeOffDuty t x i) x i).1 = true →
      (SoleSenior b (t.setOn x i 0) ∧ (t.setOn x i 0).keys = s.keys ∧
        liveTotal (t.setOn x i 0).workers ≤ liveTotal s.workers) := by
    intro t x i ht hx hb hc
    exact ⟨soleSenior_probed b t x i ht.1 hx hb hc,
      (Schedule.keys_setOn _ _ _ _).trans ht.2.1,
      le_trans (liveTotal_setOn_le t x i) ht.2.2⟩
  have stepOff : ∀ t x i, (SoleSenior b t ∧ t.keys = s.keys ∧
      liveTotal t.workers ≤ liveTotal s.workers) → x ∈ t.keys →
      (Constraint.check (probeOnDuty t x i) x i).1 = true →
      (SoleSenior b (t.setOff x i 0) ∧ (t.setOff x i 0).keys = s.keys ∧
        liveTotal (t.setOff x i 0).workers ≤ liveTotal s.workers) := by
    intro t x i ht hx hc
    exact ⟨soleSenior_forced b t x i ht.1 hx hc,
      (Schedule.keys_setOff _ _ _ _).trans ht.2.1,
      le_trans (liveTotal_setOff_le t x i) ht.2.2⟩
  simp only [Constraint.propagate] at hp
  generalize h1 : Constraint.propagate_min_days_off s k = r1 at hp
  obtain ⟨b1, s1⟩ := r1
  cases b1 with
  | false => simp at hp
  | true =>
    simp only [Bool.true_eq_false, ↓reduceIte] at hp
    generalize h2 : Constraint.propagate_max_consec_days_off s1 k = r2 at hp
    obtain ⟨b2, s2⟩ := r2
    cases b2 with
    | false => simp at hp
    | true =>
      simp only [Bool.true_eq_false, ↓reduceIte] at hp
      generalize h3 : Constraint.propagate_min_daily_staff s2 k d = r3 at hp
      obtain ⟨b3, s3⟩ := r3
      cases b3 with
      | false => simp at hp
      | true =>
        simp only [Bool.true_eq_false, ↓reduceIte] at hp
        have q1 := min_days_off_ind k (fun t => SoleSenior b t ∧ t.keys = s.keys ∧
            liveTotal t.workers ≤ liveTotal s.workers)
          (fun t ht => by
            have hx : k ∈ t.keys := by rw [ht.2.1]; exact hk
            exact ⟨hx, (hQ t ht k hx).1, fun i _ hb => ((hQ t ht k hx).2 i (Or.inr hb)).2⟩)
          (fun t i ht _ hb _ hc => stepOn t k i ht (by rw [ht.2.1]; exact hk) hb hc)
          s s1 ⟨h, rfl, le_refl _⟩ h1
        have q2 := max_consec_ind k (fun t => SoleSenior b t ∧ t.keys = s.keys ∧
            liveTotal t.workers ≤ liveTotal s.workers)
          (fun t ht => by
            have hx : k ∈ t.keys := by rw [ht.2.1]; exact hk
            exact ⟨hx, (hQ t ht k hx).1, fun i hb => ((hQ t ht k hx).2 i (Or.inr hb)).1⟩)
          (fun t i ht _ hc => stepOff t k i ht (by rw [ht.2.1]; exact hk) hc)
          s1 s2 q1 h2
        have q3 := min_daily_staff_ind d (fun t => SoleSenior b t ∧ t.keys = s.keys ∧
            liveTotal t.workers ≤ liveTotal s.workers)
          (fun t ht x hx hb => ((hQ t ht x hx).2 d (Or.inl hb)).1)
          (fun t x ht hx _ _ hc => stepOff t x d ht hx hc)
          k s2 s3 q2 h3
        rw [propagate_conflicts_of_nil s3 k d q3.1.noconf] at hp
        simp only [Prod.mk.injEq, true_and] at hp
        subst hp
        exact q3

/-! ### The choice of `mrv` -/

theorem mrvLoop_zero (all : List (String × Worker)) (rest : List (String × Worker)) :
    ∀ m, (∀ p ∈ rest, findWorker all p.1 = some p.2) → (∀ p ∈ rest, p.1 ≠ "") →
      liveCount ((findWorker all (mrvLoop all rest m)).getD Worker.fresh) = 0 →
      (m = "" ∨ liveCount ((findWorker all m).getD Worker.fresh) = 0) ∧
        ∀ p ∈ rest, liveCount p.2 = 0 := by
  induction rest with
  | nil =>
    intro m _ _ h
    exact ⟨Or.inr h, fun p hp => absurd hp (List.not_mem_nil _)⟩
  | cons q tl ih =>
    intro m hfind hne h
    have hfind' : ∀ p ∈ tl, findWorker all p.1 = some p.2 :=
      fun p hp => hfind p (List.mem_cons_of_mem _ hp)
    have hne' : ∀ p ∈ tl, p.1 ≠ "" := fun p hp => hne p (List.mem_cons_of_mem _ hp)
    have hq : liveCount ((findWorker all q.1).getD Worker.fresh) = liveCount q.2 := by
      rw [hfind q (List.mem_cons_self _ _)]
      rfl
    unfold mrvLoop at h
    by_cases hm : m = ""
    · rw [if_pos hm] at h
      obtain ⟨h1, h2⟩ := ih q.1 hfind' hne' h
      have hq0 : liveCount q.2 = 0 := by
        rcases h1 with e | e
        · exact absurd e (hne q (List.mem_cons_self _ _))
        · rw [← hq]; exact e
      refine ⟨Or.inl hm, ?_⟩
      intro p hp
      rcases List.mem_cons.1 hp with e | e
      · rw [e]; exact hq0
      · exact h2 p e
    · rw [if_neg hm] at h
      simp only at h
      by_cases hc : Domain.count ((findWorker all m).getD Worker.fresh).domain.on_ +
          Domain.count ((findWorker all m).getD Worker.fresh).domain.off = 0 ∨
          (Domain.count q.2.domain.on_ + Domain.count q.2.domain.off ≠ 0 ∧
            Domain.count q.2.domain.on_ + Domain.count q.2.domain.off <
              Domain.count ((findWorker all m).getD Worker.fresh).domain.on_ +
                Domain.count ((findWorker all m).getD Worker.fresh).domain.off)
      · rw [if_pos hc] at h
        obtain ⟨h1, h2⟩ := ih q.1 hfind' hne' h
        have hq0 : liveCount q.2 = 0 := by
          rcases h1 with e | e
          · exact absurd e (hne q (List.mem_cons_self _ _))
          · rw [← hq]; exact e
        refine ⟨?_, ?_⟩
        · right
          rcases hc with e | e
          · exact e
          · exact absurd hq0 e.1
        · intro p hp
          rcases List.mem_cons.1 hp with e | e
          · rw [e]; exact hq0
          · exact h2 p e
      · rw [if_neg hc] at h
        obtain ⟨h1, _⟩ := ih m hfind' hne' h
        rcases h1 with e | e
        · exact absurd e hm
        · exact absurd (Or.inl e) hc

/-- On a table with distinct keys, none of them empty, the worker chosen by `mrv` has no
available option only if no worker has one. -/
theorem mrv_zero (s : Schedule) (hn : s.keys.Nodup) (he : "" ∉ s.keys)
    (h : liveCount (s.worker (mrv s.workers)) = 0) : ∀ k ∈ s.keys, liveCount (s.worker k) = 0 := by
  have key := (mrvLoop_zero s.workers s.workers "" (fun p hp => findWorker_of_mem_nodup _ hn p hp)
    (fun p hp e => he (by rw [← e]; exact List.mem_map_of_mem Prod.fst hp)) h).2
  intro k hk
  exact key (k, s.worker k) (findWorker_mem _ _ _ (Schedule.worker_of_mem s k hk))

theorem mem_of_getD_eq_one (l : List Int) (d : Nat) (h : l.getD d 0 = 1) : (1 : Int) ∈ l := by
  induction l generalizing d with
  | nil => simp at h
  | cons a tl ih =>
    cases d with
    | zero =>
      simp only [List.getD_cons_zero] at h
      rw [h]
      exact List.mem_cons_self _ _
    | succ n =>
      simp only [List.getD_cons_succ] at h
      exact List.mem_cons_of_mem _ (ih n h)

theorem getD_ne_one_of_count (l : List Int) (h : Domain.count l = 0) (d : Nat) :
    l.getD d 0 ≠ 1 := by
  intro e
  have hm := mem_of_getD_eq_one l d e
  unfold Domain.count at h
  have h0 : l.count 1 = 0 := by exact_mod_cast h
  exact (List.count_eq_zero.1 h0) hm

/-- In a state of the invariant the senior still has an available option. -/
theorem soleSenior_live (b : String) (s : Schedule) (h : SoleSenior b s) :
    liveCount (s.worker b) ≠ 0 := by
  intro h0
  unfold liveCount at h0
  have hon := domain_count_nonneg (s.worker b).domain.on_
  have hoff := domain_count_nonneg (s.worker b).domain.off
  have hon0 : Domain.count (s.worker b).domain.on_ = 0 := by omega
  have hoff0 : Domain.count (s.worker b).domain.off = 0 := by omega
  have hall : ∀ d ∈ days, b ∉ s.off.getD d [] := by
    intro d hd
    apply h.disj d
    rcases h.reach d hd with e | e
    · exact absurd e (getD_ne_one_of_count _ hon0 d)
    · exact e
  have hcount : Schedule.count s.off b = 0 := by
    unfold Schedule.count
    have : days.countP (fun i => decide (b ∈ s.off.getD i [])) = 0 := by
      rw [List.countP_eq_zero]
      intro d hd
      simpa using hall d hd
    rw [this]
    rfl
  have hr := h.rest
  have hp := h.restPos
  rw [hoff0, hcount] at hr
  omega


/-! ### Moves that fail in the recursion -/

theorem tryMove_none_of_rec (rec : Schedule → Option (Bool × Schedule)) (s1 : Schedule)
    (k : String) (i : Nat)
    (h : ∀ p, (Constraint.check s1 k i).1 = true →
      Constraint.propagate (Constraint.check s1 k i).2 k i = (true, p) →
      ∃ t, rec p = some (false, t)) :
    tryMove rec s1 k i = some (none, (Constraint.check s1 k i).2) := by
  simp only [tryMove]
  split
  · rfl
  · rename_i hc
    split
    · rfl
    · rename_i hp
      obtain ⟨t, ht⟩ := h _ (by simpa using hc) (Prod.ext (by simpa using hp) rfl)
      rw [ht]

theorem trialOn_none_of_rec (rec : Schedule → Option (Bool × Schedule)) (k : String) (i : Nat)
    (s : Schedule) (hk : k ∈ s.keys) (hl : LiveUncommitted s k)
    (h : s.bOn k i = 1 → ∀ p, (Constraint.check (commitOn s k i) k i).1 = true →
      Constraint.propagate (Constraint.check (commitOn s k i) k i).2 k i = (true, p) →
      ∃ t, rec p = some (false, t)) :
    trialOn rec k i s = some (none, s) := by
  by_cases hb : s.bOn k i = 1
  · have e : trialOn rec k i s = some (none,
        ((((Constraint.check (commitOn s k i) k i).2).ersOn i k).setOn k i 1).setOff k i
          (s.bOff k i)) := by
      have hb' : (s.worker k).domain.on_.getD i 0 = 1 := hb
      simp only [trialOn, hb', ↓reduceIte]
      have := tryMove_none_of_rec rec (commitOn s k i) k i (h hb)
      simp only [commitOn] at this
      rw [this]
      rfl
    rw [e, run_rollback_on s k i hk hb (hl i (Or.inl hb)).1]
  · have hb' : ¬ (s.worker k).domain.on_.getD i 0 = 1 := hb
    simp only [trialOn, hb', ↓reduceIte]

theorem trialOff_none_of_rec (rec : Schedule → Option (Bool × Schedule)) (k : String) (i : Nat)
    (s : Schedule) (hk : k ∈ s.keys) (hl : LiveUncommitted s k)
    (h : s.bOff k i = 1 → ∀ p, (Constraint.check (commitOff s k i) k i).1 = true →
      Constraint.propagate (Constraint.check (commitOff s k i) k i).2 k i = (true, p) →
      ∃ t, rec p = some (false, t)) :
    trialOff rec k i s = some (none, s) := by
  by_cases hb : s.bOff k i = 1
  · have e : trialOff rec k i s = some (none,
        ((((Constraint.check (commitOff s k i) k i).2).ersOff i k).setOn k i
          (s.bOn k i)).setOff k i 1) := by
      have hb' : (s.worker k).domain.off.getD i 0 = 1 := hb
      simp only [trialOff, hb', ↓reduceIte]
      have := tryMove_none_of_rec rec (commitOff s k i) k i (h hb)
      simp only [commitOff] at this
      rw [this]
      rfl
    rw [e, run_rollback_off s k i hk hb (hl i (Or.inr hb)).2]
  · have hb' : ¬ (s.worker k).domain.off.getD i 0 = 1 := hb
    simp only [trialOff, hb', ↓reduceIte]

/-- When every move of the loop that passes `check` and `propagate` fails in the
recursion, the loop returns false and leaves the schedule as it was. -/
theorem loop_false_of_rec (rec : Schedule → Option (Bool × Schedule)) (k : String)
    (s : Schedule) (hk : k ∈ s.keys) (hl : LiveUncommitted s k) (rest : List Nat)
    (hOn : ∀ i ∈ rest, s.bOn k i = 1 → ∀ p,
      (Constraint.check (commitOn s k i) k i).1 = true →
      Constraint.propagate (Constraint.check (commitOn s k i) k i).2 k i = (true, p) →
      ∃ t, rec p = some (false, t))
    (hOff : ∀ i ∈ rest, s.bOff k i = 1 → ∀ p,
      (Constraint.check (commitOff s k i) k i).1 = true →
      Constraint.propagate (Constraint.check (commitOff s k i) k i).2 k i = (true, p) →
      ∃ t, rec p = some (false, t)) :
    schedulerLoop rec k rest s = some (false, s) := by
  induction rest with
  | nil => rfl
  | cons i tl ih =>
    simp only [schedulerLoop,
      trialOn_none_of_rec rec k i s hk hl (hOn i (List.mem_cons_self _ _)),
      trialOff_none_of_rec rec k i s hk hl (hOff i (List.mem_cons_self _ _))]
    exact ih (fun j hj => hOn j (List.mem_cons_of_mem _ hj))
      (fun j hj => hOff j (List.mem_cons_of_mem _ hj))

/-- From a state of the invariant the search returns false, given fuel for every
available option. -/
theorem soleSenior_returns_false (b : String) :
    ∀ n s, SoleSenior b s → liveTotal s.workers < n → schedulerFuel n s = some (false, s) := by
  intro n
  induction n with
  | zero => intro s _ h; exact absurd h (Nat.not_lt_zero _)
  | succ n ih =>
    intro s h hlt
    have hne : s.workers ≠ [] := by
      intro e
      have := h.mem
      unfold Schedule.keys at this
      rw [e] at this
      exact absurd this (List.not_mem_nil _)
    have hk : mrv s.workers ∈ s.keys := run_mrv_mem s.workers hne
    have hlive : ¬ (Domain.count (s.worker (mrv s.workers)).domain.on_ = 0 ∧
        Domain.count (s.worker (mrv s.workers)).domain.off = 0) := by
      intro hz
      have h0 : liveCount (s.worker (mrv s.workers)) = 0 := by
        unfold liveCount
        rw [hz.1, hz.2]
        rfl
      exact soleSenior_live b s h (mrv_zero s h.nodup h.noEmpty h0 b h.mem)
    simp only [schedulerFuel, hne, ↓reduceIte, Schedule.touch_of_mem s _ hk, hlive]
    apply loop_false_of_rec _ _ s hk (h.live _ hk) days
    · intro i hi hb p hc hp
      have hk' : mrv s.workers ∈ (commitOn s (mrv s.workers) i).keys := by
        rw [(run_commit_keys s _ i).1]; exact hk
      rw [check_snd _ _ _ hk'] at hp
      have h1 := soleSenior_commitOn b s _ i h hk hi hb hc
      obtain ⟨h2, _, h3⟩ := soleSenior_propagate b _ p _ i h1 hk' hp
      have h4 := liveTotal_commitOn_lt s _ i hk hb
      exact ⟨p, ih p h2 (by omega)⟩
    · intro i _ hb p hc hp
      have hk' : mrv s.workers ∈ (commitOff s (mrv s.workers) i).keys := by
        rw [(run_commit_keys s _ i).2]; exact hk
      rw [check_snd _ _ _ hk'] at hp
      have h1 := soleSenior_commitOff b s _ i h hk hb hc
      obtain ⟨h2, _, h3⟩ := soleSenior_propagate b _ p _ i h1 hk' hp
      have h4 := liveTotal_commitOff_lt s _ i hk hb
      exact ⟨p, ih p h2 (by omega)⟩

/-- In a state of the invariant no complete assignment satisfies the constraints: the
senior would have to be on duty every day and off duty on some day. -/
theorem soleSenior_infeasible (b : String) (s : Schedule) (h : SoleSenior b s) :
    ¬ ∃ a, Feasible s a := by
  rintro ⟨a, ha⟩
  have hon : ∀ d ∈ days, a b d = true := by
    intro d hd
    have h1 := le_trans h.seniors (ha.seniors d hd)
    have hpos : 0 < s.workers.countP (fun p => a p.1 d && decide (p.2.level = "senior")) := by
      exact_mod_cast h1
    obtain ⟨p, hp, hpp⟩ := List.countP_pos_iff.1 hpos
    simp only [Bool.and_eq_true, decide_eq_true_eq] at hpp
    have hw : s.worker p.1 = p.2 := worker_eq_of_mem s h.nodup p hp
    have hb : p.1 = b := h.only p.1 (List.mem_map_of_mem Prod.fst hp) (by rw [hw]; exact hpp.2)
    rw [← hb]
    exact hpp.1
  have h2 := ha.min_days_off b h.mem
  have h0 : days.countP (fun d => !a b d) = 0 := by
    rw [List.countP_eq_zero]
    intro d hd
    simp [hon d hd]
  rw [h0] at h2
  have := h.restPos
  have h3 : s.min_days_off ≤ 0 := by exact_mod_cast h2
  omega


theorem keys_initial (ws : List (String × String)) (cf : List (String × List String))
    (a b c d : Int) : (initial ws cf a b c d).keys = ws.map Prod.fst := by
  simp [Schedule.keys, initial, Function.comp_def]

theorem worker_initial (ws : List (String × String)) (cf : List (String × List String))
    (a b c d : Int) (k : String) (hk : k ∈ ws.map Prod.fst) :
    ∃ lvl, (k, lvl) ∈ ws ∧ (initial ws cf a b c d).worker k = newWorker k lvl := by
  have hk' : k ∈ (initial ws cf a b c d).keys := by rw [keys_initial]; exact hk
  have hm := findWorker_mem _ _ _ (Schedule.worker_of_mem _ k hk')
  simp only [initial, List.mem_map] at hm
  obtain ⟨q, hq, he⟩ := hm
  simp only [Prod.mk.injEq] at he
  obtain ⟨he1, he2⟩ := he
  subst he1
  exact ⟨q.2, hq, he2.symm⟩

/-- The initial state of a roster without conflicts and with a single senior `b`, when a
senior is required every day and between one and seven rest days of everybody. -/
theorem soleSenior_initial (ws : List (String × String)) (b : String) (mdo mc ms msr : Int)
    (hn : (ws.map Prod.fst).Nodup) (he : "" ∉ ws.map Prod.fst) (hb : b ∈ ws.map Prod.fst)
    (honly : ∀ p ∈ ws, p.2 = "senior" → p.1 = b) (hmsr : 1 ≤ msr) (hmdo : 1 ≤ mdo)
    (hmdo7 : mdo ≤ 7) : SoleSenior b (initial ws [] mdo mc ms msr) := by
  have hkeys := keys_initial ws [] mdo mc ms msr
  obtain ⟨lvl, _, hwb⟩ := worker_initial ws [] mdo mc ms msr b hb
  refine ⟨by rw [hkeys]; exact hn, by rw [hkeys]; exact he, by rw [hkeys]; exact hb,
    ?_, ?_, ?_, rfl, rfl, hmsr, hmdo, ?_, ?_, ?_, ?_⟩
  · intro k hk
    obtain ⟨l, _, hw⟩ := worker_initial ws [] mdo mc ms msr k (hkeys ▸ hk)
    rw [hw]
    rfl
  · intro k hk hl
    obtain ⟨l, hm, hw⟩ := worker_initial ws [] mdo mc ms msr k (hkeys ▸ hk)
    rw [hw] at hl
    exact honly (k, l) hm hl
  · intro k _
    exact run_liveUncommitted_of_empty _ k rfl rfl
  · intro d
    unfold Schedule.bOn
    rw [hwb]
    exact bit_zero_or_one Domain.fresh.on_ (by decide) d
  · intro d hd
    left
    unfold Schedule.bOn
    rw [hwb]
    exact fresh_getD_on d (lt_seven_of_mem_days d hd)
  · rw [hwb]
    have h7 : Domain.count (newWorker b lvl).domain.off = 7 := run_fresh_count.2
    have h0 : (0 : Int) ≤ Schedule.count (initial ws [] mdo mc ms msr).off b := by
      unfold Schedule.count
      exact Int.natCast_nonneg _
    show mdo ≤ _
    omega
  · intro d hd
    exact absurd hd (brd_not_mem_empty7 d b)

theorem trio_soleSenior (ws : List (String × String)) (h : ws.Perm trio) :
    SoleSenior "B" (rosterTrio ws) := by
  have hp : (ws.map Prod.fst).Perm ["A", "B", "C"] := h.map Prod.fst
  apply soleSenior_initial
  · exact hp.nodup_iff.2 (by decide)
  · intro hm
    exact absurd (hp.mem_iff.1 hm) (by decide)
  · exact hp.mem_iff.2 (by decide)
  · intro p hpm hs
    have := h.mem_iff.1 hpm
    simp only [trio, List.mem_cons, List.mem_singleton, List.not_mem_nil, or_false] at this
    rcases this with e | e | e
    · rw [e] at hs; exact absurd hs (by decide)
    · rw [e]
    · rw [e] at hs; exact absurd hs (by decide)
  · decide
  · decide
  · decide

/-- On the roster of three, in every table order, the search returns false and no
complete assignment satisfies the constraints. -/
theorem trio_infeasible_false (ws : List (String × String)) (h : ws.Perm trio) :
    (¬ ∃ a, Feasible (rosterTrio ws) a) ∧
      scheduler (rosterTrio ws) = some (false, rosterTrio ws) :=
  ⟨soleSenior_infeasible "B" _ (trio_soleSenior ws h),
    soleSenior_returns_false "B" _ _ (trio_soleSenior ws h) (Nat.lt_succ_self _)⟩

/-- C8 as stated fails: the state built from workers A (regular), B (senior) and C
(regular), no conflicts, `min_daily_staff = 2`, `min_daily_seniors = 1`,
`min_days_off = 2` and `max_consec_days_off = 3` is an initial state, yet no complete
assignment satisfies the four constraint families (B, the only senior, would have to be
on duty on all seven days and off duty on two), and `scheduler` returns false. -/
theorem c8_trio_has_no_feasible_schedule :
    IsInitial (rosterTrio trio) ∧ (¬ ∃ a, Feasible (rosterTrio trio) a) ∧
      scheduler (rosterTrio trio) = some (false, rosterTrio trio) :=
  ⟨isInitial_initial trio 2 3 2 1 (by decide) (by decide) (by decide) (by decide) (by decide),
    trio_infeasible_false trio (List.Perm.refl _)⟩

/-- C8 (amended): on the initial state with exactly the workers A (regular), B (senior)
and C (regular), no conflicts, `min_daily_staff = 2`, `min_daily_seniors = 1`,
`min_days_off = 2` and `max_consec_days_off = 3`, whichever iteration order `ws` of the
worker table is pinned, no feasible schedule exists and `scheduler` returns false,
leaving the schedule as it was. -/
theorem c8_trio_returns_false_in_every_order (ws : List (String × String))
    (h : ws.Perm trio) :
    (¬ ∃ a, Feasible (rosterTrio ws) a) ∧
      scheduler (rosterTrio ws) = some (false, rosterTrio ws) :=
  trio_infeasible_false ws h

/-- C8 (amended) holds in the table order C, B, A. -/
theorem c8_trio_returns_false_in_every_order_witness :
    [("C", "regular"), ("B", "senior"), ("A", "regular")].Perm trio ∧
    (¬ ∃ a, Feasible (rosterTrio [("C", "regular"), ("B", "senior"), ("A", "regular")]) a) ∧
      scheduler (rosterTrio [("C", "regular"), ("B", "senior"), ("A", "regular")]) =
        some (false, rosterTrio [("C", "regular"), ("B", "senior"), ("A", "regular")]) :=
  ⟨by decide, c8_trio_returns_false_in_every_order _ (by decide)⟩

/-! ### The probe of `propagate_conflicts` and its roll back, seen from the worker table -/

theorem getD_set_eq (l : List Int) (i j : Nat) (v : Int) :
    (l.set i v).getD j 0 = if j = i ∧ i < l.length then v else l.getD j 0 := by
  induction l generalizing i j with
  | nil => simp
  | cons a tl ih =>
    cases i with
    | zero =>
      cases j with
      | zero => simp
      | succ m => simp
    | succ n =>
      cases j with
      | zero => simp
      | succ m =>
        simp only [List.set_cons_succ, List.getD_cons_succ, ih n m, List.length_cons,
          Nat.add_lt_add_iff_right, Nat.add_right_cancel_iff]

theorem bits_setBoth (s : Schedule) (k k' : String) (i j : Nat) (x y : Int) (hk : k ∈ s.keys) :
    (((s.setOn k i x).setOff k i y).bOn k' j =
      if k' = k ∧ j = i ∧ i < (s.worker k).domain.on_.length then x else s.bOn k' j) ∧
    (((s.setOn k i x).setOff k i y).bOff k' j =
      if k' = k ∧ j = i ∧ i < (s.worker k).domain.off.length then y else s.bOff k' j) ∧
    (((s.setOn k i x).setOff k i y).worker k').id = (s.worker k').id ∧
    (((s.setOn k i x).setOff k i y).worker k').level = (s.worker k').level ∧
    (((s.setOn k i x).setOff k i y).worker k').domain.on_.length =
      (s.worker k').domain.on_.length ∧
    (((s.setOn k i x).setOff k i y).worker k').domain.off.length =
      (s.worker k').domain.off.length := by
  have h1 : k ∈ (s.setOn k i x).keys := by rw [Schedule.keys_setOn]; exact hk
  unfold Schedule.bOn Schedule.bOff
  rw [Schedule.worker_setOff _ k k' i y h1]
  by_cases h : k' = k
  · subst h
    rw [if_pos rfl, Schedule.worker_setOn s k' k' i x hk, if_pos rfl]
    refine ⟨?_, ?_, rfl, rfl, ?_, ?_⟩
    · show ((s.worker k').domain.on_.set i x).getD j 0 = _
      rw [getD_set_eq]
      by_cases hj : j = i ∧ i < (s.worker k').domain.on_.length
      · rw [if_pos hj, if_pos ⟨rfl, hj⟩]
      · rw [if_neg hj, if_neg (fun hh => hj hh.2)]
    · show ((s.worker k').domain.off.set i y).getD j 0 = _
      rw [getD_set_eq]
      by_cases hj : j = i ∧ i < (s.worker k').domain.off.length
      · rw [if_pos hj, if_pos ⟨rfl, hj⟩]
      · rw [if_neg hj, if_neg (fun hh => hj hh.2)]
    · show ((s.worker k').domain.on_.set i x).length = _
      rw [List.length_set]
    · show ((s.worker k').domain.off.set i y).length = _
      rw [List.length_set]
  · rw [if_neg h, Schedule.worker_setOn s k k' i x hk, if_neg h, if_neg (fun hh => h hh.1),
      if_neg (fun hh => h hh.1)]
    exact ⟨rfl, rfl, rfl, rfl, rfl, rfl⟩

section
open Constraint

/-- The arrays of the table after the probing loop of `propagate_conflicts`. -/
theorem probeOff_bits (wk id wid : String) (rest : List Nat) :
    ∀ s, id ∈ s.keys →
      (probeOff wk id wid rest s).keys = s.keys ∧
      (∀ k', ((probeOff wk id wid rest s).worker k').id = (s.worker k').id ∧
        ((probeOff wk id wid rest s).worker k').level = (s.worker k').level ∧
        ((probeOff wk id wid rest s).worker k').domain.on_.length =
          (s.worker k').domain.on_.length ∧
        ((probeOff wk id wid rest s).worker k').domain.off.length =
          (s.worker k').domain.off.length) ∧
      (∀ k' j, (probeOff wk id wid rest s).bOn k' j =
        if k' = id ∧ j ∈ rest ∧ wk ∈ s.on_.getD j [] ∧ j < (s.worker id).domain.on_.length
        then 0 else s.bOn k' j) ∧
      (∀ k' j, (probeOff wk id wid rest s).bOff k' j =
        if k' = id ∧ j ∈ rest ∧ wk ∈ s.on_.getD j [] ∧ j < (s.worker id).domain.off.length
        then 0 else s.bOff k' j) := by
  induction rest with
  | nil =>
    intro s _
    simp [probeOff]
  | cons i tl ih =>
    intro s hk
    unfold probeOff
    by_cases hc : s.isOn i wk = true
    · rw [if_pos hc]
      have hw : wk ∈ s.on_.getD i [] := by simpa [Schedule.isOn] using hc
      have hk' : id ∈ (((s.setOn id i 0).setOff id i 0).insOff i wid).keys := by
        show id ∈ ((s.setOn id i 0).setOff id i 0).keys
        rw [Schedule.keys_setOff, Schedule.keys_setOn]; exact hk
      obtain ⟨h1, h2, h3, h4⟩ := ih _ hk'
      have hB := fun k' j => bits_setBoth s id k' i j 0 0 hk
      have hkeys : (((s.setOn id i 0).setOff id i 0).insOff i wid).keys
          = s.keys := by
        show ((s.setOn id i 0).setOff id i 0).keys = _
        rw [Schedule.keys_setOff, Schedule.keys_setOn]
      have hon : (((s.setOn id i 0).setOff id i 0).insOff i wid).on_
          = s.on_ := rfl
      have hbOn : ∀ k' j, (((s.setOn id i 0).setOff id i 0).insOff
          i wid).bOn k' j = ((s.setOn id i 0).setOff id i 0).bOn k' j :=
        fun _ _ => rfl
      have hbOff : ∀ k' j, (((s.setOn id i 0).setOff id i 0).insOff
          i wid).bOff k' j = ((s.setOn id i 0).setOff id i 0).bOff k' j :=
        fun _ _ => rfl
      have hwk : ∀ k', (((s.setOn id i 0).setOff id i 0).insOff
          i wid).worker k' = ((s.setOn id i 0).setOff id i 0).worker k' :=
        fun _ => rfl
      refine ⟨h1.trans hkeys, ?_, ?_, ?_⟩
      · intro k'
        obtain ⟨e1, e2, e3, e4⟩ := h2 k'
        rw [e1, e2, e3, e4, hwk]
        exact ⟨(hB k' 0).2.2.1, (hB k' 0).2.2.2.1, (hB k' 0).2.2.2.2.1, (hB k' 0).2.2.2.2.2⟩
      · intro k' j
        rw [h3, hon, hbOn, (hB k' j).1, hwk, (hB id 0).2.2.2.2.1]
        simp only [List.mem_cons]
        by_cases hj : j = i
        · subst hj
          split_ifs <;> first | rfl | (exfalso; tauto)
        · split_ifs <;> first | rfl | (exfalso; tauto)
      · intro k' j
        rw [h4, hon, hbOff, (hB k' j).2.1, hwk, (hB id 0).2.2.2.2.2]
        simp only [List.mem_cons]
        by_cases hj : j = i
        · subst hj
          split_ifs <;> first | rfl | (exfalso; tauto)
        · split_ifs <;> first | rfl | (exfalso; tauto)
    · rw [if_neg hc]
      have hw : wk ∉ s.on_.getD i [] := by simpa [Schedule.isOn] using hc
      obtain ⟨h1, h2, h3, h4⟩ := ih s hk
      refine ⟨h1, h2, ?_, ?_⟩
      · intro k' j
        rw [h3]
        simp only [List.mem_cons]
        by_cases hj : j = i
        · subst hj
          split_ifs <;> first | rfl | (exfalso; tauto)
        · split_ifs <;> first | rfl | (exfalso; tauto)
      · intro k' j
        rw [h4]
        simp only [List.mem_cons]
        by_cases hj : j = i
        · subst hj
          split_ifs <;> first | rfl | (exfalso; tauto)
        · split_ifs <;> first | rfl | (exfalso; tauto)

/-- The arrays of the table after the roll back loop of `propagate_conflicts`. -/
theorem rollbackOff_bits (wk id wid : String) (a b : List Int) (rest : List Nat) :
    ∀ s, id ∈ s.keys →
      (rollbackOff wk id wid a b rest s).keys = s.keys ∧
      (∀ k', ((rollbackOff wk id wid a b rest s).worker k').id = (s.worker k').id ∧
        ((rollbackOff wk id wid a b rest s).worker k').level = (s.worker k').level ∧
        ((rollbackOff wk id wid a b rest s).worker k').domain.on_.length =
          (s.worker k').domain.on_.length ∧
        ((rollbackOff wk id wid a b rest s).worker k').domain.off.length =
          (s.worker k').domain.off.length) ∧
      (∀ k' j, (rollbackOff wk id wid a b rest s).bOn k' j =
        if k' = id ∧ j ∈ rest ∧ wk ∈ s.on_.getD j [] ∧ j < (s.worker id).domain.on_.length
        then a.getD j 0 else s.bOn k' j) ∧
      (∀ k' j, (rollbackOff wk id wid a b rest s).bOff k' j =
        if k' = id ∧ j ∈ rest ∧ wk ∈ s.on_.getD j [] ∧ j < (s.worker id).domain.off.length
        then b.getD j 0 else s.bOff k' j) := by
  induction rest with
  | nil =>
    intro s _
    simp [rollbackOff]
  | cons i tl ih =>
    intro s hk
    unfold rollbackOff
    by_cases hc : s.isOn i wk = true
    · rw [if_pos hc]
      have hw : wk ∈ s.on_.getD i [] := by simpa [Schedule.isOn] using hc
      have hk' : id ∈ (((s.setOn id i (a.getD i 0)).setOff id i (b.getD i 0)).ersOff i wid).keys := by
        show id ∈ ((s.setOn id i (a.getD i 0)).setOff id i (b.getD i 0)).keys
        rw [Schedule.keys_setOff, Schedule.keys_setOn]; exact hk
      obtain ⟨h1, h2, h3, h4⟩ := ih _ hk'
      have hB := fun k' j => bits_setBoth s id k' i j (a.getD i 0) (b.getD i 0) hk
      have hkeys : (((s.setOn id i (a.getD i 0)).setOff id i (b.getD i 0)).ersOff i wid).keys
          = s.keys := by
        show ((s.setOn id i (a.getD i 0)).setOff id i (b.getD i 0)).keys = _
        rw [Schedule.keys_setOff, Schedule.keys_setOn]
      have hon : (((s.setOn id i (a.getD i 0)).setOff id i (b.getD i 0)).ersOff i wid).on_
          = s.on_ := rfl
      have hbOn : ∀ k' j, (((s.setOn id i (a.getD i 0)).setOff id i (b.getD i 0)).ersOff
          i wid).bOn k' j = ((s.setOn id i (a.getD i 0)).setOff id i (b.getD i 0)).bOn k' j :=
        fun _ _ => rfl
      have hbOff : ∀ k' j, (((s.setOn id i (a.getD i 0)).setOff id i (b.getD i 0)).ersOff
          i wid).bOff k' j = ((s.setOn id i (a.getD i 0)).setOff id i (b.getD i 0)).bOff k' j :=
        fun _ _ => rfl
      have hwk : ∀ k', (((s.setOn id i (a.getD i 0)).setOff id i (b.getD i 0)).ersOff
          i wid).worker k' = ((s.setOn id i (a.getD i 0)).setOff id i (b.getD i 0)).worker k' :=
        fun _ => rfl
      refine ⟨h1.trans hkeys, ?_, ?_, ?_⟩
      · intro k'
        obtain ⟨e1, e2, e3, e4⟩ := h2 k'
        rw [e1, e2, e3, e4, hwk]
        exact ⟨(hB k' 0).2.2.1, (hB k' 0).2.2.2.1, (hB k' 0).2.2.2.2.1, (hB k' 0).2.2.2.2.2⟩
      · intro k' j
        rw [h3, hon, hbOn, (hB k' j).1, hwk, (hB id 0).2.2.2.2.1]
        simp only [List.mem_cons]
        by_cases hj : j = i
        · subst hj
          split_ifs <;> first | rfl | (exfalso; tauto)
        · split_ifs <;> first | rfl | (exfalso; tauto)
      · intro k' j
        rw [h4, hon, hbOff, (hB k' j).2.1, hwk, (hB id 0).2.2.2.2.2]
        simp only [List.mem_cons]
        by_cases hj : j = i
        · subst hj
          split_ifs <;> first | rfl | (exfalso; tauto)
        · split_ifs <;> first | rfl | (exfalso; tauto)
    · rw [if_neg hc]
      have hw : wk ∉ s.on_.getD i [] := by simpa [Schedule.isOn] using hc
      obtain ⟨h1, h2, h3, h4⟩ := ih s hk
      refine ⟨h1, h2, ?_, ?_⟩
      · intro k' j
        rw [h3]
        simp only [List.mem_cons]
        by_cases hj : j = i
        · subst hj
          split_ifs <;> first | rfl | (exfalso; tauto)
        · split_ifs <;> first | rfl | (exfalso; tauto)
      · intro k' j
        rw [h4]
        simp only [List.mem_cons]
        by_cases hj : j = i
        · subst hj
          split_ifs <;> first | rfl | (exfalso; tauto)
        · split_ifs <;> first | rfl | (exfalso; tauto)


/-- The probe of `propagate_conflicts` followed by its roll back leaves the table keys,
the ids, the levels, every entry of the arrays and the committed-on sets as they were,
and adds nothing to the committed-off sets. -/
theorem conflictProbe_restore (wk id wid : String) (rest : List Nat) (s : Schedule)
    (hk : id ∈ s.keys) :
    (rollbackOff wk id wid (s.worker id).domain.on_ (s.worker id).domain.off rest
      (probeOff wk id wid rest s)).keys = s.keys ∧
    (∀ k', ((rollbackOff wk id wid (s.worker id).domain.on_ (s.worker id).domain.off rest
        (probeOff wk id wid rest s)).worker k').id = (s.worker k').id ∧
      ((rollbackOff wk id wid (s.worker id).domain.on_ (s.worker id).domain.off rest
        (probeOff wk id wid rest s)).worker k').level = (s.worker k').level) ∧
    (∀ k' j, (rollbackOff wk id wid (s.worker id).domain.on_ (s.worker id).domain.off rest
        (probeOff wk id wid rest s)).bOn k' j = s.bOn k' j) ∧
    (∀ k' j, (rollbackOff wk id wid (s.worker id).domain.on_ (s.worker id).domain.off rest
        (probeOff wk id wid rest s)).bOff k' j = s.bOff k' j) ∧
    (rollbackOff wk id wid (s.worker id).domain.on_ (s.worker id).domain.off rest
        (probeOff wk id wid rest s)).on_ = s.on_ ∧
    (rollbackOff wk id wid (s.worker id).domain.on_ (s.worker id).domain.off rest
        (probeOff wk id wid rest s)).conflicts = s.conflicts ∧
    (rollbackOff wk id wid (s.worker id).domain.on_ (s.worker id).domain.off rest
        (probeOff wk id wid rest s)).min_daily_staff = s.min_daily_staff ∧
    (rollbackOff wk id wid (s.worker id).domain.on_ (s.worker id).domain.off rest
        (probeOff wk id wid rest s)).min_daily_seniors = s.min_daily_seniors ∧
    (∀ j y, y ∈ (rollbackOff wk id wid (s.worker id).domain.on_ (s.worker id).domain.off rest
        (probeOff wk id wid rest s)).off.getD j [] → y ∈ s.off.getD j []) := by
  obtain ⟨p1, p2, p3, p4⟩ := probeOff_bits wk id wid rest s hk
  obtain ⟨q1, q2, q3, q4, q5, q6, q7⟩ := pass_probeOff_board wk id wid rest s
  have hkp : id ∈ (probeOff wk id wid rest s).keys := by rw [p1]; exact hk
  obtain ⟨r1, r2, r3, r4⟩ := rollbackOff_bits wk id wid (s.worker id).domain.on_
    (s.worker id).domain.off rest (probeOff wk id wid rest s) hkp
  obtain ⟨u1, u2, u3, u4, u5, u6, u7⟩ := pass_rollbackOff_board wk id wid
    (s.worker id).domain.on_ (s.worker id).domain.off rest (probeOff wk id wid rest s)
  refine ⟨r1.trans p1, ?_, ?_, ?_, u1.trans q1, u2.trans q2, u5.trans q5, u6.trans q6, ?_⟩
  · intro k'
    exact ⟨(r2 k').1.trans (p2 k').1, (r2 k').2.1.trans (p2 k').2.1⟩
  · intro k' j
    rw [r3, p3, q1, (p2 id).2.2.1]
    by_cases hc : k' = id ∧ j ∈ rest ∧ wk ∈ s.on_.getD j [] ∧
        j < (s.worker id).domain.on_.length
    · rw [if_pos hc, hc.1]
      rfl
    · rw [if_neg hc]
      by_cases hc' : k' = id ∧ j ∈ rest ∧ wk ∈ s.on_.getD j []
      · have hL : ¬ j < (s.worker id).domain.on_.length := fun hl => hc ⟨hc'.1, hc'.2.1, hc'.2.2, hl⟩
        rw [if_neg (fun hh => hL hh.2.2.2), hc'.1]
      · rw [if_neg (fun hh => hc' ⟨hh.1, hh.2.1, hh.2.2.1⟩)]
  · intro k' j
    rw [r4, p4, q1, (p2 id).2.2.2]
    by_cases hc : k' = id ∧ j ∈ rest ∧ wk ∈ s.on_.getD j [] ∧
        j < (s.worker id).domain.off.length
    · rw [if_pos hc, hc.1]
      rfl
    · rw [if_neg hc]
      by_cases hc' : k' = id ∧ j ∈ rest ∧ wk ∈ s.on_.getD j []
      · have hL : ¬ j < (s.worker id).domain.off.length := fun hl => hc ⟨hc'.1, hc'.2.1, hc'.2.2, hl⟩
        rw [if_neg (fun hh => hL hh.2.2.2), hc'.1]
      · rw [if_neg (fun hh => hc' ⟨hh.1, hh.2.1, hh.2.2.1⟩)]
  · intro j y hy
    obtain ⟨hm, hn⟩ := u7 j y hy
    rcases q7 j y hm with h' | ⟨ha, hb, hc'⟩
    · exact h'
    · rw [q1] at hn
      exact absurd ha (hn hb hc')

/-- Induction over the eliminations of `propagate_conflicts`: a property that survives
every probe that passed `check`, after its roll back, survives the pass. -/
theorem conflicts_loop_ind (k : String) (day : Nat) (Q : Schedule → Prop) (ids : List String)
    (hbase : ∀ t, Q t → ∀ id ∈ ids, id ∈ t.keys ∧ (t.worker id).id = id)
    (hstep : ∀ t id, Q t → id ∈ ids → t.bOn id day = 1 →
      (check (probeOff k id id days (t.setOn id day 0)) id day).1 = true →
      Q (rollbackOff k id id ((t.setOn id day 0).worker id).domain.on_
        ((t.setOn id day 0).worker id).domain.off days
        (probeOff k id id days (t.setOn id day 0))))
    (rest : List String) (hrest : ∀ id ∈ rest, id ∈ ids) :
    ∀ s s', Q s → propagate_conflicts_loop k day rest s = (true, s') → Q s' := by
  induction rest with
  | nil =>
    intro s s' hq h
    simp only [propagate_conflicts_loop, Prod.mk.injEq, true_and] at h
    subst h
    exact hq
  | cons id tl ih =>
    intro s s' hq h
    have hid := hrest id (List.mem_cons_self _ _)
    have hrest' : ∀ x ∈ tl, x ∈ ids := fun x hx => hrest x (List.mem_cons_of_mem _ hx)
    obtain ⟨hk, hw⟩ := hbase s hq id hid
    unfold propagate_conflicts_loop at h
    simp only [Schedule.touch_of_mem s id hk, hw] at h
    by_cases hb : (s.worker id).domain.on_.getD day 0 = 1
    · rw [if_pos hb] at h
      have hk2 : id ∈ (probeOff k id id days (s.setOn id day 0)).keys := by
        rw [(probeOff_bits k id id days (s.setOn id day 0)
          (by rw [Schedule.keys_setOn]; exact hk)).1, Schedule.keys_setOn]
        exact hk
      rw [check_snd _ _ _ hk2] at h
      by_cases hc : (check (probeOff k id id days (s.setOn id day 0)) id day).1 = false
      · rw [if_pos hc] at h
        simp at h
      · rw [if_neg hc] at h
        exact ih hrest' _ _ (hstep s id hq hid hb (by simpa using hc)) h
    · rw [if_neg hb] at h
      exact ih hrest' _ _ hq h

end

/-! ## Propagation only removes options -/

section
open Constraint

end

section
open Constraint

end

/-! ## The effect of `propagate_conflicts` on the domains -/

section
open Constraint

theorem conflicts_loop_spec (k : String) (d : Nat) (ids : List String) :
    ∀ s s', (∀ id ∈ ids, id ∈ s.keys ∧ (s.worker id).id = id) →
      propagate_conflicts_loop k d ids s = (true, s') →
      (∀ x ∈ ids, s'.bOn x d ≠ 1) ∧
      (∀ x j, s'.bOn x j = s.bOn x j ∨ s'.bOn x j = 0) ∧
      (∀ x j, ¬ (x ∈ ids ∧ j = d) → s'.bOn x j = s.bOn x j) ∧
      (∀ x j, s'.bOff x j = s.bOff x j) := by
  induction ids with
  | nil =>
    intro s s' _ h
    simp only [propagate_conflicts_loop, Prod.mk.injEq, true_and] at h
    subst h
    exact ⟨fun x hx => absurd hx (List.not_mem_nil _), fun _ _ => Or.inl rfl,
      fun _ _ _ => rfl, fun _ _ => rfl⟩
  | cons id tl ih =>
    intro s s' hids h
    obtain ⟨hk, hw⟩ := hids id (List.mem_cons_self _ _)
    have hids' : ∀ x ∈ tl, x ∈ s.keys ∧ (s.worker x).id = x :=
      fun x hx => hids x (List.mem_cons_of_mem _ hx)
    unfold propagate_conflicts_loop at h
    simp only [Schedule.touch_of_mem s id hk, hw] at h
    by_cases hb : (s.worker id).domain.on_.getD d 0 = 1
    · rw [if_pos hb] at h
      have hk1 : id ∈ (s.setOn id d 0).keys := by rw [Schedule.keys_setOn]; exact hk
      have hk2 : id ∈ (probeOff k id id days (s.setOn id d 0)).keys := by
        rw [(probeOff_bits k id id days (s.setOn id d 0) hk1).1]
        exact hk1
      rw [check_snd _ _ _ hk2] at h
      by_cases hc : (check (probeOff k id id days (s.setOn id d 0)) id d).1 = false
      · rw [if_pos hc] at h
        simp at h
      · rw [if_neg hc] at h
        obtain ⟨c1, c2, c3, c4, _⟩ := conflictProbe_restore k id id days (s.setOn id d 0) hk1
        have hB := fun x j => bits_setOn s id x d j hk
        obtain ⟨i1, i2, i3, i4⟩ := ih _ s' (by
          intro x hx
          rw [c1, (c2 x).1, Schedule.keys_setOn, (hB x 0).2.2.1]
          exact hids' x hx) h
        have hu : ∀ x j, (rollbackOff k id id ((s.setOn id d 0).worker id).domain.on_
            ((s.setOn id d 0).worker id).domain.off days
            (probeOff k id id days (s.setOn id d 0))).bOn x j =
            if x = id ∧ j = d then 0 else s.bOn x j := by
          intro x j
          rw [c3, (hB x j).1]
        have hv : ∀ x j, (rollbackOff k id id ((s.setOn id d 0).worker id).domain.on_
            ((s.setOn id d 0).worker id).domain.off days
            (probeOff k id id days (s.setOn id d 0))).bOff x j = s.bOff x j := by
          intro x j
          rw [c4]
          unfold Schedule.bOff
          rw [(hB x j).2.1]
        refine ⟨?_, ?_, ?_, ?_⟩
        · intro x hx
          rcases List.mem_cons.1 hx with e | e
          · by_cases hm : id ∈ tl
            · rw [e]; exact i1 id hm
            · rw [e, i3 id d (fun hh => hm hh.1), hu, if_pos ⟨rfl, rfl⟩]
              decide
          · exact i1 x e
        · intro x j
          rcases i2 x j with e | e
          · rw [e, hu]
            by_cases hc' : x = id ∧ j = d
            · rw [if_pos hc']; right; rfl
            · rw [if_neg hc']; left; rfl
          · right; exact e
        · intro x j hn
          rw [i3 x j (fun hh => hn ⟨List.mem_cons_of_mem _ hh.1, hh.2⟩), hu,
            if_neg (fun (hh : x = id ∧ j = d) =>
              hn ⟨by rw [hh.1]; exact List.mem_cons_self _ _, hh.2⟩)]
        · intro x j
          rw [i4, hv]
    · rw [if_neg hb] at h
      obtain ⟨i1, i2, i3, i4⟩ := ih s s' hids' h
      refine ⟨?_, i2, fun x j hn => i3 x j
        (fun hh => hn ⟨List.mem_cons_of_mem _ hh.1, hh.2⟩), i4⟩
      intro x hx
      rcases List.mem_cons.1 hx with e | e
      · by_cases hm : id ∈ tl
        · rw [e]; exact i1 id hm
        · rw [e, i3 id d (fun hh => hm hh.1)]
          exact hb
      · exact i1 x e

theorem DataInv.bOff_cases {s : Schedule} (hs : DataInv s) {w : String} (hw : w ∈ s.keys)
    (i : Nat) : s.bOff w i = 0 ∨ s.bOff w i = 1 :=
  bit_zero_or_one _ (hs.bits _ (hs.mem_worker hw)).2 i

theorem DataInv.worker_id {s : Schedule} (hs : DataInv s) {w : String} (hw : w ∈ s.keys) :
    (s.worker w).id = w := hs.ids _ (hs.mem_worker hw)

theorem propagate_conflicts_spec (s : Schedule) (hs : DataInv s) (w : String) (d : Nat) :
    (s.isOn d w = false → propagate_conflicts s w d = (true, s)) ∧
    (s.isOn d w = true → ∀ s', propagate_conflicts s w d = (true, s') →
      (∀ x ∈ s.conflictsOf w, s'.bOn x d = 0) ∧
      (∀ x j, ¬ (x ∈ s.conflictsOf w ∧ j = d) → s'.bOn x j = s.bOn x j) ∧
      (∀ x j, s'.bOff x j = s.bOff x j)) := by
  constructor
  · intro h
    unfold propagate_conflicts
    rw [if_neg (by rw [h]; decide)]
  · intro h s' hp
    unfold propagate_conflicts at hp
    rw [if_pos h] at hp
    have hids : ∀ id ∈ s.conflictsOf w, id ∈ s.keys ∧ (s.worker id).id = id := by
      intro id hid
      have hk := (hs.declared w id hid).2
      exact ⟨hk, hs.worker_id hk⟩
    obtain ⟨h1, h2, h3, h4⟩ := conflicts_loop_spec w d _ s s' hids hp
    refine ⟨?_, h3, h4⟩
    intro x hx
    rcases h2 x d with e | e
    · rcases hs.bOn_cases (hids x hx).1 d with e' | e'
      · rw [e]; exact e'
      · exact absurd (e.trans e') (h1 x hx)
    · exact e

/-- C22: in a state satisfying the data-model invariants, for every worker `w` and day
`d`: if `w` is not committed on duty on `d`, `Constraint::propagate_conflicts` returns
true and leaves the state unchanged; if `w` is committed on duty on `d` and the call
returns true, then afterwards no worker of the conflict set of `w` has the on-duty option
of day `d`, and every other entry of every domain array is as before the call. -/
theorem c22_propagate_conflicts (s : Schedule) (hs : DataInv s) (w : String) (d : Nat) :
    (s.isOn d w = false → propagate_conflicts s w d = (true, s)) ∧
    (s.isOn d w = true → ∀ s', propagate_conflicts s w d = (true, s') →
      (∀ x ∈ s.conflictsOf w, s'.bOn x d = 0) ∧
      (∀ x j, ¬ (x ∈ s.conflictsOf w ∧ j = d) → s'.bOn x j = s.bOn x j) ∧
      (∀ x j, s'.bOff x j = s.bOff x j)) :=
  propagate_conflicts_spec s hs w d

/-- C22 on a concrete call: `X` is committed on duty on day 1 and its partner `W` still
has the on-duty option of that day, which `propagate_conflicts` removes. -/
theorem c22_propagate_conflicts_witness :
    stateConflictProbe.bOn "W" 1 = 1 ∧
    (propagate_conflicts stateConflictProbe "X" 1).1 = true ∧
    (propagate_conflicts stateConflictProbe "X" 1).2.bOn "W" 1 = 0 ∧
    (propagate_conflicts stateConflictProbe "X" 1).2.bOn "W" 2 = 1 ∧
    (propagate_conflicts stateConflictProbe "X" 1).2.bOff "W" 1 = 1 :=
  have h := (c22_propagate_conflicts stateConflictProbe dataInv_stateConflictProbe "X" 1).2
    (by decide) (propagate_conflicts stateConflictProbe "X" 1).2 (by decide)
  ⟨by decide, by decide, h.1 "W" (by decide),
    (h.2.1 "W" 2 (fun hh => absurd hh.2 (by decide))).trans (by decide),
    (h.2.2 "W" 1).trans (by decide)⟩

end

/-! ## The effect of `propagate_min_daily_staff` on the domains -/

section
open Constraint

theorem force_staff_loop_spec (b : Bool) (d : Nat) (keys : List String) :
    ∀ s s', (∀ x ∈ keys, x ∈ s.keys) →
      (∀ x ∈ keys, s.bOn x d = 1 → x ∉ s.on_.getD d []) →
      force_staff_loop b d keys s = (true, s') →
      s'.on_ = s.on_ ∧ s'.off = s.off ∧ s'.keys = s.keys ∧
      (∀ x, (s'.worker x).level = (s.worker x).level ∧
        (s'.worker x).domain.on_ = (s.worker x).domain.on_) ∧
      (∀ x j, j ≠ d → s'.bOff x j = s.bOff x j) ∧
      (∀ x, s'.bOff x d = s.bOff x d ∨ s'.bOff x d = 0) ∧
      (∀ x ∈ keys, (b = false ∨ (s.worker x).level = "senior") → s.bOn x d = 1 →
        s'.bOff x d ≠ 1) ∧
      (∀ x, ¬ (b = false ∨ (s.worker x).level = "senior") → s'.worker x = s.worker x) := by
  induction keys with
  | nil =>
    intro s s' _ _ h
    simp only [force_staff_loop, Prod.mk.injEq, true_and] at h
    subst h
    exact ⟨rfl, rfl, rfl, fun _ => ⟨rfl, rfl⟩, fun _ _ _ => rfl, fun _ => Or.inl rfl,
      fun x hx => absurd hx (List.not_mem_nil _), fun _ _ => rfl⟩
  | cons k tl ih =>
    intro s s' hsub hfree h
    have hk : k ∈ s.keys := hsub k (List.mem_cons_self _ _)
    have hsub' : ∀ y ∈ tl, y ∈ s.keys := fun y hy => hsub y (List.mem_cons_of_mem _ hy)
    have hfree' : ∀ y ∈ tl, s.bOn y d = 1 → y ∉ s.on_.getD d [] :=
      fun y hy => hfree y (List.mem_cons_of_mem _ hy)
    unfold force_staff_loop at h
    simp only at h
    by_cases hcond : (b = false ∨ (s.worker k).level = "senior") ∧
        (s.worker k).domain.on_.getD d 0 = 1 ∧ (s.worker k).domain.off.getD d 0 = 1
    · rw [if_pos hcond] at h
      have hk1 : k ∈ (((s.setOff k d 0).setOn k d 0).insOn d k).keys := by
        show k ∈ ((s.setOff k d 0).setOn k d 0).keys
        rw [Schedule.keys_setOn, Schedule.keys_setOff]; exact hk
      rw [check_snd _ _ _ hk1] at h
      by_cases hc : (check (((s.setOff k d 0).setOn k d 0).insOn d k) k d).1 = false
      · rw [if_pos hc] at h
        simp at h
      · rw [if_neg hc] at h
        rw [staffProbe_rollback s k d hcond.2.1 (hfree k (List.mem_cons_self _ _) hcond.2.1)]
          at h
        have hB := fun x j => bits_setOff s k x d j hk
        have hbOn : ∀ x j, (s.setOff k d 0).bOn x j = s.bOn x j := by
          intro x j
          unfold Schedule.bOn
          rw [(hB x j).2.1]
        obtain ⟨i1, i2, i3, i4, i5, i6, i7, i8⟩ := ih (s.setOff k d 0) s'
          (fun y hy => by rw [Schedule.keys_setOff]; exact hsub' y hy)
          (fun y hy hb => hfree' y hy (by rw [← hbOn y d]; exact hb)) h
        refine ⟨i1, i2, i3.trans (Schedule.keys_setOff _ _ _ _), ?_, ?_, ?_, ?_, ?_⟩
        · intro x
          exact ⟨(i4 x).1.trans (hB x 0).2.2.2, (i4 x).2.trans (hB x 0).2.1⟩
        · intro x j hj
          rw [i5 x j hj, (hB x j).1, if_neg (fun hh => hj hh.2)]
        · intro x
          rcases i6 x with e | e
          · rw [e, (hB x d).1]
            by_cases hc' : x = k ∧ d = d
            · rw [if_pos hc']; right; rfl
            · rw [if_neg hc']; left; rfl
          · right; exact e
        · intro x hx hal hb
          rcases List.mem_cons.1 hx with e | e
          · rcases i6 x with e' | e'
            · rw [e', (hB x d).1, if_pos ⟨e, rfl⟩]
              decide
            · rw [e']; decide
          · exact i7 x e (by rw [(hB x 0).2.2.2]; exact hal) (by rw [hbOn]; exact hb)
        · intro x hal
          have hxk : x ≠ k := fun e => hal (e ▸ hcond.1)
          rw [i8 x (by rw [(hB x 0).2.2.2]; exact hal), Schedule.worker_setOff s k x d 0 hk,
            if_neg hxk]
    · rw [if_neg hcond] at h
      obtain ⟨i1, i2, i3, i4, i5, i6, i7, i8⟩ := ih s s' hsub' hfree' h
      refine ⟨i1, i2, i3, i4, i5, i6, ?_, i8⟩
      intro x hx hal hb
      rcases List.mem_cons.1 hx with e | e
      · have hne : s.bOff x d ≠ 1 := by
          intro h1
          apply hcond
          rw [← e]
          exact ⟨hal, hb, h1⟩
        rcases i6 x with e' | e'
        · rw [e']; exact hne
        · rw [e']; decide
      · exact i7 x e hal hb

theorem DataInv.live_not_on {s : Schedule} (hs : DataInv s) {x : String} (hx : x ∈ s.keys)
    (d : Nat) (hb : s.bOn x d = 1) : x ∉ s.on_.getD d [] := by
  intro hm
  by_cases hd : d ∈ days
  · have := (hs.committed_dead x hx d hd (Or.inl (by simpa [Schedule.isOn] using hm))).1
    rw [this] at hb
    exact absurd hb (by decide)
  · have hlen := hs.len_sets.1
    have : s.on_.getD d [] = [] := by
      apply List.getD_eq_default
      rw [hlen]
      by_contra hlt
      apply hd
      have : d < 7 := by omega
      simp only [days, List.mem_cons, List.mem_singleton, List.not_mem_nil, or_false]
      omega
    rw [this] at hm
    exact absurd hm (List.not_mem_nil _)

theorem propagate_min_daily_staff_spec (s : Schedule) (hs : DataInv s) (k : String) (d : Nat)
    (s' : Schedule) (h : propagate_min_daily_staff s k d = (true, s')) :
    (workers_count s d = s.min_daily_staff →
      ∀ x ∈ s.keys, s.bOn x d = 1 → s'.bOff x d = 0) ∧
    (workers_count s d ≠ s.min_daily_staff → seniors_count s d = s.min_daily_seniors →
      (∀ x ∈ s.keys, (s.worker x).level = "senior" → s.bOn x d = 1 → s'.bOff x d = 0) ∧
      (∀ x, (s.worker x).level ≠ "senior" → s'.worker x = s.worker x)) ∧
    (workers_count s d ≠ s.min_daily_staff → seniors_count s d ≠ s.min_daily_seniors →
      s' = s) ∧
    (∀ x, (s'.worker x).domain.on_ = (s.worker x).domain.on_) ∧
    (∀ x j, j ≠ d → s'.bOff x j = s.bOff x j) ∧
    s'.on_ = s.on_ ∧ s'.off = s.off := by
  have hfree : ∀ x ∈ s.workers.map Prod.fst, s.bOn x d = 1 → x ∉ s.on_.getD d [] :=
    fun x hx hb => hs.live_not_on hx d hb
  have hzero : ∀ x ∈ s.keys, (s'.bOff x d = s.bOff x d ∨ s'.bOff x d = 0) →
      s'.bOff x d ≠ 1 → s'.bOff x d = 0 := by
    intro x hx h6 hne
    rcases h6 with e | e
    · rcases hs.bOff_cases hx d with e' | e'
      · rw [e]; exact e'
      · exact absurd (e.trans e') hne
    · exact e
  unfold propagate_min_daily_staff at h
  by_cases hT : workers_count s d = s.min_daily_staff
  · rw [if_pos hT] at h
    obtain ⟨i1, i2, _, i4, i5, i6, i7, _⟩ :=
      force_staff_loop_spec false d _ s s' (fun x hx => hx) hfree h
    refine ⟨?_, fun hn => absurd hT hn, fun hn => absurd hT hn, fun x => (i4 x).2, i5, i1, i2⟩
    intro _ x hx hb
    exact hzero x hx (i6 x) (i7 x hx (Or.inl rfl) hb)
  · rw [if_neg hT] at h
    by_cases hS : seniors_count s d = s.min_daily_seniors
    · rw [if_pos hS] at h
      obtain ⟨i1, i2, _, i4, i5, i6, i7, i8⟩ :=
        force_staff_loop_spec true d _ s s' (fun x hx => hx) hfree h
      refine ⟨fun e => absurd e hT, ?_, fun _ hn => absurd hS hn, fun x => (i4 x).2, i5,
        i1, i2⟩
      intro _ _
      constructor
      · intro x hx hl hb
        exact hzero x hx (i6 x) (i7 x hx (Or.inr hl) hb)
      · intro x hl
        apply i8 x
        rintro (e | e)
        · exact absurd e (by decide)
        · exact hl e
    · rw [if_neg hS] at h
      simp only [Prod.mk.injEq, true_and] at h
      subst h
      exact ⟨fun e => absurd e hT, fun _ e => absurd e hS, fun _ _ => rfl, fun _ => rfl,
        fun _ _ _ => rfl, rfl, rfl⟩

/-- C21: in a state satisfying the data-model invariants, for every day `d`, with `T` the
number of workers committed on duty or with the on-duty option on `d` and `S` the number
of seniors among them: if `Constraint::propagate_min_daily_staff` returns true then
(a) when `T = min_daily_staff`, every worker with the on-duty option of `d` has no
off-duty option of `d` afterwards; (b) when `T ≠ min_daily_staff` and
`S = min_daily_seniors`, every senior with the on-duty option of `d` has no off-duty
option of `d` afterwards and no worker of another level is changed; (c) when neither
equality holds the state is unchanged; and in all cases no on-duty option, no option of
another day and no committed set changes. -/
theorem c21_propagate_min_daily_staff (s : Schedule) (hs : DataInv s) (k : String) (d : Nat)
    (s' : Schedule) (h : propagate_min_daily_staff s k d = (true, s')) :
    (workers_count s d = s.min_daily_staff →
      ∀ x ∈ s.keys, s.bOn x d = 1 → s'.bOff x d = 0) ∧
    (workers_count s d ≠ s.min_daily_staff → seniors_count s d = s.min_daily_seniors →
      (∀ x ∈ s.keys, (s.worker x).level = "senior" → s.bOn x d = 1 → s'.bOff x d = 0) ∧
      (∀ x, (s.worker x).level ≠ "senior" → s'.worker x = s.worker x)) ∧
    (workers_count s d ≠ s.min_daily_staff → seniors_count s d ≠ s.min_daily_seniors →
      s' = s) ∧
    (∀ x, (s'.worker x).domain.on_ = (s.worker x).domain.on_) ∧
    (∀ x j, j ≠ d → s'.bOff x j = s.bOff x j) ∧
    s'.on_ = s.on_ ∧ s'.off = s.off :=
  propagate_min_daily_staff_spec s hs k d s' h

theorem dataInv_rosterPair : DataInv rosterPair where
  keys_nodup := by decide
  ids := by decide
  len_sets := by decide
  len_arrs := by decide
  bits := by decide
  exclusive := by decide
  committed_dead := by decide
  declared := by
    intro a b h
    rw [conflictsOf_nil rosterPair rfl a] at h
    simp at h
  symm := by
    intro a b h
    rw [conflictsOf_nil rosterPair rfl a] at h
    simp at h
  irrefl := by
    intro a
    rw [conflictsOf_nil rosterPair rfl a]
    simp
  nonneg := by decide

/-- C21 on a concrete call: two workers, both with the on-duty option of day 0, and a
staffing threshold of two; both lose the off-duty option of day 0 and keep that of
day 1. -/
theorem c21_propagate_min_daily_staff_witness :
    workers_count rosterPair 0 = rosterPair.min_daily_staff ∧
    (propagate_min_daily_staff rosterPair "A" 0).1 = true ∧
    (propagate_min_daily_staff rosterPair "A" 0).2.bOff "A" 0 = 0 ∧
    (propagate_min_daily_staff rosterPair "A" 0).2.bOff "B" 0 = 0 ∧
    (propagate_min_daily_staff rosterPair "A" 0).2.bOff "B" 1 = 1 :=
  have h := c21_propagate_min_daily_staff rosterPair dataInv_rosterPair "A" 0
    (propagate_min_daily_staff rosterPair "A" 0).2 (by decide)
  ⟨by decide, by decide, h.1 (by decide) "A" (by decide) (by decide),
    h.1 (by decide) "B" (by decide) (by decide),
    (h.2.2.2.2.1 "B" 1 (by decide)).trans (by decide)⟩

end

/-! ## Staffing of every day of a schedule found by the search -/

theorem countP_workers_keys (u : Schedule) (hn : u.keys.Nodup) (f : Worker → Bool) :
    u.workers.countP (fun p => f p.2) = u.keys.countP (fun k => f (u.worker k)) := by
  unfold Schedule.keys
  rw [List.countP_map]
  apply List.countP_congr
  intro p hp
  have hw := worker_eq_of_mem u hn p hp
  simp only [Function.comp_apply, hw]

theorem reachable_congr (u v : Schedule) (k : String) (d : Nat)
    (hb : v.bOn k d = u.bOn k d) (hid : (v.worker k).id = (u.worker k).id)
    (hon : ∀ x, x ∈ v.on_.getD d [] ↔ x ∈ u.on_.getD d []) :
    Constraint.reachable v d (v.worker k) = Constraint.reachable u d (u.worker k) := by
  rw [Bool.eq_iff_iff, reachable_worker_iff, reachable_worker_iff, hb, hid, hon]

theorem counts_congr (u v : Schedule) (d : Nat) (hnu : u.keys.Nodup) (hkeys : v.keys = u.keys)
    (hr : ∀ k ∈ u.keys, Constraint.reachable v d (v.worker k) =
      Constraint.reachable u d (u.worker k))
    (hl : ∀ k, (v.worker k).level = (u.worker k).level) :
    Constraint.workers_count v d = Constraint.workers_count u d ∧
    Constraint.seniors_count v d = Constraint.seniors_count u d := by
  have hnv : v.keys.Nodup := by rw [hkeys]; exact hnu
  unfold Constraint.workers_count Constraint.seniors_count
  rw [countP_workers_keys v hnv (fun w => Constraint.reachable v d w),
    countP_workers_keys u hnu (fun w => Constraint.reachable u d w),
    countP_workers_keys v hnv
      (fun w => Constraint.reachable v d w && decide (w.level = "senior")),
    countP_workers_keys u hnu
      (fun w => Constraint.reachable u d w && decide (w.level = "senior")), hkeys]
  constructor
  · congr 1
    apply List.countP_congr
    intro k hk
    simp only [hr k hk]
  · congr 1
    apply List.countP_congr
    intro k hk
    simp only [hr k hk, hl k]


theorem live_of_narrow (s u : Schedule) (k : String) (hl : LiveUncommitted s k)
    (hon : ∀ j, k ∈ u.on_.getD j [] → k ∈ s.on_.getD j [])
    (hoff : ∀ j, k ∈ u.off.getD j [] → k ∈ s.off.getD j [])
    (hbOn : ∀ j, u.bOn k j = s.bOn k j ∨ u.bOn k j = 0)
    (hbOff : ∀ j, u.bOff k j = s.bOff k j ∨ u.bOff k j = 0) : LiveUncommitted u k := by
  intro j hbit
  have hs : s.bOn k j = 1 ∨ s.bOff k j = 1 := by
    rcases hbit with e | e
    · left
      rcases hbOn j with e' | e'
      · rw [← e']; exact e
      · rw [e'] at e; exact absurd e (by decide)
    · right
      rcases hbOff j with e' | e'
      · rw [← e']; exact e
      · rw [e'] at e; exact absurd e (by decide)
  exact ⟨fun hm => (hl j hs).1 (hon j hm), fun hm => (hl j hs).2 (hoff j hm)⟩

theorem staffed_of_step (s u : Schedule) (h : Staffed s) (hkeys : u.keys = s.keys)
    (hcf : u.conflicts = s.conflicts) (hid : ∀ k, (u.worker k).id = (s.worker k).id)
    (hbit : ∀ k j, u.bOn k j = s.bOn k j ∨ u.bOn k j = 0)
    (hlive : ∀ k ∈ s.keys, LiveUncommitted u k)
    (hstaff : ∀ d ∈ days, u.min_daily_staff ≤ Constraint.workers_count u d ∧
      u.min_daily_seniors ≤ Constraint.seniors_count u d) : Staffed u := by
  refine ⟨by rw [hkeys]; exact h.nodup, by rw [hkeys]; exact h.noEmpty, ?_, ?_, ?_, ?_, hstaff⟩
  · intro k hk
    rw [hid]
    exact h.ids k (hkeys ▸ hk)
  · intro k hk
    exact hlive k (hkeys ▸ hk)
  · intro a b hab
    rw [brd_conflictsOf_eq s u hcf a] at hab
    rw [hkeys]
    exact h.declared a b hab
  · intro k hk d
    rcases hbit k d with e | e
    · rw [e]; exact h.bits k (hkeys ▸ hk) d
    · left; exact e

theorem staffed_commitOn (s : Schedule) (k : String) (i : Nat) (h : Staffed s)
    (hk : k ∈ s.keys)
    (hc : (Constraint.check (commitOn s k i) k i).1 = true) : Staffed (commitOn s k i) := by
  have hkeys : (commitOn s k i).keys = s.keys := (run_commit_keys s k i).1
  have hB := fun k' j => bits_commitOn s k k' i j hk
  have hmem : ∀ x j, j ≠ i → (x ∈ (commitOn s k i).on_.getD j [] ↔ x ∈ s.on_.getD j []) := by
    intro x j hj
    show x ∈ (s.on_.set i (setInsert (s.on_.getD i []) k)).getD j [] ↔ _
    rw [brd_mem_getD_set, if_neg (fun hh => hj hh.1)]
  refine staffed_of_step s _ h hkeys rfl (fun k' => (hB k' 0).2.2.1) ?_ ?_ ?_
  · intro k' j
    rw [(hB k' j).1]
    by_cases hc' : k' = k ∧ j = i
    · rw [if_pos hc']; right; rfl
    · rw [if_neg hc']; left; rfl
  · intro k' hk' j hbit
    rw [(hB k' j).1, (hB k' j).2.1] at hbit
    by_cases hc' : k' = k ∧ j = i
    · rw [if_pos hc', if_pos hc'] at hbit
      rcases hbit with e | e <;> exact absurd e (by decide)
    · rw [if_neg hc', if_neg hc'] at hbit
      have hl := h.live k' hk' j hbit
      refine ⟨?_, hl.2⟩
      by_cases hkk : k' = k
      · have hj : j ≠ i := fun e => hc' ⟨hkk, e⟩
        rw [hmem k' j hj]
        exact hl.1
      · rw [mem_on_commitOn_of_ne s k k' i j hkk]
        exact hl.1
  · intro d hd
    by_cases hdi : d = i
    · rw [hdi]
      exact check_staff _ _ _ (by rw [hkeys]; exact hk) hc
    · have := counts_congr s (commitOn s k i) d h.nodup hkeys
        (fun k' _ => reachable_congr s _ k' d
          (by rw [(hB k' d).1, if_neg (fun hh => hdi hh.2)]) (hB k' 0).2.2.1
          (fun x => hmem x d hdi))
        (fun k' => (hB k' 0).2.2.2)
      rw [this.1, this.2]
      exact h.staff d hd

theorem staffed_commitOff (s : Schedule) (k : String) (i : Nat) (h : Staffed s)
    (hk : k ∈ s.keys)
    (hc : (Constraint.check (commitOff s k i) k i).1 = true) : Staffed (commitOff s k i) := by
  have hkeys : (commitOff s k i).keys = s.keys := (run_commit_keys s k i).2
  have hB := fun k' j => bits_commitOff s k k' i j hk
  have hmem : ∀ x j, j ≠ i → (x ∈ (commitOff s k i).off.getD j [] ↔ x ∈ s.off.getD j []) := by
    intro x j hj
    show x ∈ (s.off.set i (setInsert (s.off.getD i []) k)).getD j [] ↔ _
    rw [brd_mem_getD_set, if_neg (fun hh => hj hh.1)]
  refine staffed_of_step s _ h hkeys rfl (fun k' => (hB k' 0).2.2.1) ?_ ?_ ?_
  · intro k' j
    rw [(hB k' j).1]
    by_cases hc' : k' = k ∧ j = i
    · rw [if_pos hc']; right; rfl
    · rw [if_neg hc']; left; rfl
  · intro k' hk' j hbit
    rw [(hB k' j).1, (hB k' j).2.1] at hbit
    by_cases hc' : k' = k ∧ j = i
    · rw [if_pos hc', if_pos hc'] at hbit
      rcases hbit with e | e <;> exact absurd e (by decide)
    · rw [if_neg hc', if_neg hc'] at hbit
      have hl := h.live k' hk' j hbit
      refine ⟨hl.1, ?_⟩
      by_cases hkk : k' = k
      · have hj : j ≠ i := fun e => hc' ⟨hkk, e⟩
        rw [hmem k' j hj]
        exact hl.2
      · rw [mem_off_commitOff s k k' i j hkk]
        exact hl.2
  · intro d hd
    by_cases hdi : d = i
    · rw [hdi]
      exact check_staff _ _ _ (by rw [hkeys]; exact hk) hc
    · have := counts_congr s (commitOff s k i) d h.nodup hkeys
        (fun k' _ => reachable_congr s _ k' d
          (by rw [(hB k' d).1, if_neg (fun hh => hdi hh.2)]) (hB k' 0).2.2.1
          (fun x => Iff.rfl))
        (fun k' => (hB k' 0).2.2.2)
      rw [this.1, this.2]
      exact h.staff d hd

/-- The removal of an on-duty option whose rest-day probe passed `check`. -/
theorem staffed_probed (s : Schedule) (k : String) (i : Nat) (h : Staffed s)
    (hk : k ∈ s.keys)
    (hc : (Constraint.check (probeOffDuty s k i) k i).1 = true) :
    Staffed (s.setOn k i 0) := by
  rw [probeOffDuty_eq] at hc
  have hkeys : (s.setOn k i 0).keys = s.keys := Schedule.keys_setOn _ _ _ _
  have hB := fun k' j => bits_setOn s k k' i j hk
  have hC := fun k' j => bits_commitOff s k k' i j hk
  have hbit : ∀ k' j, (s.setOn k i 0).bOn k' j = s.bOn k' j ∨ (s.setOn k i 0).bOn k' j = 0 := by
    intro k' j
    rw [(hB k' j).1]
    by_cases hc' : k' = k ∧ j = i
    · rw [if_pos hc']; right; rfl
    · rw [if_neg hc']; left; rfl
  refine staffed_of_step s _ h hkeys rfl (fun k' => (hB k' 0).2.2.1) hbit ?_ ?_
  · intro k' hk'
    exact live_of_narrow s _ k' (h.live k' hk') (fun _ hm => hm) (fun _ hm => hm) (hbit k')
      (fun j => Or.inl (by unfold Schedule.bOff; rw [(hB k' j).2.1]))
  · intro d hd
    by_cases hdi : d = i
    · have hkc : (commitOff s k i).keys = s.keys := (run_commit_keys s k i).2
      have := counts_congr (commitOff s k i) (s.setOn k i 0) d (by rw [hkc]; exact h.nodup)
        (hkeys.trans hkc.symm)
        (fun k' _ => reachable_congr _ _ k' d
          (by rw [(hB k' d).1, (hC k' d).1])
          (by rw [(hB k' 0).2.2.1, (hC k' 0).2.2.1]) (fun x => Iff.rfl))
        (fun k' => by rw [(hB k' 0).2.2.2, (hC k' 0).2.2.2])
      rw [this.1, this.2, hdi]
      exact check_staff _ _ _ (by rw [hkc]; exact hk) hc
    · have := counts_congr s (s.setOn k i 0) d h.nodup hkeys
        (fun k' _ => reachable_congr s _ k' d
          (by rw [(hB k' d).1, if_neg (fun hh => hdi hh.2)]) (hB k' 0).2.2.1
          (fun x => Iff.rfl))
        (fun k' => (hB k' 0).2.2.2)
      rw [this.1, this.2]
      exact h.staff d hd

/-- The removal of an off-duty option changes no staffing count. -/
theorem staffed_setOff (s : Schedule) (k : String) (i : Nat) (h : Staffed s)
    (hk : k ∈ s.keys) : Staffed (s.setOff k i 0) := by
  have hkeys : (s.setOff k i 0).keys = s.keys := Schedule.keys_setOff _ _ _ _
  have hB := fun k' j => bits_setOff s k k' i j hk
  have hbOn : ∀ k' j, (s.setOff k i 0).bOn k' j = s.bOn k' j := by
    intro k' j
    unfold Schedule.bOn
    rw [(hB k' j).2.1]
  refine staffed_of_step s _ h hkeys rfl (fun k' => (hB k' 0).2.2.1)
    (fun k' j => Or.inl (hbOn k' j)) ?_ ?_
  · intro k' hk'
    refine live_of_narrow s _ k' (h.live k' hk') (fun _ hm => hm) (fun _ hm => hm)
      (fun j => Or.inl (hbOn k' j)) ?_
    intro j
    rw [(hB k' j).1]
    by_cases hc' : k' = k ∧ j = i
    · rw [if_pos hc']; right; rfl
    · rw [if_neg hc']; left; rfl
  · intro d hd
    have := counts_congr s (s.setOff k i 0) d h.nodup hkeys
      (fun k' _ => reachable_congr s _ k' d (hbOn k' d) (hB k' 0).2.2.1 (fun x => Iff.rfl))
      (fun k' => (hB k' 0).2.2.2)
    rw [this.1, this.2]
    exact h.staff d hd


section
open Constraint

/-- The removal of a partner's on-duty option whose probe passed `check`. -/
theorem staffed_conflictProbe (t : Schedule) (k id : String) (day : Nat) (h : Staffed t)
    (hid : id ∈ t.keys)
    (hc : (check (probeOff k id id days (t.setOn id day 0)) id day).1 = true) :
    Staffed (rollbackOff k id id ((t.setOn id day 0).worker id).domain.on_
      ((t.setOn id day 0).worker id).domain.off days
      (probeOff k id id days (t.setOn id day 0))) := by
  have hk1 : id ∈ (t.setOn id day 0).keys := by rw [Schedule.keys_setOn]; exact hid
  obtain ⟨c1, c2, c3, c4, c5, c6, c7, c8, c9⟩ :=
    conflictProbe_restore k id id days (t.setOn id day 0) hk1
  obtain ⟨p1, p2, p3, _⟩ := probeOff_bits k id id days (t.setOn id day 0) hk1
  obtain ⟨q1, _, _, _, q5, q6, _⟩ := pass_probeOff_board k id id days (t.setOn id day 0)
  have hB := fun k' j => bits_setOn t id k' day j hid
  have hkeys1 : (t.setOn id day 0).keys = t.keys := Schedule.keys_setOn _ _ _ _
  have hbit : ∀ k' j, (rollbackOff k id id ((t.setOn id day 0).worker id).domain.on_
      ((t.setOn id day 0).worker id).domain.off days
      (probeOff k id id days (t.setOn id day 0))).bOn k' j = t.bOn k' j ∨
      (rollbackOff k id id ((t.setOn id day 0).worker id).domain.on_
      ((t.setOn id day 0).worker id).domain.off days
      (probeOff k id id days (t.setOn id day 0))).bOn k' j = 0 := by
    intro k' j
    rw [c3, (hB k' j).1]
    by_cases hc' : k' = id ∧ j = day
    · rw [if_pos hc']; right; rfl
    · rw [if_neg hc']; left; rfl
  refine staffed_of_step t _ h (c1.trans hkeys1) c6
    (fun k' => (c2 k').1.trans (hB k' 0).2.2.1) hbit ?_ ?_
  · intro k' hk'
    refine live_of_narrow t _ k' (h.live k' hk') ?_ ?_ (hbit k') ?_
    · intro j hm
      rw [c5] at hm
      exact hm
    · intro j hm
      exact c9 j k' hm
    · intro j
      left
      rw [c4]
      unfold Schedule.bOff
      rw [(hB k' j).2.1]
  · intro d hd
    rw [c7, c8]
    by_cases hdd : d = day
    · have hkp : (probeOff k id id days (t.setOn id day 0)).keys = t.keys := p1.trans hkeys1
      have := counts_congr (probeOff k id id days (t.setOn id day 0)) _ d
        (by rw [hkp]; exact h.nodup) (c1.trans p1.symm)
        (fun k' _ => reachable_congr _ _ k' d
          (by
            rw [c3, p3]
            split_ifs with hcnd
            · rw [hcnd.1, hdd, bOn_setOn_self t id day hid]
            · rfl)
          (by rw [(c2 k').1, (p2 k').1])
          (fun x => by rw [c5, q1]))
        (fun k' => by rw [(c2 k').2, (p2 k').2.1])
      rw [this.1, this.2, hdd]
      have hs := check_staff _ _ _ (by rw [hkp]; exact hid) hc
      rw [q5, q6] at hs
      exact hs
    · have := counts_congr t _ d h.nodup (c1.trans hkeys1)
        (fun k' _ => reachable_congr t _ k' d
          (by rw [c3, (hB k' d).1, if_neg (fun hh => hdd hh.2)])
          ((c2 k').1.trans (hB k' 0).2.2.1)
          (fun x => by rw [c5]; exact Iff.rfl))
        (fun k' => (c2 k').2.trans (hB k' 0).2.2.2)
      rw [this.1, this.2]
      exact h.staff d hd

/-- A successful run of `propagate` keeps the staffing invariant and the table keys. -/
theorem staffed_propagate (s s' : Schedule) (k : String) (d : Nat) (h : Staffed s)
    (hk : k ∈ s.keys) (hp : propagate s k d = (true, s')) :
    Staffed s' ∧ s'.keys = s.keys := by
  simp only [propagate] at hp
  generalize h1 : propagate_min_days_off s k = r1 at hp
  obtain ⟨b1, s1⟩ := r1
  cases b1 with
  | false => simp at hp
  | true =>
    simp only [Bool.true_eq_false, ↓reduceIte] at hp
    generalize h2 : propagate_max_consec_days_off s1 k = r2 at hp
    obtain ⟨b2, s2⟩ := r2
    cases b2 with
    | false => simp at hp
    | true =>
      simp only [Bool.true_eq_false, ↓reduceIte] at hp
      generalize h3 : propagate_min_daily_staff s2 k d = r3 at hp
      obtain ⟨b3, s3⟩ := r3
      cases b3 with
      | false => simp at hp
      | true =>
        simp only [Bool.true_eq_false, ↓reduceIte] at hp
        have q1 := min_days_off_ind k (fun t => Staffed t ∧ t.keys = s.keys)
          (fun t ht => by
            have hx : k ∈ t.keys := by rw [ht.2]; exact hk
            exact ⟨hx, ht.1.ids k hx, fun i _ hb => (ht.1.live k hx i (Or.inr hb)).2⟩)
          (fun t i ht _ _ _ hc =>
            ⟨staffed_probed t k i ht.1 (by rw [ht.2]; exact hk) hc,
              (Schedule.keys_setOn _ _ _ _).trans ht.2⟩)
          s s1 ⟨h, rfl⟩ h1
        have q2 := max_consec_ind k (fun t => Staffed t ∧ t.keys = s.keys)
          (fun t ht => by
            have hx : k ∈ t.keys := by rw [ht.2]; exact hk
            exact ⟨hx, ht.1.ids k hx, fun i hb => (ht.1.live k hx i (Or.inr hb)).1⟩)
          (fun t i ht _ _ =>
            ⟨staffed_setOff t k i ht.1 (by rw [ht.2]; exact hk),
              (Schedule.keys_setOff _ _ _ _).trans ht.2⟩)
          s1 s2 q1 h2
        have q3 := min_daily_staff_ind d (fun t => Staffed t ∧ t.keys = s.keys)
          (fun t ht x hx hb => (ht.1.live x hx d (Or.inl hb)).1)
          (fun t x ht hx _ _ _ =>
            ⟨staffed_setOff t x d ht.1 hx, (Schedule.keys_setOff _ _ _ _).trans ht.2⟩)
          k s2 s3 q2 h3
        unfold propagate_conflicts at hp
        split at hp
        · exact conflicts_loop_ind k d (fun t => Staffed t ∧ t.keys = s.keys)
            (s3.conflictsOf k)
            (fun t ht id hid => by
              have hx : id ∈ t.keys := by
                rw [ht.2, ← q3.2]
                exact q3.1.declared k id hid
              exact ⟨hx, ht.1.ids id hx⟩)
            (fun t id ht hid _ hc => by
              have hx : id ∈ t.keys := by
                rw [ht.2, ← q3.2]
                exact q3.1.declared k id hid
              refine ⟨staffed_conflictProbe t k id d ht.1 hx hc, ?_⟩
              rw [(conflictProbe_restore k id id days (t.setOn id d 0)
                (by rw [Schedule.keys_setOn]; exact hx)).1, Schedule.keys_setOn]
              exact ht.2)
            (s3.conflictsOf k) (fun _ h => h) s3 s' q3 hp
        · simp only [Prod.mk.injEq, true_and] at hp
          subst hp
          exact q3

/-- From a state of the staffing invariant, a successful search ends in a state of the
invariant in which the worker chosen by `mrv` has no available option. -/
theorem staffed_search : ∀ n s t, Staffed s → s.workers ≠ [] →
    schedulerFuel n s = some (true, t) →
    Staffed t ∧ liveCount (t.worker (mrv t.workers)) = 0 := by
  intro n
  induction n with
  | zero => intro s t _ _ h; simp [schedulerFuel] at h
  | succ n ih =>
    intro s t hs hne h
    have hk : mrv s.workers ∈ s.keys := run_mrv_mem s.workers hne
    simp only [schedulerFuel, hne, ↓reduceIte, Schedule.touch_of_mem s _ hk] at h
    split at h
    · rename_i hz
      simp only [Option.some.injEq, Prod.mk.injEq, true_and] at h
      subst h
      refine ⟨hs, ?_⟩
      unfold liveCount
      rw [hz.1, hz.2]
      rfl
    · have loop : ∀ rest, schedulerLoop (schedulerFuel n) (mrv s.workers) rest s =
          some (true, t) → Staffed t ∧ liveCount (t.worker (mrv t.workers)) = 0 := by
        intro rest
        induction rest with
        | nil => intro h; simp [schedulerLoop] at h
        | cons i tl ihl =>
          intro h
          simp only [schedulerLoop] at h
          split at h
          · simp at h
          · rename_i t' c' hon
            simp only [Option.some.injEq, Prod.mk.injEq, true_and] at h
            subst h
            obtain ⟨_, hc, p, hp, hr⟩ := run_trialOn_true _ _ i s t' c' hon
            have hk' : mrv s.workers ∈ (commitOn s (mrv s.workers) i).keys := by
              rw [(run_commit_keys s _ i).1]; exact hk
            rw [check_snd _ _ _ hk'] at hp
            have h1 := staffed_commitOn s _ i hs hk hc
            obtain ⟨h2, h3⟩ := staffed_propagate _ p _ i h1 hk' hp
            have hne' : p.workers ≠ [] := by
              intro e
              have : p.keys = [] := by unfold Schedule.keys; rw [e]; rfl
              rw [h3] at this
              rw [this] at hk'
              exact absurd hk' (List.not_mem_nil _)
            exact ih p t' h2 hne' hr
          · rename_i sa hon
            have e1 := run_trialOn_none_eq _ _ i s sa hk (hs.live _ hk) hon
            subst e1
            split at h
            · simp at h
            · rename_i t' c' hoff
              simp only [Option.some.injEq, Prod.mk.injEq, true_and] at h
              subst h
              obtain ⟨_, hc, p, hp, hr⟩ := run_trialOff_true _ _ i sa t' c' hoff
              have hk' : mrv sa.workers ∈ (commitOff sa (mrv sa.workers) i).keys := by
                rw [(run_commit_keys sa _ i).2]; exact hk
              rw [check_snd _ _ _ hk'] at hp
              have h1 := staffed_commitOff sa _ i hs hk hc
              obtain ⟨h2, h3⟩ := staffed_propagate _ p _ i h1 hk' hp
              have hne' : p.workers ≠ [] := by
                intro e
                have : p.keys = [] := by unfold Schedule.keys; rw [e]; rfl
                rw [h3] at this
                rw [this] at hk'
                exact absurd hk' (List.not_mem_nil _)
              exact ih p t' h2 hne' hr
            · rename_i sb hoff
              have e2 := run_trialOff_none_eq _ _ i sa sb hk (hs.live _ hk) hoff
              subst e2
              exact ihl h
      exact loop days h

/-- When no worker has an available option, the workers that can still be on duty on a
day are those committed on duty: the staffing invariant then is the staffing of the
schedule. -/
theorem staffed_final (t : Schedule) (ht : Staffed t)
    (h0 : liveCount (t.worker (mrv t.workers)) = 0) :
    ∀ d ∈ days, t.min_daily_staff ≤ onCount t d ∧ t.min_daily_seniors ≤ seniorOnCount t d := by
  have hall := mrv_zero t ht.nodup ht.noEmpty h0
  have hreach : ∀ d, ∀ p ∈ t.workers, reachable t d p.2 = t.isOn d p.1 := by
    intro d p hp
    have hk : p.1 ∈ t.keys := List.mem_map_of_mem Prod.fst hp
    have hw : t.worker p.1 = p.2 := worker_eq_of_mem t ht.nodup p hp
    have hz := hall p.1 hk
    unfold liveCount at hz
    have hon := domain_count_nonneg (t.worker p.1).domain.on_
    have hoff := domain_count_nonneg (t.worker p.1).domain.off
    have hon0 : Domain.count (t.worker p.1).domain.on_ = 0 := by omega
    have hb : t.bOn p.1 d = 0 := by
      rcases ht.bits p.1 hk d with e | e
      · exact e
      · exact absurd e (getD_ne_one_of_count _ hon0 d)
    have hid := ht.ids p.1 hk
    rw [hw] at hid
    unfold reachable
    have hb' : p.2.domain.on_.getD d 0 = 0 := by
      rw [← hw]; exact hb
    rw [hb', hid]
    simp
  intro d hd
  obtain ⟨h1, h2⟩ := ht.staff d hd
  have e1 : workers_count t d = onCount t d := by
    unfold workers_count onCount
    congr 1
    apply List.countP_congr
    intro p hp
    simp only [hreach d p hp]
  have e2 : seniors_count t d = seniorOnCount t d := by
    unfold seniors_count seniorOnCount
    congr 1
    apply List.countP_congr
    intro p hp
    simp only [hreach d p hp]
  rw [← e1, ← e2]
  exact ⟨h1, h2⟩

theorem initial_worker (s : Schedule) (hs : IsInitial s) (k : String) (hk : k ∈ s.keys) :
    (s.worker k).id = k ∧ (s.worker k).domain = Domain.fresh := by
  have hm := findWorker_mem _ _ _ (Schedule.worker_of_mem s k hk)
  exact ⟨hs.ids _ hm, hs.fresh _ hm⟩

theorem staffed_initial (s : Schedule) (hs : IsInitial s) (he : "" ∉ s.keys)
    (hst : ∀ d ∈ days, s.min_daily_staff ≤ workers_count s d ∧
      s.min_daily_seniors ≤ seniors_count s d) : Staffed s := by
  refine ⟨hs.keys_nodup, he, fun k hk => (initial_worker s hs k hk).1,
    fun k _ => run_liveUncommitted_of_empty s k hs.on_empty hs.off_empty,
    fun a b hab => (hs.declared a b hab).2, ?_, hst⟩
  intro k hk d
  unfold Schedule.bOn
  rw [(initial_worker s hs k hk).2]
  exact bit_zero_or_one Domain.fresh.on_ (by decide) d

/-- In an initial state that cannot be staffed every first move fails in `check`. -/
theorem initial_unstaffed_false (s : Schedule) (hs : IsInitial s) (hne : s.workers ≠ [])
    (hst : ¬ ∀ d ∈ days, s.min_daily_staff ≤ workers_count s d ∧
      s.min_daily_seniors ≤ seniors_count s d) :
    scheduler s = some (false, s) := by
  have hex : ∃ d ∈ days, ¬ (s.min_daily_staff ≤ workers_count s d ∧
      s.min_daily_seniors ≤ seniors_count s d) := by
    by_contra hno
    apply hst
    intro d hd
    by_contra hn
    exact hno ⟨d, hd, hn⟩
  obtain ⟨d, hd, hbad⟩ := hex
  have hreach : ∀ x ∈ s.keys, reachable s d (s.worker x) = true := by
    intro x hx
    rw [reachable_worker_iff]
    left
    unfold Schedule.bOn
    rw [(initial_worker s hs x hx).2, fresh_getD_on d (lt_seven_of_mem_days d hd)]
    decide
  have hle : ∀ u : Schedule, u.keys = s.keys →
      (∀ x, (u.worker x).level = (s.worker x).level) → ∀ i,
      workers_count u i ≤ workers_count s d ∧ seniors_count u i ≤ seniors_count s d := by
    intro u hk hl i
    have hnu : u.keys.Nodup := by rw [hk]; exact hs.keys_nodup
    unfold workers_count seniors_count
    rw [countP_workers_keys u hnu (fun w => reachable u i w),
      countP_workers_keys s hs.keys_nodup (fun w => reachable s d w),
      countP_workers_keys u hnu (fun w => reachable u i w && decide (w.level = "senior")),
      countP_workers_keys s hs.keys_nodup
        (fun w => reachable s d w && decide (w.level = "senior")), hk]
    constructor
    · apply Int.ofNat_le.2
      apply List.countP_mono_left
      intro x hx _
      simp only [hreach x hx]
    · apply Int.ofNat_le.2
      apply List.countP_mono_left
      intro x hx hxx
      simp only [Bool.and_eq_true, decide_eq_true_eq] at hxx ⊢
      exact ⟨hreach x hx, by rw [← hl x]; exact hxx.2⟩
  have hfail : ∀ u : Schedule, u.keys = s.keys →
      (∀ x, (u.worker x).level = (s.worker x).level) →
      u.min_daily_staff = s.min_daily_staff → u.min_daily_seniors = s.min_daily_seniors →
      ∀ k i, check_min_daily_staff u k i = false := by
    intro u hk hl h1 h2 k i
    obtain ⟨l1, l2⟩ := hle u hk hl i
    unfold check_min_daily_staff
    rw [h1, h2]
    by_cases ha : s.min_daily_staff ≤ workers_count s d
    · have hb : ¬ s.min_daily_seniors ≤ seniors_count u i := by
        intro hh
        exact hbad ⟨ha, le_trans hh l2⟩
      simp [hb]
    · have hb : ¬ s.min_daily_staff ≤ workers_count u i := by
        intro hh
        exact ha (le_trans hh l1)
      simp [hb]
  refine run_initial_all_fail s hne hs.fresh hs.on_empty hs.off_empty ?_ ?_ _
  · intro k hk i
    left
    apply run_check_false_of_staff
    have hk' : k ∈ (commitOn s k i).keys := by rw [(run_commit_keys s k i).1]; exact hk
    rw [Schedule.touch_of_mem _ _ hk']
    exact hfail _ (run_commit_keys s k i).1 (fun x => (bits_commitOn s k x i 0 hk).2.2.2)
      rfl rfl k i
  · intro k hk i
    left
    apply run_check_false_of_staff
    have hk' : k ∈ (commitOff s k i).keys := by rw [(run_commit_keys s k i).2]; exact hk
    rw [Schedule.touch_of_mem _ _ hk']
    exact hfail _ (run_commit_keys s k i).2 (fun x => (bits_commitOff s k x i 0 hk).2.2.2)
      rfl rfl k i

/-- A non-empty initial table without the empty id: a schedule found by the search staffs
every day. -/
theorem initial_true_staffed (s t : Schedule) (hs : IsInitial s) (hne : s.workers ≠ [])
    (he : "" ∉ s.keys) (h : scheduler s = some (true, t)) :
    ∀ d ∈ days, s.min_daily_staff ≤ onCount t d ∧ s.min_daily_seniors ≤ seniorOnCount t d := by
  by_cases hst : ∀ d ∈ days, s.min_daily_staff ≤ workers_count s d ∧
      s.min_daily_seniors ≤ seniors_count s d
  · obtain ⟨h1, h2⟩ := staffed_search _ s t (staffed_initial s hs he hst) hne h
    have hth := run_invariant
      (fun b => b.min_daily_staff = s.min_daily_staff ∧
        b.min_daily_seniors = s.min_daily_seniors)
      (fun b b' hb hsh => ⟨hsh.ms.trans hb.1, hsh.msr.trans hb.2⟩)
      (fun u k i hu _ => hu) (fun u k i hu _ => hu) _ s t ⟨rfl, rfl⟩ h
    have hf := staffed_final t h1 h2
    intro d hd
    have := hf d hd
    have e1 : t.min_daily_staff = s.min_daily_staff := hth.1
    have e2 : t.min_daily_seniors = s.min_daily_seniors := hth.2
    rw [e1, e2] at this
    exact this
  · rw [initial_unstaffed_false s hs hne hst] at h
    simp at h

/-- C3 (amended): for every initial state with a non-empty worker table in which no worker
has the empty id, if `scheduler` returns true then on every day `0..6` of the resulting
state at least `min_daily_staff` workers are committed on duty and at least
`min_daily_seniors` workers of level `"senior"` are committed on duty. -/
theorem c3_staffed_every_day (s t : Schedule) (hs : IsInitial s) (hne : s.workers ≠ [])
    (he : "" ∉ s.keys) (h : scheduler s = some (true, t)) :
    ∀ d ∈ days, s.min_daily_staff ≤ onCount t d ∧ s.min_daily_seniors ≤ seniorOnCount t d :=
  initial_true_staffed s t hs hne he h

/-- C3 (amended) holds on a concrete roster: for the regular worker `A` and the senior
`B` with `min_daily_staff = 2`, `scheduler` returns true and every day is staffed. -/
theorem c3_staffed_every_day_witness :
    IsInitial rosterPair ∧ rosterPair.workers ≠ [] ∧ "" ∉ rosterPair.keys ∧
    ∃ t, scheduler rosterPair = some (true, t) ∧
      ∀ d ∈ days, rosterPair.min_daily_staff ≤ onCount t d ∧
        rosterPair.min_daily_seniors ≤ seniorOnCount t d := by
  have hi : IsInitial rosterPair :=
    isInitial_initial _ 0 8 2 0 (by decide) (by decide) (by decide) (by decide) (by decide)
  obtain ⟨t, ht, _⟩ := exists_true_of_eval rosterPair (fun _ => true) (by decide)
  exact ⟨hi, by decide, by decide, t, ht,
    c3_staffed_every_day rosterPair t hi (by decide) (by decide) ht⟩

/-- C3 as stated fails on the empty worker table: with `min_daily_staff = 1` the state is
initial and `scheduler` returns true (the `workers.empty()` guard), while no worker is
committed on duty on day 0. -/
theorem c3_empty_table_unstaffed :
    IsInitial rosterNobody ∧
    scheduler rosterNobody = some (true, rosterNobody) ∧
    onCount rosterNobody 0 < rosterNobody.min_daily_staff :=
  ⟨isInitial_initial [] 2 3 1 1 (by decide) (by decide) (by decide) (by decide) (by decide),
    by decide, by decide⟩

end

end CSP
